import Mathlib

/-!
# Limb arithmetic kernel (`crypto/limbs/limbs.inl`)

A shallow embedding of the word-level carry/borrow primitives and of the
array-level operations built on them, together with theorems about them.

* A `Limb` is an unsigned word of `W = LIMB_BITS` bits, embedded as a natural
  number below `2 ^ W`; a `Carry` is embedded as a natural number as well; every
  C operation that wraps is followed by an explicit `% 2 ^ bits`.
* Arrays live in one explicit memory `Nat → Nat` addressed in limb units, so
  that a pointer is the address of a first limb and aliasing can be expressed.
* Every array access and every loop test is logged in a trace.
-/

namespace Limbs

/-! ## Word-level layer -/

/-- The arm of the `#if` chain at the top of the file that the build takes:
`RING_USE_BUILTINS`, `RING_USE_X86_INTRINSICS`, or neither (the `DoubleLimb`
fallback). -/
inductive Backend where
  | builtins
  | x86_intrinsics
  | portable
deriving DecidableEq

/-- Unsigned addition of C at a type of `bits` bits. -/
def wadd (bits x y : Nat) : Nat := (x + y) % 2 ^ bits

/-- Unsigned subtraction of C at a type of `bits` bits. -/
def wsub (bits x y : Nat) : Nat := (x % 2 ^ bits + (2 ^ bits - y % 2 ^ bits)) % 2 ^ bits

/-- Compiler builtin `__builtin_add_overflow` on unsigned operands of `bits`
bits: the wrapped sum and whether the true sum did not fit. -/
def builtin_add_overflow (bits x y : Nat) : Nat × Nat :=
  ((x + y) % 2 ^ bits, if x + y < 2 ^ bits then 0 else 1)

/-- Compiler builtin `__builtin_sub_overflow` on unsigned operands of `bits`
bits: the wrapped difference and whether the true difference is negative. -/
def builtin_sub_overflow (bits x y : Nat) : Nat × Nat :=
  (wsub bits x y, if x < y then 1 else 0)

/-- Compiler builtins `__builtin_addcll` / `__builtin_addcl`, by the documented
equivalence: `c1 = add_overflow(x, y, &s); c2 = add_overflow(s, carryin, &s);
*carryout = c1 | c2; return s`. The pair is (returned sum, `*carryout`). -/
def builtin_addc (bits x y carryin : Nat) : Nat × Nat :=
  let p1 := builtin_add_overflow bits x y
  let p2 := builtin_add_overflow bits p1.1 carryin
  (p2.1, p1.2 ||| p2.2)

/-- Compiler builtins `__builtin_subcll` / `__builtin_subcl`, by the documented
equivalence: `c1 = sub_overflow(x, y, &s); c2 = sub_overflow(s, carryin, &s);
*carryout = c1 | c2; return s`. The pair is (returned difference, `*carryout`). -/
def builtin_subc (bits x y carryin : Nat) : Nat × Nat :=
  let p1 := builtin_sub_overflow bits x y
  let p2 := builtin_sub_overflow bits p1.1 carryin
  (p2.1, p1.2 ||| p2.2)

/-- Intrinsics `_addcarry_u64` / `_addcarry_u32`, by the documented operation:
`tmp[bits:0] := a + b + (c_in > 0 ? 1 : 0); *out := tmp[bits-1:0];
dst[0] := tmp[bits]; dst[7:1] := 0`. The pair is (`*out`, returned `dst`). -/
def x86_addcarry (bits c_in a b : Nat) : Nat × Nat :=
  let tmp := (a + b + (if c_in > 0 then 1 else 0)) % 2 ^ (bits + 1)
  (tmp % 2 ^ bits, (tmp >>> bits) % 2)

/-- Intrinsics `_subborrow_u64` / `_subborrow_u32`, by the documented operation:
`tmp[bits:0] := a - (b + (b_in > 0 ? 1 : 0)); *out := tmp[bits-1:0];
dst[0] := tmp[bits]; dst[7:1] := 0`. The pair is (`*out`, returned `dst`). -/
def x86_subborrow (bits b_in a b : Nat) : Nat × Nat :=
  let tmp := wsub (bits + 1) a (b + (if b_in > 0 then 1 else 0))
  (tmp % 2 ^ bits, (tmp >>> bits) % 2)

/-- Word-level `limb_adc(r, a, b, carry_in)`: the pair is (the limb stored in
`*r`, the returned `ret`). `W` is `LIMB_BITS`. -/
def limb_adc (bk : Backend) (W : Nat) (a b : Nat) (carry_in : Nat) : Nat × Nat :=
  match bk with
  | .builtins => builtin_addc W a b carry_in
  | .x86_intrinsics => x86_addcarry W carry_in a b
  | .portable =>
    let x := wadd (2 * W) (wadd (2 * W) a b) carry_in
    (x % 2 ^ W, (x >>> W) % 2 ^ W)

/-- Word-level `limb_sbb(r, a, b, borrow_in)`: the pair is (the limb stored in
`*r`, the returned `ret`). -/
def limb_sbb (bk : Backend) (W : Nat) (a b : Nat) (borrow_in : Nat) : Nat × Nat :=
  match bk with
  | .builtins => builtin_subc W a b borrow_in
  | .x86_intrinsics => x86_subborrow W borrow_in a b
  | .portable =>
    let x := wsub (2 * W) (wsub (2 * W) a b) borrow_in
    (x % 2 ^ W, ((x >>> W) &&& 1) % 2 ^ W)

/-- Word-level `limb_add(r, a, b)`, which is `limb_adc(r, a, b, 0)`. -/
def limb_add (bk : Backend) (W : Nat) (a b : Nat) : Nat × Nat :=
  limb_adc bk W a b 0

/-- Word-level `limb_sub(r, a, b)`, which is `limb_sbb(r, a, b, 0)`. -/
def limb_sub (bk : Backend) (W : Nat) (a b : Nat) : Nat × Nat :=
  limb_sbb bk W a b 0

/-! ## Memory, traces and the array-level layer -/

/-- The parameter of the C function through which memory is accessed. -/
inductive Buf where
  | r
  | a
  | b
  | table
deriving DecidableEq

/-- What an instrumented run records: every array read and write (with the
parameter it goes through and the address in limb units), every loop test with
its outcome, and every call of the two external constant-time helpers. -/
inductive Event where
  | read (buf : Buf) (addr : Nat)
  | write (buf : Buf) (addr : Nat)
  | branch (taken : Bool)
  | eq_w
  | select_w
deriving DecidableEq

/-- Machine state: one memory of limbs, addressed in limb units, and the trace
of the events so far. -/
structure State where
  mem : Nat → Nat
  trace : List Event

/-- Record an event. -/
def State.log (s : State) (e : Event) : State :=
  { s with trace := s.trace ++ [e] }

/-- Array read `buf[...]` at address `addr`. -/
def State.load (s : State) (buf : Buf) (addr : Nat) : Nat × State :=
  (s.mem addr, s.log (Event.read buf addr))

/-- Array write `buf[...] = v` at address `addr`. -/
def State.store (s : State) (buf : Buf) (addr : Nat) (v : Nat) : State :=
  { mem := fun x => if x = addr then v else s.mem x,
    trace := s.trace ++ [Event.write buf addr] }

/-- The call `limb_adc(&r[i], x, y, carry_in)` in a state: the result limb is
stored through the pointer `p`, the carry is returned. -/
def limb_adc_at (bk : Backend) (W : Nat) (s : State) (p : Nat) (x y : Nat)
    (carry_in : Nat) : Nat × State :=
  let out := limb_adc bk W x y carry_in
  (out.2, s.store Buf.r p out.1)

/-- The call `limb_sbb(&r[i], x, y, borrow_in)` in a state. -/
def limb_sbb_at (bk : Backend) (W : Nat) (s : State) (p : Nat) (x y : Nat)
    (borrow_in : Nat) : Nat × State :=
  let out := limb_sbb bk W x y borrow_in
  (out.2, s.store Buf.r p out.1)

/-- The call `limb_add(&r[0], x, y)` in a state. -/
def limb_add_at (bk : Backend) (W : Nat) (s : State) (p : Nat) (x y : Nat) :
    Nat × State :=
  limb_adc_at bk W s p x y 0

/-- The call `limb_sub(&r[0], x, y)` in a state. -/
def limb_sub_at (bk : Backend) (W : Nat) (s : State) (p : Nat) (x y : Nat) :
    Nat × State :=
  limb_sbb_at bk W s p x y 0

/-- The loop `for (; i < num_limbs; ++i) carry = limb_adc(&r[i], a[i], b[i], carry)`
of `limbs_add`, with `todo = num_limbs - i` iterations left. The arguments
`a[i]`, `b[i]` are read left to right before the call stores into `r[i]`. -/
def limbs_add_loop (bk : Backend) (W : Nat) (r a b : Nat) :
    Nat → Nat → Nat → State → Nat × State
  | 0, _, carry, s => (carry, s.log (Event.branch false))
  | todo + 1, i, carry, s =>
    let x := (s.log (Event.branch true)).load Buf.a (a + i)
    let y := x.2.load Buf.b (b + i)
    let o := limb_adc_at bk W y.2 (r + i) x.1 y.1 carry
    limbs_add_loop bk W r a b todo (i + 1) o.1 o.2

/-- Array-level `limbs_add(r, a, b, num_limbs)`; `r`, `a`, `b` are addresses. -/
def limbs_add (bk : Backend) (W : Nat) (s : State) (r a b num_limbs : Nat) :
    Nat × State :=
  let x := s.load Buf.a (a + 0)
  let y := x.2.load Buf.b (b + 0)
  let o := limb_add_at bk W y.2 (r + 0) x.1 y.1
  limbs_add_loop bk W r a b (num_limbs - 1) 1 o.1 o.2

/-- The loop of `limbs_sub`, with `todo = num_limbs - i` iterations left. -/
def limbs_sub_loop (bk : Backend) (W : Nat) (r a b : Nat) :
    Nat → Nat → Nat → State → Nat × State
  | 0, _, borrow, s => (borrow, s.log (Event.branch false))
  | todo + 1, i, borrow, s =>
    let x := (s.log (Event.branch true)).load Buf.a (a + i)
    let y := x.2.load Buf.b (b + i)
    let o := limb_sbb_at bk W y.2 (r + i) x.1 y.1 borrow
    limbs_sub_loop bk W r a b todo (i + 1) o.1 o.2

/-- Array-level `limbs_sub(r, a, b, num_limbs)`. -/
def limbs_sub (bk : Backend) (W : Nat) (s : State) (r a b num_limbs : Nat) :
    Nat × State :=
  let x := s.load Buf.a (a + 0)
  let y := x.2.load Buf.b (b + 0)
  let o := limb_sub_at bk W y.2 (r + 0) x.1 y.1
  limbs_sub_loop bk W r a b (num_limbs - 1) 1 o.1 o.2

/-- The loop `for (; i < num_limbs; ++i) r[i] = a[i]`, `todo` iterations left. -/
def limbs_copy_loop (r a : Nat) : Nat → Nat → State → State
  | 0, _, s => s.log (Event.branch false)
  | todo + 1, i, s =>
    let x := (s.log (Event.branch true)).load Buf.a (a + i)
    limbs_copy_loop r a todo (i + 1) (x.2.store Buf.r (r + i) x.1)

/-- Array-level `limbs_copy(r, a, num_limbs)`. -/
def limbs_copy (s : State) (r a num_limbs : Nat) : State :=
  limbs_copy_loop r a num_limbs 0 s

/-- The loop `for (; i < num_limbs; ++i) r[i] = 0`, `todo` iterations left. -/
def limbs_zero_loop (r : Nat) : Nat → Nat → State → State
  | 0, _, s => s.log (Event.branch false)
  | todo + 1, i, s =>
    limbs_zero_loop r todo (i + 1) ((s.log (Event.branch true)).store Buf.r (r + i) 0)

/-- Array-level `limbs_zero(r, num_limbs)`. -/
def limbs_zero (s : State) (r num_limbs : Nat) : State :=
  limbs_zero_loop r num_limbs 0 s

/-- The inner loop of `limbs_select`,
`for (; i < num_limbs; ++i) r[i] = constant_time_select_w(equal, table[e * num_limbs + i], r[i])`,
with `todo` iterations left. `select_w` is the external `constant_time_select_w`. -/
def limbs_select_inner (select_w : Nat → Nat → Nat → Nat) (r table num_limbs e : Nat)
    (equal : Nat) : Nat → Nat → State → State
  | 0, _, s => s.log (Event.branch false)
  | todo + 1, i, s =>
    let t := (s.log (Event.branch true)).load Buf.table (table + (e * num_limbs + i))
    let x := t.2.load Buf.r (r + i)
    let v := select_w equal t.1 x.1
    limbs_select_inner select_w r table num_limbs e equal todo (i + 1)
      ((x.2.log Event.select_w).store Buf.r (r + i) v)

/-- The outer loop of `limbs_select` over the entries, `todo = num_entries - e`
iterations left. `eq_w` is the external `constant_time_eq_w`. -/
def limbs_select_outer (eq_w : Nat → Nat → Nat) (select_w : Nat → Nat → Nat → Nat)
    (r table num_limbs index : Nat) : Nat → Nat → State → State
  | 0, _, s => s.log (Event.branch false)
  | todo + 1, e, s =>
    let s1 := (s.log (Event.branch true)).log Event.eq_w
    let equal := eq_w index e
    limbs_select_outer eq_w select_w r table num_limbs index todo (e + 1)
      (limbs_select_inner select_w r table num_limbs e equal num_limbs 0 s1)

/-- Array-level `limbs_select(r, table, num_limbs, num_entries, index)`: the
zeroing loop, then the scan of all entries. -/
def limbs_select (eq_w : Nat → Nat → Nat) (select_w : Nat → Nat → Nat → Nat)
    (s : State) (r table num_limbs num_entries index : Nat) : State :=
  limbs_select_outer eq_w select_w r table num_limbs index num_entries 0
    (limbs_zero_loop r num_limbs 0 s)

/-! ## Observation of memory -/

/-- The `n` limbs stored from address `p` on. -/
def read_limbs (m : Nat → Nat) : Nat → Nat → List Nat
  | _, 0 => []
  | p, n + 1 => m p :: read_limbs m (p + 1) n

/-- Little-endian value of a limb array: the sum of `x[i] * 2 ^ (i * W)`. -/
def limbs_int (W : Nat) (x : List Nat) : Nat :=
  ((List.range x.length).map (fun i => x.getD i 0 * 2 ^ (i * W))).sum

/-- A memory holding the limbs `xs` from address `p` on, on top of `m`. -/
def poke (m : Nat → Nat) (p : Nat) (xs : List Nat) : Nat → Nat :=
  fun x => if p ≤ x ∧ x < p + xs.length then xs.getD (x - p) 0 else m x

/-- The all-zero memory with the empty trace. -/
def State.init : State := { mem := fun _ => 0, trace := [] }

/-- Modelled from the spec: `constant_time_eq_w` is declared outside
`limbs.inl` and is not under `src/`. It is the equality mask of two words: the
all-ones word when they are equal, 0 otherwise. -/
def ct_eq_w (W : Nat) (x y : Nat) : Nat := if x = y then 2 ^ W - 1 else 0

/-- Modelled from the spec: `constant_time_select_w` is declared outside
`limbs.inl` and is not under `src/`. It selects `x` under the all-ones mask and
`y` under the zero mask; this model is the bitwise blend
`(mask & x) | (~mask & y)` on `W`-bit words, which does both. -/
def ct_select_w (W : Nat) (mask x y : Nat) : Nat :=
  (mask &&& x) ||| ((2 ^ W - 1 - mask) &&& y)

/-- The carry chain on lists: limb by limb, threading the carry of a word-level
operation `f` from each limb into the next. -/
def carry_chain (f : Nat → Nat → Nat → Nat × Nat) :
    List Nat → List Nat → Nat → List Nat × Nat
  | x :: xs, y :: ys, c =>
    let o := f x y c
    let rest := carry_chain f xs ys o.2
    (o.1 :: rest.1, rest.2)
  | _, _, c => ([], c)

/-- The common shape of the loops of `limbs_add` and `limbs_sub`, over any
word-level operation `f`. -/
def carry_loop (f : Nat → Nat → Nat → Nat × Nat) (r a b : Nat) :
    Nat → Nat → Nat → State → Nat × State
  | 0, _, c, s => (c, s.log (Event.branch false))
  | todo + 1, i, c, s =>
    let x := (s.log (Event.branch true)).load Buf.a (a + i)
    let y := x.2.load Buf.b (b + i)
    let o := f x.1 y.1 c
    carry_loop f r a b todo (i + 1) o.2 (y.2.store Buf.r (r + i) o.1)

/-- No write to `r[j]` with `i ≤ j` lands on a limb `a[k]` or `b[k]` that is
still to be read (`j < k < n`). -/
def NoClobber (r a b i n : Nat) : Prop :=
  ∀ j k, i ≤ j → j < k → k < n → r + j ≠ a + k ∧ r + j ≠ b + k

/-- The regions `[p, p + n)` and `[q, q + m)` do not meet. -/
def Disjoint (p n q m : Nat) : Prop := p + n ≤ q ∨ q + m ≤ p

/-- Example memory: `a = [2^64 - 1, 0]` at address 0 and `b = [1, 0]` at address 2. -/
def ex_add_state : State :=
  { mem := poke (poke (fun _ => 0) 0 [2 ^ 64 - 1, 0]) 2 [1, 0], trace := [] }

/-- Example memory: `a = [0, 0]` at address 0 and `b = [1, 0]` at address 2. -/
def ex_sub_state : State :=
  { mem := poke (poke (fun _ => 0) 0 [0, 0]) 2 [1, 0], trace := [] }

/-- Example memory: `a = [1, 2]` at address 0 and `b = [0, 0]` at address 10. -/
def ex_overlap_state : State :=
  { mem := poke (poke (fun _ => 0) 0 [1, 2]) 10 [0, 0], trace := [] }

/-- Example memory: the table `[10, 20, 30, 40]` at address 0, and 7 elsewhere. -/
def ex_select_state : State :=
  { mem := poke (fun _ => 7) 0 [10, 20, 30, 40], trace := [] }

/-! ## Traces in closed form

`List.range' i n` is the list of the indices `i, i + 1, ..., i + n - 1`. -/

/-- Events of one iteration of the loop of `limbs_add` / `limbs_sub` at index
`j`: the loop test, the reads of `a[j]` and `b[j]`, the write of `r[j]`. -/
def carry_step_trace (r a b j : Nat) : List Event :=
  [Event.branch true, Event.read Buf.a (a + j), Event.read Buf.b (b + j),
    Event.write Buf.r (r + j)]

/-- Events of `limbs_add` and of `limbs_sub`: limb 0 without a loop test, then
the iterations for the indices 1 to `num_limbs - 1`, then the failing loop test. -/
def limbs_carry_trace (r a b num_limbs : Nat) : List Event :=
  [Event.read Buf.a (a + 0), Event.read Buf.b (b + 0), Event.write Buf.r (r + 0)]
    ++ ((List.range' 1 (num_limbs - 1)).flatMap (carry_step_trace r a b)
      ++ [Event.branch false])

/-- Events of `limbs_copy`. -/
def limbs_copy_trace (r a num_limbs : Nat) : List Event :=
  (List.range' 0 num_limbs).flatMap
      (fun j => [Event.branch true, Event.read Buf.a (a + j), Event.write Buf.r (r + j)])
    ++ [Event.branch false]

/-- Events of `limbs_zero`: for each index a loop test and a zeroing write. -/
def limbs_zero_trace (r num_limbs : Nat) : List Event :=
  (List.range' 0 num_limbs).flatMap (fun j => [Event.branch true, Event.write Buf.r (r + j)])
    ++ [Event.branch false]

/-- Events of one iteration of the inner loop of `limbs_select`, entry `e`, limb
`j`: the loop test, the read of `table[e * num_limbs + j]`, the read of `r[j]`,
the call of `constant_time_select_w`, the write of `r[j]`. -/
def select_step_trace (r table num_limbs e j : Nat) : List Event :=
  [Event.branch true, Event.read Buf.table (table + (e * num_limbs + j)),
    Event.read Buf.r (r + j), Event.select_w, Event.write Buf.r (r + j)]

/-- Events of one iteration of the outer loop of `limbs_select`, entry `e`: the
loop test, the call of `constant_time_eq_w`, then the inner loop. -/
def select_entry_trace (r table num_limbs e : Nat) : List Event :=
  [Event.branch true, Event.eq_w]
    ++ ((List.range' 0 num_limbs).flatMap (select_step_trace r table num_limbs e)
      ++ [Event.branch false])

/-- Events of `limbs_select`: the zeroing loop, then the entries 0 to
`num_entries - 1` in order, then the failing loop test. -/
def limbs_select_trace (r table num_limbs num_entries : Nat) : List Event :=
  limbs_zero_trace r num_limbs
    ++ ((List.range' 0 num_entries).flatMap (select_entry_trace r table num_limbs)
      ++ [Event.branch false])

/-- The addresses read through `table`, in order. -/
def table_reads (tr : List Event) : List Nat :=
  tr.filterMap (fun e => match e with
    | Event.read Buf.table addr => some addr
    | _ => none)

/-- The addresses written through `r`, in order. -/
def r_writes (tr : List Event) : List Nat :=
  tr.filterMap (fun e => match e with
    | Event.write Buf.r addr => some addr
    | _ => none)

/-- The carry (or borrow) into limb `i` of a run over the arrays at `a` and `b`
in the memory `m`, for a word-level operation `f`: `c_0 = c0`, and `c_(i+1)` is
the carry out of `f(a[i], b[i], c_i)`. -/
def carry_seq (f : Nat → Nat → Nat → Nat × Nat) (m : Nat → Nat) (a b c0 : Nat) : Nat → Nat
  | 0 => c0
  | i + 1 => (f (m (a + i)) (m (b + i)) (carry_seq f m a b c0 i)).2

/-- The addresses read through the parameter `buf`, in order. -/
def reads_of (buf : Buf) (tr : List Event) : List Nat :=
  tr.filterMap (fun e => match e with
    | Event.read via addr => if via = buf then some addr else none
    | _ => none)

/-! ## The functions with their assertions -/

/-- Modelled from the spec: `dev_assert_secret` and `debug_assert_nonsecret` are
macros of `ring-core/check.h`, which is not under `src/`. Where assertions are
compiled in, a failed assertion stops the run (`none`) and a passed one has no
effect. -/
def assert_ok (cond : Bool) : Option Unit :=
  if cond then some () else none

/-- Word-level `limb_adc` with its assertions: `carry_in == 0 || carry_in == 1`
at entry, `ret == 0 || ret == 1` at exit. -/
def limb_adc_checked (bk : Backend) (W : Nat) (a b carry_in : Nat) : Option (Nat × Nat) :=
  match assert_ok (decide (carry_in = 0 ∨ carry_in = 1)) with
  | none => none
  | some _ =>
    match assert_ok (decide ((limb_adc bk W a b carry_in).2 = 0
        ∨ (limb_adc bk W a b carry_in).2 = 1)) with
    | none => none
    | some _ => some (limb_adc bk W a b carry_in)

/-- Word-level `limb_sbb` with its assertions: `borrow_in == 0 || borrow_in == 1`
at entry, `ret == 0 || ret == 1` at exit. -/
def limb_sbb_checked (bk : Backend) (W : Nat) (a b borrow_in : Nat) : Option (Nat × Nat) :=
  match assert_ok (decide (borrow_in = 0 ∨ borrow_in = 1)) with
  | none => none
  | some _ =>
    match assert_ok (decide ((limb_sbb bk W a b borrow_in).2 = 0
        ∨ (limb_sbb bk W a b borrow_in).2 = 1)) with
    | none => none
    | some _ => some (limb_sbb bk W a b borrow_in)

/-- The call `limb_adc(&r[i], x, y, carry_in)` in a state, with assertions. -/
def limb_adc_at_checked (bk : Backend) (W : Nat) (s : State) (p : Nat) (x y carry_in : Nat) :
    Option (Nat × State) :=
  match limb_adc_checked bk W x y carry_in with
  | none => none
  | some out => some (out.2, s.store Buf.r p out.1)

/-- The call `limb_sbb(&r[i], x, y, borrow_in)` in a state, with assertions. -/
def limb_sbb_at_checked (bk : Backend) (W : Nat) (s : State) (p : Nat) (x y borrow_in : Nat) :
    Option (Nat × State) :=
  match limb_sbb_checked bk W x y borrow_in with
  | none => none
  | some out => some (out.2, s.store Buf.r p out.1)

/-- The loop of `limbs_add`, with the assertions of `limb_adc`. -/
def limbs_add_loop_checked (bk : Backend) (W : Nat) (r a b : Nat) :
    Nat → Nat → Nat → State → Option (Nat × State)
  | 0, _, carry, s => some (carry, s.log (Event.branch false))
  | todo + 1, i, carry, s =>
    let x := (s.log (Event.branch true)).load Buf.a (a + i)
    let y := x.2.load Buf.b (b + i)
    match limb_adc_at_checked bk W y.2 (r + i) x.1 y.1 carry with
    | none => none
    | some o => limbs_add_loop_checked bk W r a b todo (i + 1) o.1 o.2

/-- Array-level `limbs_add` with `debug_assert_nonsecret(num_limbs >= 1)` and the
assertions of `limb_adc` (`limb_add` is `limb_adc` with carry-in 0). -/
def limbs_add_checked (bk : Backend) (W : Nat) (s : State) (r a b num_limbs : Nat) :
    Option (Nat × State) :=
  match assert_ok (decide (num_limbs ≥ 1)) with
  | none => none
  | some _ =>
    let x := s.load Buf.a (a + 0)
    let y := x.2.load Buf.b (b + 0)
    match limb_adc_at_checked bk W y.2 (r + 0) x.1 y.1 0 with
    | none => none
    | some o => limbs_add_loop_checked bk W r a b (num_limbs - 1) 1 o.1 o.2

/-- The loop of `limbs_sub`, with the assertions of `limb_sbb`. -/
def limbs_sub_loop_checked (bk : Backend) (W : Nat) (r a b : Nat) :
    Nat → Nat → Nat → State → Option (Nat × State)
  | 0, _, borrow, s => some (borrow, s.log (Event.branch false))
  | todo + 1, i, borrow, s =>
    let x := (s.log (Event.branch true)).load Buf.a (a + i)
    let y := x.2.load Buf.b (b + i)
    match limb_sbb_at_checked bk W y.2 (r + i) x.1 y.1 borrow with
    | none => none
    | some o => limbs_sub_loop_checked bk W r a b todo (i + 1) o.1 o.2

/-- Array-level `limbs_sub` with `debug_assert_nonsecret(num_limbs >= 1)` and the
assertions of `limb_sbb` (`limb_sub` is `limb_sbb` with borrow-in 0). -/
def limbs_sub_checked (bk : Backend) (W : Nat) (s : State) (r a b num_limbs : Nat) :
    Option (Nat × State) :=
  match assert_ok (decide (num_limbs ≥ 1)) with
  | none => none
  | some _ =>
    let x := s.load Buf.a (a + 0)
    let y := x.2.load Buf.b (b + 0)
    match limb_sbb_at_checked bk W y.2 (r + 0) x.1 y.1 0 with
    | none => none
    | some o => limbs_sub_loop_checked bk W r a b (num_limbs - 1) 1 o.1 o.2

/-- One number for each parameter: for `r`, `a`, `b`, `table` in this order. -/
def per_buf (r a b table : Nat) : Buf → Nat
  | Buf.r => r
  | Buf.a => a
  | Buf.b => b
  | Buf.table => table

/-- The event, when it is an array access, stays inside its array: with the
array of the parameter `buf` starting at `base buf` and holding `len buf` limbs,
the address is at most `len buf - 1` limbs after the start. -/
def in_bounds (base len : Buf → Nat) : Event → Bool
  | Event.read buf x => decide (base buf ≤ x ∧ x < base buf + len buf)
  | Event.write buf x => decide (base buf ≤ x ∧ x < base buf + len buf)
  | _ => true

/-- Example memory: `a = [2^64 - 1, 2^64 - 1]` at address 0 and `b = [1, 0]` at
address 2. -/
def ex_carry_state : State :=
  { mem := poke (poke (fun _ => 0) 0 [2 ^ 64 - 1, 2 ^ 64 - 1]) 2 [1, 0], trace := [] }

/-- Example memory: `a = [5, 6, 7]` at address 0, and 9 elsewhere. -/
def ex_copy_state : State :=
  { mem := poke (fun _ => 9) 0 [5, 6, 7], trace := [] }

/-- The closed form shared by the variants of `limb_sbb`. -/
def sbb_closed (W a b c : Nat) : Nat × Nat :=
  (if b + c ≤ a then a - b - c else a + 2 ^ W - b - c, if a < b + c then 1 else 0)

example : limb_adc .portable 64 (2^64 - 1) 1 0 = (0, 1) := by decide
example : limb_adc .builtins 64 (2^64 - 1) 1 0 = (0, 1) := by decide
example : limb_adc .x86_intrinsics 64 (2^64 - 1) (2^64 - 1) 1 = (2^64 - 1, 1) := by decide
example : limb_sbb .portable 64 0 1 0 = (2^64 - 1, 1) := by decide
example : limb_sbb .builtins 64 0 1 0 = (2^64 - 1, 1) := by decide
example : limb_sbb .x86_intrinsics 64 0 (2^64 - 1) 1 = (0, 1) := by decide
example : limb_sbb .x86_intrinsics 32 5 3 1 = (1, 0) := by decide


example : let o := limbs_add .portable 64 { mem := poke (poke (fun _ => 0) 0 [2^64-1, 0]) 2 [1, 0], trace := [] } 4 0 2 2
    (o.1, read_limbs o.2.mem 4 2) = (0, [0, 1]) := by decide
example : let o := limbs_sub .builtins 64 { mem := poke (poke (fun _ => 0) 0 [0, 0]) 2 [1, 0], trace := [] } 4 0 2 2
    (o.1, read_limbs o.2.mem 4 2) = (1, [2^64-1, 2^64-1]) := by decide
example : read_limbs (limbs_select (ct_eq_w 64) (ct_select_w 64)
    { mem := poke (fun _ => 7) 0 [10, 20, 30, 40], trace := [] } 4 0 1 4 2).mem 4 1 = [30] := by decide
example : (limbs_zero State.init 0 2).trace =
    [.branch true, .write .r 0, .branch true, .write .r 1, .branch false] := by decide
example : limbs_int 8 [1, 2] = 513 := by decide

/-! ## Arithmetic of the word-level layer -/

theorem two_pow_double (W : Nat) : 2 ^ (2 * W) = 2 ^ W * 2 ^ W := by
  rw [two_mul, pow_add]

theorem two_le_two_pow (W : Nat) (hW : 0 < W) : 2 ≤ 2 ^ W := by
  calc 2 = 2 ^ 1 := by norm_num
    _ ≤ 2 ^ W := Nat.pow_le_pow_right (by norm_num) hW

theorem two_pow_even (W : Nat) (hW : 0 < W) : 2 ^ W % 2 = 0 := by
  obtain ⟨k, rfl⟩ : ∃ k, W = k + 1 := ⟨W - 1, by omega⟩
  rw [pow_succ]
  exact Nat.mul_mod_left _ _

theorem width_pos (W : Nat) (hW : W = 32 ∨ W = 64) : 0 < W := by
  rcases hW with h | h <;> omega

/-- Quotient and remainder of a value below `2 * B`. -/
theorem div_mod_lt_two_mul (B x : Nat) (hx : x < 2 * B) :
    (x / B = if x < B then 0 else 1) ∧ (x % B = if x < B then x else x - B) := by
  have hB : 0 < B := by omega
  split_ifs with h
  · exact ⟨Nat.div_eq_of_lt h, Nat.mod_eq_of_lt h⟩
  · have h1 : x = (x - B) + 1 * B := by omega
    have h2 : x - B < B := by omega
    constructor
    · rw [h1, Nat.add_mul_div_right _ _ hB, Nat.div_eq_of_lt h2]
    · conv_lhs => rw [h1]
      rw [Nat.add_mul_mod_self_right, Nat.mod_eq_of_lt h2]

/-- The portable `limb_adc` in closed form. -/
theorem limb_adc_portable (W : Nat) (a b c : Nat) (hW : 0 < W)
    (ha : a < 2 ^ W) (hb : b < 2 ^ W) (hc : c ≤ 1) :
    limb_adc .portable W a b c = ((a + b + c) % 2 ^ W, (a + b + c) / 2 ^ W) := by
  have hB := two_le_two_pow W hW
  simp only [limb_adc, wadd, two_pow_double, Nat.shiftRight_eq_div_pow]
  generalize 2 ^ W = B at *
  have h1 : a + b < B * B := by nlinarith
  have h2 : a + b + c < B * B := by nlinarith
  rw [Nat.mod_eq_of_lt h1, Nat.mod_eq_of_lt h2]
  have h3 := (div_mod_lt_two_mul B (a + b + c) (by omega)).1
  have h4 : (a + b + c) / B < B := by rw [h3]; split_ifs <;> omega
  rw [Nat.mod_eq_of_lt h4]

/-- The builtin `limb_adc` in closed form. -/
theorem limb_adc_builtins (W : Nat) (a b c : Nat) (hW : 0 < W)
    (ha : a < 2 ^ W) (hb : b < 2 ^ W) (hc : c ≤ 1) :
    limb_adc .builtins W a b c = ((a + b + c) % 2 ^ W, (a + b + c) / 2 ^ W) := by
  have hB := two_le_two_pow W hW
  have h3 := div_mod_lt_two_mul (2 ^ W) (a + b + c) (by omega)
  have h5 := div_mod_lt_two_mul (2 ^ W) (a + b) (by omega)
  simp only [limb_adc, builtin_addc, builtin_add_overflow]
  rw [h3.1, h3.2]
  by_cases hab : a + b < 2 ^ W
  · have h6 : (a + b) % 2 ^ W = a + b := Nat.mod_eq_of_lt hab
    simp only [hab, if_true, h6]
    by_cases habc : a + b + c < 2 ^ W
    · simp [habc, Nat.mod_eq_of_lt habc]
    · have h9 := (div_mod_lt_two_mul (2 ^ W) (a + b + c) (by omega)).2
      simp only [habc, if_false] at h9 ⊢
      simp [h9]
  · have h6 : (a + b) % 2 ^ W = a + b - 2 ^ W := by
      have := h5.2
      simpa only [hab, if_false] using this
    have h7 : a + b - 2 ^ W + c < 2 ^ W := by omega
    have h8 : ¬ (a + b + c < 2 ^ W) := by omega
    simp only [hab, h8, if_false, h6, h7, if_true, Nat.mod_eq_of_lt h7]
    refine Prod.ext ?_ ?_
    · simp only; omega
    · simp

/-- The x86 intrinsic `limb_adc` in closed form. -/
theorem limb_adc_x86 (W : Nat) (a b c : Nat)
    (ha : a < 2 ^ W) (hb : b < 2 ^ W) (hc : c ≤ 1) :
    limb_adc .x86_intrinsics W a b c = ((a + b + c) % 2 ^ W, (a + b + c) / 2 ^ W) := by
  have hB : 0 < 2 ^ W := by positivity
  have h3 := div_mod_lt_two_mul (2 ^ W) (a + b + c) (by omega)
  have hc2 : (if c > 0 then 1 else 0) = c := by split_ifs <;> omega
  have hlt : a + b + c < 2 ^ (W + 1) := by rw [pow_succ]; omega
  simp only [limb_adc, x86_addcarry, hc2, Nat.shiftRight_eq_div_pow, Nat.mod_eq_of_lt hlt]
  rw [h3.1]
  split_ifs <;> rfl

/-- All three variants of `limb_adc` in closed form. -/
theorem limb_adc_eq (bk : Backend) (W : Nat) (a b c : Nat) (hW : 0 < W)
    (ha : a < 2 ^ W) (hb : b < 2 ^ W) (hc : c ≤ 1) :
    limb_adc bk W a b c = ((a + b + c) % 2 ^ W, (a + b + c) / 2 ^ W) := by
  cases bk
  · exact limb_adc_builtins W a b c hW ha hb hc
  · exact limb_adc_x86 W a b c ha hb hc
  · exact limb_adc_portable W a b c hW ha hb hc

/-- Wrapping subtraction of two values that fit. -/
theorem wsub_eq (bits x y : Nat) (hx : x < 2 ^ bits) (hy : y < 2 ^ bits) :
    wsub bits x y = if y ≤ x then x - y else x + 2 ^ bits - y := by
  unfold wsub
  rw [Nat.mod_eq_of_lt hx, Nat.mod_eq_of_lt hy]
  have h := (div_mod_lt_two_mul (2 ^ bits) (x + (2 ^ bits - y)) (by omega)).2
  rw [h]
  split_ifs <;> omega

/-- The builtin `limb_sbb` in closed form. -/
theorem limb_sbb_builtins (W : Nat) (a b c : Nat) (hW : 0 < W)
    (ha : a < 2 ^ W) (hb : b < 2 ^ W) (hc : c ≤ 1) :
    limb_sbb .builtins W a b c = sbb_closed W a b c := by
  have hB := two_le_two_pow W hW
  have hcB : c < 2 ^ W := by omega
  have h1 := wsub_eq W a b ha hb
  have h1lt : wsub W a b < 2 ^ W := by rw [h1]; split_ifs <;> omega
  have h2 := wsub_eq W (wsub W a b) c h1lt hcB
  simp only [limb_sbb, builtin_subc, builtin_sub_overflow, sbb_closed]
  rw [h2]
  by_cases hab : b ≤ a
  · rw [if_pos hab] at h1
    have hn : ¬ a < b := by omega
    simp only [h1, hn, if_false]
    by_cases h3 : c ≤ a - b
    · have h4 : b + c ≤ a := by omega
      have h5 : ¬ a < b + c := by omega
      have h6 : ¬ a - b < c := by omega
      simp only [h3, h4, h5, h6, if_true, if_false]
      refine Prod.ext ?_ ?_ <;> simp
    · have h4 : ¬ b + c ≤ a := by omega
      have h5 : a < b + c := by omega
      have h6 : a - b < c := by omega
      simp only [h3, h4, h5, h6, if_true, if_false]
      refine Prod.ext ?_ ?_
      · simp only; omega
      · simp
  · rw [if_neg hab] at h1
    simp only [h1]
    have hn : a < b := by omega
    have h3 : c ≤ a + 2 ^ W - b := by omega
    have h4 : ¬ b + c ≤ a := by omega
    have h5 : a < b + c := by omega
    have h6 : ¬ a + 2 ^ W - b < c := by omega
    simp only [hn, h3, h4, h5, h6, if_true, if_false]
    refine Prod.ext ?_ ?_
    · omega
    · simp

/-- The x86 intrinsic `limb_sbb` in closed form. -/
theorem limb_sbb_x86 (W : Nat) (a b c : Nat)
    (ha : a < 2 ^ W) (hb : b < 2 ^ W) (hc : c ≤ 1) :
    limb_sbb .x86_intrinsics W a b c = sbb_closed W a b c := by
  have hB : 0 < 2 ^ W := by positivity
  have hc2 : (if c > 0 then 1 else 0) = c := by split_ifs <;> omega
  have hp : 2 ^ (W + 1) = 2 * 2 ^ W := by rw [pow_succ]; omega
  have h1 := wsub_eq (W + 1) a (b + c) (by omega) (by omega)
  simp only [limb_sbb, x86_subborrow, hc2, Nat.shiftRight_eq_div_pow, sbb_closed]
  rw [h1]
  by_cases h : b + c ≤ a
  · have h5 : ¬ a < b + c := by omega
    have h6 : a - (b + c) < 2 ^ W := by omega
    simp only [h, h5, if_true, if_false, Nat.mod_eq_of_lt h6, Nat.div_eq_of_lt h6]
    refine Prod.ext ?_ ?_
    · simp only; omega
    · simp
  · have h5 : a < b + c := by omega
    have h7 := div_mod_lt_two_mul (2 ^ W) (a + 2 ^ (W + 1) - (b + c)) (by omega)
    have h8 : ¬ a + 2 ^ (W + 1) - (b + c) < 2 ^ W := by omega
    simp only [h8, if_false] at h7
    simp only [h, h5, if_true, if_false, h7.1, h7.2]
    refine Prod.ext ?_ ?_
    · simp only; omega
    · simp

/-- The portable `limb_sbb` in closed form. -/
theorem limb_sbb_portable (W : Nat) (a b c : Nat) (hW : 0 < W)
    (ha : a < 2 ^ W) (hb : b < 2 ^ W) (hc : c ≤ 1) :
    limb_sbb .portable W a b c = sbb_closed W a b c := by
  have hB := two_le_two_pow W hW
  have hev := two_pow_even W hW
  have hD : 2 ^ (2 * W) = (2 ^ W - 1) * 2 ^ W + 2 ^ W := by
    rw [two_pow_double, Nat.sub_mul, one_mul]
    exact (Nat.sub_add_cancel (Nat.le_mul_self _)).symm
  have hBpos : 0 < 2 ^ W := by omega
  have h1 := wsub_eq (2 * W) a b (by omega) (by omega)
  have h1lt : wsub (2 * W) a b < 2 ^ (2 * W) := by rw [h1]; split_ifs <;> omega
  have h2 := wsub_eq (2 * W) (wsub (2 * W) a b) c h1lt (by omega)
  simp only [limb_sbb, Nat.shiftRight_eq_div_pow, Nat.and_one_is_mod, sbb_closed]
  rw [h2, h1]
  by_cases h : b + c ≤ a
  · have h3 : b ≤ a := by omega
    have h4 : c ≤ a - b := by omega
    have h5 : ¬ a < b + c := by omega
    have h6 : a - b - c < 2 ^ W := by omega
    simp only [h, h3, h4, h5, if_true, if_false, Nat.mod_eq_of_lt h6, Nat.div_eq_of_lt h6]
    refine Prod.ext ?_ ?_ <;> simp
  · have h5 : a < b + c := by omega
    have hx : (if c ≤ (if b ≤ a then a - b else a + 2 ^ (2 * W) - b)
          then (if b ≤ a then a - b else a + 2 ^ (2 * W) - b) - c
          else (if b ≤ a then a - b else a + 2 ^ (2 * W) - b) + 2 ^ (2 * W) - c)
        = (a + 2 ^ W - b - c) + (2 ^ W - 1) * 2 ^ W := by
      split_ifs <;> omega
    have h6 : a + 2 ^ W - b - c < 2 ^ W := by omega
    have h7 : (2 ^ W - 1) % 2 = 1 := by omega
    have h8 : 1 % 2 ^ W = 1 := Nat.mod_eq_of_lt (by omega)
    rw [hx, Nat.add_mul_mod_self_right, Nat.add_mul_div_right _ _ hBpos,
      Nat.mod_eq_of_lt h6, Nat.div_eq_of_lt h6]
    simp only [h, h5, if_true, if_false, Nat.zero_add, h7, h8]

/-- All three variants of `limb_sbb` in closed form. -/
theorem limb_sbb_eq (bk : Backend) (W : Nat) (a b c : Nat) (hW : 0 < W)
    (ha : a < 2 ^ W) (hb : b < 2 ^ W) (hc : c ≤ 1) :
    limb_sbb bk W a b c = sbb_closed W a b c := by
  cases bk
  · exact limb_sbb_builtins W a b c hW ha hb hc
  · exact limb_sbb_x86 W a b c ha hb hc
  · exact limb_sbb_portable W a b c hW ha hb hc

/-! ## Lists of limbs and memory -/

theorem read_limbs_length (m : Nat → Nat) (n p : Nat) : (read_limbs m p n).length = n := by
  induction n generalizing p with
  | zero => rfl
  | succ n ih => simp [read_limbs, ih]

theorem read_limbs_congr (m1 m2 : Nat → Nat) (n p : Nat)
    (h : ∀ k, k < n → m1 (p + k) = m2 (p + k)) : read_limbs m1 p n = read_limbs m2 p n := by
  induction n generalizing p with
  | zero => rfl
  | succ n ih =>
    simp only [read_limbs]
    rw [show m1 p = m2 p from by simpa using h 0 (by omega)]
    rw [ih (p + 1) (fun k hk => by
      have := h (k + 1) (by omega)
      rwa [show p + (k + 1) = p + 1 + k from by omega] at this)]

theorem read_limbs_getD (m : Nat → Nat) (n p k : Nat) (hk : k < n) :
    (read_limbs m p n).getD k 0 = m (p + k) := by
  induction n generalizing p k with
  | zero => omega
  | succ n ih =>
    cases k with
    | zero => simp [read_limbs]
    | succ k =>
      simp only [read_limbs, List.getD_cons_succ]
      rw [ih (p + 1) k (by omega)]
      congr 1
      omega

theorem poke_nil (m : Nat → Nat) (p : Nat) : poke m p [] = m := by
  funext x
  simp only [poke, List.length_nil, Nat.add_zero]
  rw [if_neg (by omega)]

theorem poke_cons (m : Nat → Nat) (p : Nat) (v : Nat) (xs : List Nat) :
    poke m p (v :: xs) = poke (fun x => if x = p then v else m x) (p + 1) xs := by
  funext x
  simp only [poke, List.length_cons]
  by_cases h1 : x = p
  · subst h1
    rw [if_pos (by omega), if_neg (by omega)]
    simp
  · by_cases h2 : p ≤ x ∧ x < p + (xs.length + 1)
    · rw [if_pos h2, if_pos (by omega)]
      obtain ⟨d, hd⟩ : ∃ d, x - p = d + 1 := ⟨x - p - 1, by omega⟩
      rw [hd, List.getD_cons_succ, show x - (p + 1) = d from by omega]
    · rw [if_neg h2, if_neg (by omega), if_neg h1]

theorem read_limbs_poke (m : Nat → Nat) (p : Nat) (xs : List Nat) :
    read_limbs (poke m p xs) p xs.length = xs := by
  induction xs generalizing m p with
  | nil => rfl
  | cons v xs ih =>
    rw [poke_cons]
    simp only [List.length_cons, read_limbs]
    rw [ih]
    congr 1
    simp only [poke]
    rw [if_neg (by omega)]
    simp

theorem read_limbs_poke_of_len (m : Nat → Nat) (p n : Nat) (xs : List Nat)
    (h : xs.length = n) : read_limbs (poke m p xs) p n = xs := by
  subst h
  exact read_limbs_poke m p xs

theorem poke_outside (m : Nat → Nat) (p : Nat) (xs : List Nat) (x : Nat)
    (h : x < p ∨ p + xs.length ≤ x) : poke m p xs x = m x := by
  simp only [poke]
  rw [if_neg (by omega)]

theorem read_limbs_poke_disjoint (m : Nat → Nat) (p q n : Nat) (xs : List Nat)
    (h : Disjoint p xs.length q n) : read_limbs (poke m p xs) q n = read_limbs m q n := by
  apply read_limbs_congr
  intro k hk
  apply poke_outside
  rcases h with h | h <;> omega

theorem carry_chain_length (f : Nat → Nat → Nat → Nat × Nat) (xs ys : List Nat)
    (c : Nat) (h : xs.length = ys.length) : (carry_chain f xs ys c).1.length = xs.length := by
  induction xs generalizing ys c with
  | nil => cases ys <;> rfl
  | cons x xs ih =>
    cases ys with
    | nil => simp at h
    | cons y ys =>
      simp only [carry_chain, List.length_cons]
      rw [ih ys _ (by simpa using h)]

/-- One iteration of a carry loop followed by the chain on the rest is the
chain on the whole, when the write does not clobber later reads. -/
theorem carry_chain_step (f : Nat → Nat → Nat → Nat × Nat) (m : Nat → Nat)
    (r a b i todo : Nat) (c : Nat) (h : NoClobber r a b i (i + (todo + 1))) :
    (carry_chain f (read_limbs m (a + i) (todo + 1)) (read_limbs m (b + i) (todo + 1)) c).2
      = (carry_chain f
          (read_limbs (fun x => if x = r + i then (f (m (a + i)) (m (b + i)) c).1 else m x)
            (a + (i + 1)) todo)
          (read_limbs (fun x => if x = r + i then (f (m (a + i)) (m (b + i)) c).1 else m x)
            (b + (i + 1)) todo)
          (f (m (a + i)) (m (b + i)) c).2).2
    ∧ poke m (r + i)
        (carry_chain f (read_limbs m (a + i) (todo + 1)) (read_limbs m (b + i) (todo + 1)) c).1
      = poke (fun x => if x = r + i then (f (m (a + i)) (m (b + i)) c).1 else m x) (r + (i + 1))
          (carry_chain f
            (read_limbs (fun x => if x = r + i then (f (m (a + i)) (m (b + i)) c).1 else m x)
              (a + (i + 1)) todo)
            (read_limbs (fun x => if x = r + i then (f (m (a + i)) (m (b + i)) c).1 else m x)
              (b + (i + 1)) todo)
            (f (m (a + i)) (m (b + i)) c).2).1 := by
  have ha : read_limbs (fun x => if x = r + i then (f (m (a + i)) (m (b + i)) c).1 else m x)
      (a + (i + 1)) todo = read_limbs m (a + i + 1) todo := by
    rw [show a + (i + 1) = a + i + 1 from by omega]
    apply read_limbs_congr
    intro k hk
    have := (h i (i + 1 + k) (le_refl _) (by omega) (by omega)).1
    show (if a + i + 1 + k = r + i then _ else _) = _
    rw [if_neg (by omega)]
  have hb : read_limbs (fun x => if x = r + i then (f (m (a + i)) (m (b + i)) c).1 else m x)
      (b + (i + 1)) todo = read_limbs m (b + i + 1) todo := by
    rw [show b + (i + 1) = b + i + 1 from by omega]
    apply read_limbs_congr
    intro k hk
    have := (h i (i + 1 + k) (le_refl _) (by omega) (by omega)).2
    show (if b + i + 1 + k = r + i then _ else _) = _
    rw [if_neg (by omega)]
  rw [ha, hb]
  simp only [read_limbs, carry_chain]
  refine ⟨trivial, ?_⟩
  rw [poke_cons, show r + (i + 1) = r + i + 1 from by omega]

theorem noClobber_succ (r a b i n : Nat) (h : NoClobber r a b i n) :
    NoClobber r a b (i + 1) n :=
  fun j k hj hjk hk => h j k (by omega) hjk hk

/-- Carry and memory after a carry loop, by the chain on the limbs read from
the initial memory. -/
theorem carry_loop_mem (f : Nat → Nat → Nat → Nat × Nat) (r a b : Nat)
    (todo i : Nat) (c : Nat) (s : State) (h : NoClobber r a b i (i + todo)) :
    (carry_loop f r a b todo i c s).1
      = (carry_chain f (read_limbs s.mem (a + i) todo) (read_limbs s.mem (b + i) todo) c).2
    ∧ (carry_loop f r a b todo i c s).2.mem
      = poke s.mem (r + i)
          (carry_chain f (read_limbs s.mem (a + i) todo) (read_limbs s.mem (b + i) todo) c).1 := by
  induction todo generalizing i c s with
  | zero =>
    simp only [carry_loop, read_limbs, carry_chain, poke_nil]
    exact ⟨trivial, rfl⟩
  | succ todo ih =>
    have hstep := carry_chain_step f s.mem r a b i todo c h
    have h2 : NoClobber r a b (i + 1) (i + 1 + todo) := by
      rw [show i + 1 + todo = i + (todo + 1) from by omega]
      exact noClobber_succ r a b i _ h
    have hih := ih (i + 1) (f (s.mem (a + i)) (s.mem (b + i)) c).2
      (((((s.log (Event.branch true)).load Buf.a (a + i)).2.load Buf.b (b + i)).2).store Buf.r
        (r + i) (f (s.mem (a + i)) (s.mem (b + i)) c).1) h2
    simp only [carry_loop, State.load, State.log, State.store] at hih ⊢
    rw [hstep.1, hstep.2]
    exact hih

/-! ## The array-level functions through the carry chain -/

theorem limbs_add_loop_eq (bk : Backend) (W r a b todo i : Nat) (c : Nat) (s : State) :
    limbs_add_loop bk W r a b todo i c s = carry_loop (limb_adc bk W) r a b todo i c s := by
  induction todo generalizing i c s with
  | zero => rfl
  | succ todo ih => simp only [limbs_add_loop, carry_loop, limb_adc_at, ih]

theorem limbs_sub_loop_eq (bk : Backend) (W r a b todo i : Nat) (c : Nat) (s : State) :
    limbs_sub_loop bk W r a b todo i c s = carry_loop (limb_sbb bk W) r a b todo i c s := by
  induction todo generalizing i c s with
  | zero => rfl
  | succ todo ih => simp only [limbs_sub_loop, carry_loop, limb_sbb_at, ih]

/-- The first limb followed by a carry loop from index 1. -/
theorem carry_head_mem (f : Nat → Nat → Nat → Nat × Nat) (r a b n : Nat) (s : State)
    (tr : List Event) (hn : 1 ≤ n) (h : NoClobber r a b 0 n) :
    (carry_loop f r a b (n - 1) 1 (f (s.mem (a + 0)) (s.mem (b + 0)) 0).2
        { mem := fun x => if x = r + 0 then (f (s.mem (a + 0)) (s.mem (b + 0)) 0).1 else s.mem x,
          trace := tr }).1
      = (carry_chain f (read_limbs s.mem a n) (read_limbs s.mem b n) 0).2
    ∧ (carry_loop f r a b (n - 1) 1 (f (s.mem (a + 0)) (s.mem (b + 0)) 0).2
        { mem := fun x => if x = r + 0 then (f (s.mem (a + 0)) (s.mem (b + 0)) 0).1 else s.mem x,
          trace := tr }).2.mem
      = poke s.mem r (carry_chain f (read_limbs s.mem a n) (read_limbs s.mem b n) 0).1 := by
  obtain ⟨m, rfl⟩ : ∃ m, n = m + 1 := ⟨n - 1, by omega⟩
  have hstep := carry_chain_step f s.mem r a b 0 m 0 (by simpa using h)
  have h2 : NoClobber r a b 1 (1 + m) := by
    rw [show 1 + m = m + 1 from by omega]
    exact noClobber_succ r a b 0 _ h
  have hl := carry_loop_mem f r a b m 1 (f (s.mem (a + 0)) (s.mem (b + 0)) 0).2
    { mem := fun x => if x = r + 0 then (f (s.mem (a + 0)) (s.mem (b + 0)) 0).1 else s.mem x,
      trace := tr } h2
  simp only [Nat.add_sub_cancel, Nat.zero_add, Nat.add_zero] at hstep hl ⊢
  rw [hstep.1, hstep.2]
  exact hl

/-- Carry and memory after `limbs_add`, by the chain of `limb_adc`. -/
theorem limbs_add_mem (bk : Backend) (W : Nat) (s : State) (r a b n : Nat) (hn : 1 ≤ n)
    (h : NoClobber r a b 0 n) :
    (limbs_add bk W s r a b n).1
      = (carry_chain (limb_adc bk W) (read_limbs s.mem a n) (read_limbs s.mem b n) 0).2
    ∧ (limbs_add bk W s r a b n).2.mem
      = poke s.mem r
          (carry_chain (limb_adc bk W) (read_limbs s.mem a n) (read_limbs s.mem b n) 0).1 := by
  simp only [limbs_add, limb_add_at, limb_adc_at, limbs_add_loop_eq, State.load, State.store,
    State.log]
  exact carry_head_mem (limb_adc bk W) r a b n s _ hn h

/-- Carry and memory after `limbs_sub`, by the chain of `limb_sbb`. -/
theorem limbs_sub_mem (bk : Backend) (W : Nat) (s : State) (r a b n : Nat) (hn : 1 ≤ n)
    (h : NoClobber r a b 0 n) :
    (limbs_sub bk W s r a b n).1
      = (carry_chain (limb_sbb bk W) (read_limbs s.mem a n) (read_limbs s.mem b n) 0).2
    ∧ (limbs_sub bk W s r a b n).2.mem
      = poke s.mem r
          (carry_chain (limb_sbb bk W) (read_limbs s.mem a n) (read_limbs s.mem b n) 0).1 := by
  simp only [limbs_sub, limb_sub_at, limb_sbb_at, limbs_sub_loop_eq, State.load, State.store,
    State.log]
  exact carry_head_mem (limb_sbb bk W) r a b n s _ hn h

theorem noClobber_of_disjoint (r a b n : Nat) (ha : Disjoint r n a n) (hb : Disjoint r n b n) :
    NoClobber r a b 0 n := by
  intro j k _ hjk hk
  rcases ha with ha | ha <;> rcases hb with hb | hb <;> constructor <;> omega

theorem noClobber_of_le (r a b n : Nat) (ha : r ≤ a ∨ Disjoint r n a n)
    (hb : r ≤ b ∨ Disjoint r n b n) : NoClobber r a b 0 n := by
  intro j k _ hjk hk
  constructor
  · rcases ha with ha | ha | ha <;> omega
  · rcases hb with hb | hb | hb <;> omega

/-! ## Little-endian values -/

theorem limbs_int_nil (W : Nat) : limbs_int W [] = 0 := rfl

theorem limbs_int_cons (W : Nat) (x : Nat) (xs : List Nat) :
    limbs_int W (x :: xs) = x + 2 ^ W * limbs_int W xs := by
  simp only [limbs_int, List.length_cons, List.range_succ_eq_map, List.map_cons, List.sum_cons,
    List.map_map, List.getD_cons_zero, Nat.zero_mul, pow_zero, Nat.mul_one]
  congr 1
  rw [← List.sum_map_mul_left]
  congr 1
  apply List.map_congr_left
  intro i _
  simp only [Function.comp, List.getD_cons_succ, Nat.succ_mul, pow_add]
  ring

theorem limbs_int_lt (W : Nat) (xs : List Nat) (h : ∀ x ∈ xs, x < 2 ^ W) :
    limbs_int W xs < 2 ^ (xs.length * W) := by
  induction xs with
  | nil => simp [limbs_int_nil]
  | cons x xs ih =>
    have h1 := h x (List.mem_cons_self _ _)
    have h2 := ih (fun y hy => h y (List.mem_cons_of_mem _ hy))
    rw [limbs_int_cons, List.length_cons, Nat.succ_mul, pow_add]
    generalize 2 ^ W = B at *
    generalize 2 ^ (xs.length * W) = P at *
    generalize limbs_int W xs = L at *
    have h3 : B * (L + 1) ≤ B * P := Nat.mul_le_mul_left B h2
    nlinarith

theorem mem_read_limbs (m : Nat → Nat) (p n : Nat) (P : Nat → Prop)
    (h : ∀ k, k < n → P (m (p + k))) : ∀ x ∈ read_limbs m p n, P x := by
  induction n generalizing p with
  | zero => intro x hx; simp [read_limbs] at hx
  | succ n ih =>
    intro x hx
    simp only [read_limbs, List.mem_cons] at hx
    rcases hx with rfl | hx
    · simpa using h 0 (by omega)
    · exact ih (p + 1) (fun k hk => by
        have := h (k + 1) (by omega)
        rwa [show p + (k + 1) = p + 1 + k from by omega] at this) x hx

/-! ## Word-level contracts and the value of a chain -/

theorem limb_adc_spec (bk : Backend) (W : Nat) (a b c : Nat) (hW : 0 < W)
    (ha : a < 2 ^ W) (hb : b < 2 ^ W) (hc : c ≤ 1) :
    (limb_adc bk W a b c).1 < 2 ^ W ∧ (limb_adc bk W a b c).2 ≤ 1
      ∧ (limb_adc bk W a b c).1 + (limb_adc bk W a b c).2 * 2 ^ W = a + b + c := by
  have hB := two_le_two_pow W hW
  rw [limb_adc_eq bk W a b c hW ha hb hc]
  have h := div_mod_lt_two_mul (2 ^ W) (a + b + c) (by omega)
  refine ⟨Nat.mod_lt _ (by omega), ?_, ?_⟩
  · show (a + b + c) / 2 ^ W ≤ 1
    rw [h.1]; split_ifs <;> omega
  · show (a + b + c) % 2 ^ W + (a + b + c) / 2 ^ W * 2 ^ W = a + b + c
    exact Nat.mod_add_div' _ _

theorem limb_sbb_spec (bk : Backend) (W : Nat) (a b c : Nat) (hW : 0 < W)
    (ha : a < 2 ^ W) (hb : b < 2 ^ W) (hc : c ≤ 1) :
    (limb_sbb bk W a b c).1 < 2 ^ W ∧ (limb_sbb bk W a b c).2 ≤ 1
      ∧ (limb_sbb bk W a b c).1 + b + c = a + (limb_sbb bk W a b c).2 * 2 ^ W := by
  have hB := two_le_two_pow W hW
  rw [limb_sbb_eq bk W a b c hW ha hb hc]
  simp only [sbb_closed]
  by_cases h : b + c ≤ a
  · have h' : ¬ a < b + c := by omega
    simp only [h, h', if_true, if_false, Nat.zero_mul]
    exact ⟨by omega, Nat.zero_le _, by omega⟩
  · have h' : a < b + c := by omega
    simp only [h, h', if_true, if_false, Nat.one_mul]
    exact ⟨by omega, le_refl _, by omega⟩

/-- Value of a chain of an adding word operation. -/
theorem chain_add_value (f : Nat → Nat → Nat → Nat × Nat) (W : Nat)
    (hf : ∀ x y c, x < 2 ^ W → y < 2 ^ W → c ≤ 1 →
      (f x y c).1 < 2 ^ W ∧ (f x y c).2 ≤ 1 ∧ (f x y c).1 + (f x y c).2 * 2 ^ W = x + y + c)
    (xs ys : List Nat) (c : Nat) (hlen : xs.length = ys.length)
    (hx : ∀ x ∈ xs, x < 2 ^ W) (hy : ∀ y ∈ ys, y < 2 ^ W) (hc : c ≤ 1) :
    (∀ z ∈ (carry_chain f xs ys c).1, z < 2 ^ W) ∧ (carry_chain f xs ys c).2 ≤ 1
      ∧ limbs_int W (carry_chain f xs ys c).1 + (carry_chain f xs ys c).2 * 2 ^ (xs.length * W)
        = limbs_int W xs + limbs_int W ys + c := by
  induction xs generalizing ys c with
  | nil =>
    cases ys with
    | nil => simp [carry_chain, limbs_int_nil, hc]
    | cons y ys => simp at hlen
  | cons x xs ih =>
    cases ys with
    | nil => simp at hlen
    | cons y ys =>
      have hx0 := hx x (List.mem_cons_self _ _)
      have hy0 := hy y (List.mem_cons_self _ _)
      obtain ⟨h1, h2, h3⟩ := hf x y c hx0 hy0 hc
      obtain ⟨i1, i2, i3⟩ := ih ys (f x y c).2 (by simpa using hlen)
        (fun z hz => hx z (List.mem_cons_of_mem _ hz))
        (fun z hz => hy z (List.mem_cons_of_mem _ hz)) h2
      simp only [carry_chain]
      refine ⟨?_, i2, ?_⟩
      · intro z hz
        rcases List.mem_cons.mp hz with rfl | hz
        · exact h1
        · exact i1 z hz
      · rw [limbs_int_cons, limbs_int_cons, limbs_int_cons, List.length_cons, Nat.succ_mul,
          pow_add]
        generalize (carry_chain f xs ys (f x y c).2) = ch at *
        generalize 2 ^ (xs.length * W) = P at *
        generalize 2 ^ W = B at *
        have e : B * (limbs_int W ch.1 + ch.2 * P) = B * (limbs_int W xs + limbs_int W ys + (f x y c).2) := by
          rw [i3]
        linarith

/-- Value of a chain of a subtracting word operation. -/
theorem chain_sub_value (f : Nat → Nat → Nat → Nat × Nat) (W : Nat)
    (hf : ∀ x y c, x < 2 ^ W → y < 2 ^ W → c ≤ 1 →
      (f x y c).1 < 2 ^ W ∧ (f x y c).2 ≤ 1 ∧ (f x y c).1 + y + c = x + (f x y c).2 * 2 ^ W)
    (xs ys : List Nat) (c : Nat) (hlen : xs.length = ys.length)
    (hx : ∀ x ∈ xs, x < 2 ^ W) (hy : ∀ y ∈ ys, y < 2 ^ W) (hc : c ≤ 1) :
    (∀ z ∈ (carry_chain f xs ys c).1, z < 2 ^ W) ∧ (carry_chain f xs ys c).2 ≤ 1
      ∧ limbs_int W (carry_chain f xs ys c).1 + limbs_int W ys + c
        = limbs_int W xs + (carry_chain f xs ys c).2 * 2 ^ (xs.length * W) := by
  induction xs generalizing ys c with
  | nil =>
    cases ys with
    | nil => simp [carry_chain, limbs_int_nil, hc]
    | cons y ys => simp at hlen
  | cons x xs ih =>
    cases ys with
    | nil => simp at hlen
    | cons y ys =>
      have hx0 := hx x (List.mem_cons_self _ _)
      have hy0 := hy y (List.mem_cons_self _ _)
      obtain ⟨h1, h2, h3⟩ := hf x y c hx0 hy0 hc
      obtain ⟨i1, i2, i3⟩ := ih ys (f x y c).2 (by simpa using hlen)
        (fun z hz => hx z (List.mem_cons_of_mem _ hz))
        (fun z hz => hy z (List.mem_cons_of_mem _ hz)) h2
      simp only [carry_chain]
      refine ⟨?_, i2, ?_⟩
      · intro z hz
        rcases List.mem_cons.mp hz with rfl | hz
        · exact h1
        · exact i1 z hz
      · rw [limbs_int_cons, limbs_int_cons, limbs_int_cons, List.length_cons, Nat.succ_mul,
          pow_add]
        generalize (carry_chain f xs ys (f x y c).2) = ch at *
        generalize 2 ^ (xs.length * W) = P at *
        generalize 2 ^ W = B at *
        have e : B * (limbs_int W ch.1 + limbs_int W ys + (f x y c).2)
            = B * (limbs_int W xs + ch.2 * P) := by
          rw [i3]
        linarith

/-! ## Zeroing, copying and selecting -/

theorem limbs_zero_loop_mem (r todo i : Nat) (s : State) :
    (limbs_zero_loop r todo i s).mem
      = fun x => if r + i ≤ x ∧ x < r + i + todo then 0 else s.mem x := by
  induction todo generalizing i s with
  | zero =>
    funext x
    simp only [limbs_zero_loop, State.log]
    rw [if_neg (by omega)]
  | succ todo ih =>
    funext x
    simp only [limbs_zero_loop, ih, State.store, State.log]
    split_ifs <;> first | rfl | omega

theorem entry_index_lt (e k j n : Nat) (he : e < k) (hj : j < n) : e * n + j < k * n := by
  have h1 : (e + 1) * n ≤ k * n := Nat.mul_le_mul_right n he
  rw [Nat.succ_mul] at h1
  omega

/-- Memory after the inner loop of `limbs_select`, when the limbs of `r` that it
writes do not meet the limbs of the entry that it reads. -/
theorem select_inner_mem (select_w : Nat → Nat → Nat → Nat) (r table n e equal : Nat)
    (todo i : Nat) (s : State)
    (hd : ∀ j j', i ≤ j → j < i + todo → i ≤ j' → j' < i + todo → r + j ≠ table + (e * n + j')) :
    (limbs_select_inner select_w r table n e equal todo i s).mem
      = fun x => if r + i ≤ x ∧ x < r + i + todo
          then select_w equal (s.mem (table + (e * n + (x - r)))) (s.mem x) else s.mem x := by
  induction todo generalizing i s with
  | zero =>
    funext x
    simp only [limbs_select_inner, State.log]
    rw [if_neg (by omega)]
  | succ todo ih =>
    funext x
    have hd' : ∀ j j', i + 1 ≤ j → j < i + 1 + todo → i + 1 ≤ j' → j' < i + 1 + todo →
        r + j ≠ table + (e * n + j') :=
      fun j j' h1 h2 h3 h4 => hd j j' (by omega) (by omega) (by omega) (by omega)
    simp only [limbs_select_inner, ih _ _ hd', State.store, State.log, State.load]
    by_cases h1 : x = r + i
    · subst h1
      have hA : ¬ (r + (i + 1) ≤ r + i ∧ r + i < r + (i + 1) + todo) := by omega
      have hB : r + i ≤ r + i ∧ r + i < r + i + (todo + 1) := by omega
      simp only [hA, hB, and_self, if_true, if_false, Nat.add_sub_cancel_left]
    · by_cases h2 : r + (i + 1) ≤ x ∧ x < r + (i + 1) + todo
      · have hB : r + i ≤ x ∧ x < r + i + (todo + 1) := by omega
        have h3 := hd i (x - r) (le_refl _) (by omega) (by omega) (by omega)
        have h4 : ¬ table + (e * n + (x - r)) = r + i := fun h => h3 h.symm
        simp only [h1, h2, hB, h4, and_self, if_true, if_false]
      · have hB : ¬ (r + i ≤ x ∧ x < r + i + (todo + 1)) := by omega
        simp only [h1, h2, hB, if_false]

/-- Memory after the outer loop of `limbs_select` from entry `e` on: the limbs of
`r` hold the entry `index` when the loop passes it, and are kept otherwise;
nothing outside `r` changes. -/
theorem select_outer_mem (eq_w : Nat → Nat → Nat) (select_w : Nat → Nat → Nat → Nat)
    (W r table n index : Nat)
    (heq : ∀ x y, x < 2 ^ W → y < 2 ^ W → eq_w x y = if x = y then 2 ^ W - 1 else 0)
    (hsel1 : ∀ x y, x < 2 ^ W → y < 2 ^ W → select_w (2 ^ W - 1) x y = x)
    (hsel0 : ∀ x y, x < 2 ^ W → y < 2 ^ W → select_w 0 x y = y)
    (hidx : index < 2 ^ W) (todo e : Nat) (s : State)
    (hk : e + todo ≤ 2 ^ W)
    (htab : ∀ t, t < (e + todo) * n → s.mem (table + t) < 2 ^ W)
    (hr : ∀ j, j < n → s.mem (r + j) < 2 ^ W)
    (hdis : Disjoint r n table ((e + todo) * n)) :
    (∀ j, j < n → (limbs_select_outer eq_w select_w r table n index todo e s).mem (r + j)
        = if e ≤ index ∧ index < e + todo then s.mem (table + (index * n + j))
          else s.mem (r + j))
    ∧ (∀ x, x < r ∨ r + n ≤ x →
        (limbs_select_outer eq_w select_w r table n index todo e s).mem x = s.mem x) := by
  induction todo generalizing e s with
  | zero =>
    refine ⟨fun j _ => ?_, fun x _ => rfl⟩
    have hB : ¬ (e ≤ index ∧ index < e + 0) := by omega
    simp only [limbs_select_outer, State.log, hB, if_false]
  | succ todo ih =>
    have hlt : ∀ e' j, e' < e + (todo + 1) → j < n → e' * n + j < (e + (todo + 1)) * n :=
      fun e' j he hj => entry_index_lt e' _ j n he hj
    have hne : ∀ j t, j < n → t < (e + (todo + 1)) * n → r + j ≠ table + t := by
      intro j t hj ht
      rcases hdis with h | h <;> omega
    have hinner := select_inner_mem select_w r table n e (eq_w index e) n 0
      ((s.log (Event.branch true)).log Event.eq_w)
      (fun j j' _ hj _ hj' => hne j (e * n + j') (by omega) (hlt e j' (by omega) (by omega)))
    have hs2r : ∀ j, j < n →
        (limbs_select_inner select_w r table n e (eq_w index e) n 0
          ((s.log (Event.branch true)).log Event.eq_w)).mem (r + j)
          = if index = e then s.mem (table + (e * n + j)) else s.mem (r + j) := by
      intro j hj
      rw [hinner]
      have hB : r + 0 ≤ r + j ∧ r + j < r + 0 + n := by omega
      simp only [State.log, hB, and_self, if_true, Nat.add_sub_cancel_left]
      rw [heq index e hidx (by omega)]
      have ht := htab (e * n + j) (hlt e j (by omega) hj)
      split_ifs with h
      · exact hsel1 _ _ ht (hr j hj)
      · exact hsel0 _ _ ht (hr j hj)
    have hs2f : ∀ x, x < r ∨ r + n ≤ x →
        (limbs_select_inner select_w r table n e (eq_w index e) n 0
          ((s.log (Event.branch true)).log Event.eq_w)).mem x = s.mem x := by
      intro x hx
      rw [hinner]
      have hB : ¬ (r + 0 ≤ x ∧ x < r + 0 + n) := by omega
      simp only [State.log, hB, if_false]
    have hs2t : ∀ t, t < (e + (todo + 1)) * n →
        (limbs_select_inner select_w r table n e (eq_w index e) n 0
          ((s.log (Event.branch true)).log Event.eq_w)).mem (table + t) = s.mem (table + t) := by
      intro t ht
      apply hs2f
      rcases hdis with h | h <;> omega
    have hassoc : e + 1 + todo = e + (todo + 1) := by omega
    obtain ⟨i1, i2⟩ := ih (e + 1)
      (limbs_select_inner select_w r table n e (eq_w index e) n 0
        ((s.log (Event.branch true)).log Event.eq_w))
      (by omega)
      (fun t ht => by rw [hassoc] at ht; rw [hs2t t ht]; exact htab t ht)
      (fun j hj => by
        rw [hs2r j hj]
        split_ifs
        · exact htab _ (hlt e j (by omega) hj)
        · exact hr j hj)
      (by rw [hassoc]; exact hdis)
    simp only [limbs_select_outer]
    constructor
    · intro j hj
      rw [i1 j hj, hs2r j hj]
      by_cases h1 : index = e
      · subst h1
        rw [if_neg (by omega), if_pos rfl, if_pos (by omega)]
      · by_cases h2 : e + 1 ≤ index ∧ index < e + 1 + todo
        · rw [if_pos h2, if_pos (by omega), hs2t _ (hlt index j (by omega) hj)]
        · rw [if_neg h2, if_neg h1, if_neg (by omega)]
    · intro x hx
      rw [i2 x hx, hs2f x hx]

/-- Memory after `limbs_select`: the limbs of `r` hold the entry `index` when
`index < num_entries` and zero otherwise; nothing outside `r` changes. -/
theorem limbs_select_mem (eq_w : Nat → Nat → Nat) (select_w : Nat → Nat → Nat → Nat)
    (W n k : Nat) (s : State) (r table index : Nat)
    (heq : ∀ x y, x < 2 ^ W → y < 2 ^ W → eq_w x y = if x = y then 2 ^ W - 1 else 0)
    (hsel1 : ∀ x y, x < 2 ^ W → y < 2 ^ W → select_w (2 ^ W - 1) x y = x)
    (hsel0 : ∀ x y, x < 2 ^ W → y < 2 ^ W → select_w 0 x y = y)
    (hidx : index < 2 ^ W) (hk : k ≤ 2 ^ W)
    (htab : ∀ t, t < k * n → s.mem (table + t) < 2 ^ W)
    (hdis : Disjoint r n table (k * n)) :
    (∀ j, j < n → (limbs_select eq_w select_w s r table n k index).mem (r + j)
        = if index < k then s.mem (table + (index * n + j)) else 0)
    ∧ (∀ x, x < r ∨ r + n ≤ x →
        (limbs_select eq_w select_w s r table n k index).mem x = s.mem x) := by
  have hz := limbs_zero_loop_mem r n 0 s
  have hzr : ∀ j, j < n → (limbs_zero_loop r n 0 s).mem (r + j) = 0 := by
    intro j hj
    rw [hz]
    have hB : r + 0 ≤ r + j ∧ r + j < r + 0 + n := by omega
    simp only [hB, and_self, if_true]
  have hzf : ∀ x, x < r ∨ r + n ≤ x → (limbs_zero_loop r n 0 s).mem x = s.mem x := by
    intro x hx
    rw [hz]
    have hB : ¬ (r + 0 ≤ x ∧ x < r + 0 + n) := by omega
    simp only [hB, if_false]
  have hzt : ∀ t, t < k * n → (limbs_zero_loop r n 0 s).mem (table + t) = s.mem (table + t) := by
    intro t ht
    apply hzf
    rcases hdis with h | h <;> omega
  have hpos : 0 < 2 ^ W := by positivity
  obtain ⟨o1, o2⟩ := select_outer_mem eq_w select_w W r table n index heq hsel1 hsel0 hidx k 0
    (limbs_zero_loop r n 0 s) (by omega)
    (fun t ht => by rw [Nat.zero_add] at ht; rw [hzt t ht]; exact htab t ht)
    (fun j hj => by rw [hzr j hj]; exact hpos)
    (by rw [Nat.zero_add]; exact hdis)
  simp only [limbs_select]
  constructor
  · intro j hj
    rw [o1 j hj, hzr j hj]
    by_cases h : index < k
    · rw [if_pos h, if_pos (by omega), hzt _ (entry_index_lt index k j n h hj)]
    · rw [if_neg h, if_neg (by omega)]
  · intro x hx
    rw [o2 x hx, hzf x hx]

theorem ct_select_w_ones (W x y : Nat) (hx : x < 2 ^ W) :
    ct_select_w W (2 ^ W - 1) x y = x := by
  simp only [ct_select_w, Nat.sub_self, Nat.zero_and, Nat.or_zero]
  rw [Nat.land_comm]
  exact Nat.and_pow_two_sub_one_of_lt_two_pow hx

theorem ct_select_w_zero (W x y : Nat) (hy : y < 2 ^ W) :
    ct_select_w W 0 x y = y := by
  simp only [ct_select_w, Nat.zero_and, Nat.sub_zero, Nat.zero_or]
  rw [Nat.land_comm]
  exact Nat.and_pow_two_sub_one_of_lt_two_pow hy

/-! ## Traces -/

theorem carry_loop_trace (f : Nat → Nat → Nat → Nat × Nat) (r a b todo i c : Nat) (s : State) :
    (carry_loop f r a b todo i c s).2.trace
      = s.trace ++ ((List.range' i todo).flatMap (carry_step_trace r a b)
          ++ [Event.branch false]) := by
  induction todo generalizing i c s with
  | zero => simp [carry_loop, State.log]
  | succ todo ih =>
    simp [carry_loop, ih, State.log, State.load, State.store, List.range'_succ,
      carry_step_trace]

theorem limbs_add_trace_eq (bk : Backend) (W : Nat) (s : State) (r a b n : Nat) :
    (limbs_add bk W s r a b n).2.trace = s.trace ++ limbs_carry_trace r a b n := by
  simp [limbs_add, limb_add_at, limb_adc_at, limbs_add_loop_eq, carry_loop_trace, State.log,
    State.load, State.store, limbs_carry_trace]

theorem limbs_sub_trace_eq (bk : Backend) (W : Nat) (s : State) (r a b n : Nat) :
    (limbs_sub bk W s r a b n).2.trace = s.trace ++ limbs_carry_trace r a b n := by
  simp [limbs_sub, limb_sub_at, limb_sbb_at, limbs_sub_loop_eq, carry_loop_trace, State.log,
    State.load, State.store, limbs_carry_trace]

theorem limbs_copy_loop_trace (r a todo i : Nat) (s : State) :
    (limbs_copy_loop r a todo i s).trace
      = s.trace ++ ((List.range' i todo).flatMap
          (fun j => [Event.branch true, Event.read Buf.a (a + j), Event.write Buf.r (r + j)])
          ++ [Event.branch false]) := by
  induction todo generalizing i s with
  | zero => simp [limbs_copy_loop, State.log]
  | succ todo ih =>
    simp [limbs_copy_loop, ih, State.log, State.load, State.store, List.range'_succ]

theorem limbs_zero_loop_trace (r todo i : Nat) (s : State) :
    (limbs_zero_loop r todo i s).trace
      = s.trace ++ ((List.range' i todo).flatMap
          (fun j => [Event.branch true, Event.write Buf.r (r + j)])
          ++ [Event.branch false]) := by
  induction todo generalizing i s with
  | zero => simp [limbs_zero_loop, State.log]
  | succ todo ih =>
    simp [limbs_zero_loop, ih, State.log, State.store, List.range'_succ]

theorem select_inner_trace (select_w : Nat → Nat → Nat → Nat) (r table n e equal : Nat)
    (todo i : Nat) (s : State) :
    (limbs_select_inner select_w r table n e equal todo i s).trace
      = s.trace ++ ((List.range' i todo).flatMap (select_step_trace r table n e)
          ++ [Event.branch false]) := by
  induction todo generalizing i s with
  | zero => simp [limbs_select_inner, State.log]
  | succ todo ih =>
    simp [limbs_select_inner, ih, State.log, State.load, State.store, List.range'_succ,
      select_step_trace]

theorem select_outer_trace (eq_w : Nat → Nat → Nat) (select_w : Nat → Nat → Nat → Nat)
    (r table n index todo e : Nat) (s : State) :
    (limbs_select_outer eq_w select_w r table n index todo e s).trace
      = s.trace ++ ((List.range' e todo).flatMap (select_entry_trace r table n)
          ++ [Event.branch false]) := by
  induction todo generalizing e s with
  | zero => simp [limbs_select_outer, State.log]
  | succ todo ih =>
    simp [limbs_select_outer, ih, select_inner_trace, State.log, List.range'_succ,
      select_entry_trace]

theorem limbs_select_trace_eq (eq_w : Nat → Nat → Nat) (select_w : Nat → Nat → Nat → Nat)
    (s : State) (r table n k index : Nat) :
    (limbs_select eq_w select_w s r table n k index).trace
      = s.trace ++ limbs_select_trace r table n k := by
  simp [limbs_select, select_outer_trace, limbs_zero_loop_trace, limbs_select_trace,
    limbs_zero_trace]

/-- Count of an event in a repeated block with a constant count per block. -/
theorem count_flatMap_range' (x : Event) (f : Nat → List Event) (c : Nat)
    (h : ∀ j, List.count x (f j) = c) (todo i : Nat) :
    List.count x ((List.range' i todo).flatMap f) = todo * c := by
  induction todo generalizing i with
  | zero => simp
  | succ todo ih =>
    rw [List.range'_succ, List.flatMap_cons, List.count_append, h, ih, Nat.succ_mul]
    omega

theorem table_reads_inner (r table n e todo i : Nat) :
    table_reads ((List.range' i todo).flatMap (select_step_trace r table n e))
      = List.range' (table + (e * n + i)) todo := by
  induction todo generalizing i with
  | zero => simp [table_reads]
  | succ todo ih =>
    rw [List.range'_succ, List.flatMap_cons, List.range'_succ]
    unfold table_reads at ih ⊢
    rw [List.filterMap_append, ih]
    simp [select_step_trace, List.filterMap_cons]
    omega

theorem table_reads_entry (r table n e : Nat) :
    table_reads (select_entry_trace r table n e) = List.range' (table + e * n) n := by
  have h := table_reads_inner r table n e n 0
  unfold table_reads at h ⊢
  unfold select_entry_trace
  rw [List.filterMap_append, List.filterMap_append, h]
  simp [List.filterMap_cons]

theorem table_reads_outer (r table n todo e : Nat) :
    table_reads ((List.range' e todo).flatMap (select_entry_trace r table n))
      = List.range' (table + e * n) (todo * n) := by
  induction todo generalizing e with
  | zero => simp [table_reads]
  | succ todo ih =>
    have h1 := table_reads_entry r table n e
    have h2 := ih (e + 1)
    rw [List.range'_succ, List.flatMap_cons]
    unfold table_reads at h1 h2 ⊢
    rw [List.filterMap_append, h1, h2, Nat.succ_mul, Nat.succ_mul, ← Nat.add_assoc]
    exact List.range'_append_1 _ _ _

theorem table_reads_zero (r n : Nat) : table_reads (limbs_zero_trace r n) = [] := by
  unfold limbs_zero_trace table_reads
  generalize (0 : Nat) = i
  induction n generalizing i with
  | zero => simp [List.filterMap_cons]
  | succ n ih =>
    rw [List.range'_succ, List.flatMap_cons, List.append_assoc, List.filterMap_append, ih]
    simp [List.filterMap_cons]

theorem r_writes_zero (r todo i : Nat) :
    r_writes ((List.range' i todo).flatMap
        (fun j => [Event.branch true, Event.write Buf.r (r + j)]) ++ [Event.branch false])
      = List.range' (r + i) todo := by
  unfold r_writes
  induction todo generalizing i with
  | zero => simp [List.filterMap_cons]
  | succ todo ih =>
    rw [List.range'_succ, List.flatMap_cons, List.append_assoc, List.filterMap_append, ih,
      List.range'_succ]
    simp [List.filterMap_cons]
    omega

theorem count_eq_w_entry (r table n e : Nat) :
    List.count Event.eq_w (select_entry_trace r table n e) = 1 := by
  unfold select_entry_trace
  rw [List.count_append, List.count_append,
    count_flatMap_range' Event.eq_w (select_step_trace r table n e) 0
      (fun j => by simp [select_step_trace, List.count_cons])]
  simp [List.count_cons]

theorem count_select_w_entry (r table n e : Nat) :
    List.count Event.select_w (select_entry_trace r table n e) = n := by
  unfold select_entry_trace
  rw [List.count_append, List.count_append,
    count_flatMap_range' Event.select_w (select_step_trace r table n e) 1
      (fun j => by simp [select_step_trace, List.count_cons])]
  simp [List.count_cons]

theorem count_zero_trace (x : Event) (r n : Nat) (hx : x = Event.eq_w ∨ x = Event.select_w) :
    List.count x (limbs_zero_trace r n) = 0 := by
  unfold limbs_zero_trace
  rw [List.count_append, count_flatMap_range' x _ 0
    (fun j => by rcases hx with h | h <;> subst h <;> simp [List.count_cons])]
  rcases hx with h | h <;> subst h <;> simp [List.count_cons]

/-! ## Results on the array-level functions -/

/-- What `limbs_add` leaves in `r` and returns, for a destination that does not
clobber later reads. -/
theorem limbs_add_result (bk : Backend) (W : Nat) (s : State) (r a b n : Nat) (hn : 1 ≤ n)
    (h : NoClobber r a b 0 n) :
    (limbs_add bk W s r a b n).1
      = (carry_chain (limb_adc bk W) (read_limbs s.mem a n) (read_limbs s.mem b n) 0).2
    ∧ read_limbs (limbs_add bk W s r a b n).2.mem r n
      = (carry_chain (limb_adc bk W) (read_limbs s.mem a n) (read_limbs s.mem b n) 0).1 := by
  obtain ⟨h1, h2⟩ := limbs_add_mem bk W s r a b n hn h
  refine ⟨h1, ?_⟩
  rw [h2]
  apply read_limbs_poke_of_len
  rw [carry_chain_length _ _ _ _ (by rw [read_limbs_length, read_limbs_length]),
    read_limbs_length]

/-- What `limbs_sub` leaves in `r` and returns, for a destination that does not
clobber later reads. -/
theorem limbs_sub_result (bk : Backend) (W : Nat) (s : State) (r a b n : Nat) (hn : 1 ≤ n)
    (h : NoClobber r a b 0 n) :
    (limbs_sub bk W s r a b n).1
      = (carry_chain (limb_sbb bk W) (read_limbs s.mem a n) (read_limbs s.mem b n) 0).2
    ∧ read_limbs (limbs_sub bk W s r a b n).2.mem r n
      = (carry_chain (limb_sbb bk W) (read_limbs s.mem a n) (read_limbs s.mem b n) 0).1 := by
  obtain ⟨h1, h2⟩ := limbs_sub_mem bk W s r a b n hn h
  refine ⟨h1, ?_⟩
  rw [h2]
  apply read_limbs_poke_of_len
  rw [carry_chain_length _ _ _ _ (by rw [read_limbs_length, read_limbs_length]),
    read_limbs_length]

/-! ## Copying -/

/-- Memory after the loop of `limbs_copy`, when no write to `r[j]` lands on a
limb `a[k]` that is still to be read. -/
theorem limbs_copy_loop_mem (r a todo i : Nat) (s : State)
    (h : ∀ j k, i ≤ j → j < k → k < i + todo → r + j ≠ a + k) :
    (limbs_copy_loop r a todo i s).mem
      = fun x => if r + i ≤ x ∧ x < r + i + todo then s.mem (a + (x - r)) else s.mem x := by
  induction todo generalizing i s with
  | zero =>
    funext x
    have hB : ¬ (r + i ≤ x ∧ x < r + i + 0) := by omega
    simp only [limbs_copy_loop, State.log, hB, if_false]
  | succ todo ih =>
    funext x
    have h' : ∀ j k, i + 1 ≤ j → j < k → k < i + 1 + todo → r + j ≠ a + k :=
      fun j k h1 h2 h3 => h j k (by omega) h2 (by omega)
    simp only [limbs_copy_loop, ih _ _ h', State.store, State.log, State.load]
    by_cases h1 : x = r + i
    · subst h1
      have hA : ¬ (r + (i + 1) ≤ r + i ∧ r + i < r + (i + 1) + todo) := by omega
      have hB : r + i ≤ r + i ∧ r + i < r + i + (todo + 1) := by omega
      simp only [hA, hB, and_self, if_true, if_false, Nat.add_sub_cancel_left]
    · by_cases h2 : r + (i + 1) ≤ x ∧ x < r + (i + 1) + todo
      · have hB : r + i ≤ x ∧ x < r + i + (todo + 1) := by omega
        have h3 := h i (x - r) (le_refl _) (by omega) (by omega)
        have h4 : ¬ a + (x - r) = r + i := fun e => h3 e.symm
        simp only [h1, h2, hB, h4, and_self, if_true, if_false]
      · have hB : ¬ (r + i ≤ x ∧ x < r + i + (todo + 1)) := by omega
        simp only [h1, h2, hB, if_false]

/-- Memory after `limbs_copy` with `r` disjoint from `a`. -/
theorem limbs_copy_mem (s : State) (r a n : Nat) (h : Disjoint r n a n) :
    (limbs_copy s r a n).mem
      = fun x => if r ≤ x ∧ x < r + n then s.mem (a + (x - r)) else s.mem x := by
  have hl := limbs_copy_loop_mem r a n 0 s (fun j k _ hjk hk => by
    rcases h with h | h <;> omega)
  simpa [limbs_copy] using hl

/-- Memory after `limbs_zero`. -/
theorem limbs_zero_mem (s : State) (r n : Nat) :
    (limbs_zero s r n).mem = fun x => if r ≤ x ∧ x < r + n then 0 else s.mem x := by
  have hl := limbs_zero_loop_mem r n 0 s
  simpa [limbs_zero] using hl

/-! ## The carry sequence -/

theorem carry_seq_shift (f : Nat → Nat → Nat → Nat × Nat) (m : Nat → Nat) (p q c i : Nat) :
    carry_seq f m p q c (i + 1) = carry_seq f m (p + 1) (q + 1) (f (m p) (m q) c).2 i := by
  induction i with
  | zero => rfl
  | succ i ih =>
    rw [carry_seq, ih]
    simp only [carry_seq]
    rw [show p + (i + 1) = p + 1 + i from by omega, show q + (i + 1) = q + 1 + i from by omega]

/-- The chain on the limbs read from memory, limb by limb, by the carry
sequence. -/
theorem carry_chain_seq (f : Nat → Nat → Nat → Nat × Nat) (m : Nat → Nat) (n p q c : Nat) :
    (carry_chain f (read_limbs m p n) (read_limbs m q n) c).2 = carry_seq f m p q c n
    ∧ ∀ i, i < n → (carry_chain f (read_limbs m p n) (read_limbs m q n) c).1.getD i 0
        = (f (m (p + i)) (m (q + i)) (carry_seq f m p q c i)).1 := by
  induction n generalizing p q c with
  | zero => exact ⟨rfl, fun i hi => absurd hi (Nat.not_lt_zero i)⟩
  | succ n ih =>
    obtain ⟨i1, i2⟩ := ih (p + 1) (q + 1) (f (m p) (m q) c).2
    simp only [read_limbs, carry_chain]
    refine ⟨?_, ?_⟩
    · rw [i1, carry_seq_shift]
    · intro i hi
      cases i with
      | zero => rfl
      | succ i =>
        rw [List.getD_cons_succ, i2 i (by omega), carry_seq_shift]
        rw [show p + (i + 1) = p + 1 + i from by omega, show q + (i + 1) = q + 1 + i from by omega]

/-- What `limbs_add` returns and leaves in each limb of `r`, by the carry
sequence. -/
theorem limbs_add_seq (bk : Backend) (W : Nat) (s : State) (r a b n : Nat) (hn : 1 ≤ n)
    (h : NoClobber r a b 0 n) :
    (limbs_add bk W s r a b n).1 = carry_seq (limb_adc bk W) s.mem a b 0 n
    ∧ ∀ i, i < n → (limbs_add bk W s r a b n).2.mem (r + i)
        = (limb_adc bk W (s.mem (a + i)) (s.mem (b + i))
            (carry_seq (limb_adc bk W) s.mem a b 0 i)).1 := by
  obtain ⟨h1, h2⟩ := limbs_add_result bk W s r a b n hn h
  obtain ⟨c1, c2⟩ := carry_chain_seq (limb_adc bk W) s.mem n a b 0
  refine ⟨by rw [h1, c1], ?_⟩
  intro i hi
  rw [← read_limbs_getD (limbs_add bk W s r a b n).2.mem n r i hi, h2, c2 i hi]

/-- What `limbs_sub` returns and leaves in each limb of `r`, by the borrow
sequence. -/
theorem limbs_sub_seq (bk : Backend) (W : Nat) (s : State) (r a b n : Nat) (hn : 1 ≤ n)
    (h : NoClobber r a b 0 n) :
    (limbs_sub bk W s r a b n).1 = carry_seq (limb_sbb bk W) s.mem a b 0 n
    ∧ ∀ i, i < n → (limbs_sub bk W s r a b n).2.mem (r + i)
        = (limb_sbb bk W (s.mem (a + i)) (s.mem (b + i))
            (carry_seq (limb_sbb bk W) s.mem a b 0 i)).1 := by
  obtain ⟨h1, h2⟩ := limbs_sub_result bk W s r a b n hn h
  obtain ⟨c1, c2⟩ := carry_chain_seq (limb_sbb bk W) s.mem n a b 0
  refine ⟨by rw [h1, c1], ?_⟩
  intro i hi
  rw [← read_limbs_getD (limbs_sub bk W s r a b n).2.mem n r i hi, h2, c2 i hi]

/-- A carry sequence of an operation that keeps carries in `{0, 1}` stays there. -/
theorem carry_seq_le_one (f : Nat → Nat → Nat → Nat × Nat) (W : Nat) (m : Nat → Nat)
    (a b n : Nat)
    (hf : ∀ x y c, x < 2 ^ W → y < 2 ^ W → c ≤ 1 → (f x y c).2 ≤ 1)
    (ha : ∀ k, k < n → m (a + k) < 2 ^ W) (hb : ∀ k, k < n → m (b + k) < 2 ^ W)
    (i : Nat) (hi : i ≤ n) : carry_seq f m a b 0 i ≤ 1 := by
  induction i with
  | zero => exact Nat.zero_le _
  | succ i ih => exact hf _ _ _ (ha i (by omega)) (hb i (by omega)) (ih (by omega))

/-- The result limb of `limb_sbb` as an integer remainder. -/
theorem limb_sbb_fst_int (bk : Backend) (W a b c : Nat) (hW : 0 < W)
    (ha : a < 2 ^ W) (hb : b < 2 ^ W) (hc : c ≤ 1) :
    ((limb_sbb bk W a b c).1 : Int) = ((a : Int) - (b : Int) - (c : Int)) % 2 ^ W := by
  obtain ⟨h1, h2, h3⟩ := limb_sbb_spec bk W a b c hW ha hb hc
  generalize (limb_sbb bk W a b c).1 = res at h1 h3 ⊢
  generalize (limb_sbb bk W a b c).2 = bo at h2 h3 ⊢
  have hP : ((2 : Int) ^ W) = ((2 ^ W : Nat) : Int) := by push_cast; rfl
  rw [hP]
  generalize 2 ^ W = B at ha hb h1 h3 ⊢
  have h01 : bo = 0 ∨ bo = 1 := by omega
  rcases h01 with h0 | h0
  · subst h0
    simp only [Nat.zero_mul, Nat.add_zero] at h3
    have e : (a : Int) - (b : Int) - (c : Int) = (res : Int) := by omega
    rw [e]
    exact (Int.emod_eq_of_lt (by omega) (by omega)).symm
  · subst h0
    simp only [Nat.one_mul] at h3
    have e : (a : Int) - (b : Int) - (c : Int) = (res : Int) + (-1) * (B : Int) := by omega
    rw [e, Int.add_mul_emod_self]
    exact (Int.emod_eq_of_lt (by omega) (by omega)).symm

/-! ## Order of the accesses of `limbs_add` and `limbs_sub` -/

theorem r_writes_carry_steps (r a b todo i : Nat) :
    r_writes ((List.range' i todo).flatMap (carry_step_trace r a b)) = List.range' (r + i) todo := by
  unfold r_writes
  induction todo generalizing i with
  | zero => simp
  | succ todo ih =>
    rw [List.range'_succ, List.flatMap_cons, List.filterMap_append, ih, List.range'_succ]
    simp [carry_step_trace, List.filterMap_cons]
    omega

theorem reads_a_carry_steps (r a b todo i : Nat) :
    reads_of Buf.a ((List.range' i todo).flatMap (carry_step_trace r a b))
      = List.range' (a + i) todo := by
  unfold reads_of
  induction todo generalizing i with
  | zero => simp
  | succ todo ih =>
    rw [List.range'_succ, List.flatMap_cons, List.filterMap_append, ih, List.range'_succ]
    simp [carry_step_trace, List.filterMap_cons]
    omega

theorem reads_b_carry_steps (r a b todo i : Nat) :
    reads_of Buf.b ((List.range' i todo).flatMap (carry_step_trace r a b))
      = List.range' (b + i) todo := by
  unfold reads_of
  induction todo generalizing i with
  | zero => simp
  | succ todo ih =>
    rw [List.range'_succ, List.flatMap_cons, List.filterMap_append, ih, List.range'_succ]
    simp [carry_step_trace, List.filterMap_cons]
    omega

/-- The accesses of `limbs_add` / `limbs_sub` visit the indices 0 to
`num_limbs - 1` once each, in increasing order. -/
theorem limbs_carry_trace_order (r a b n : Nat) (hn : 1 ≤ n) :
    r_writes (limbs_carry_trace r a b n) = List.range' r n
    ∧ reads_of Buf.a (limbs_carry_trace r a b n) = List.range' a n
    ∧ reads_of Buf.b (limbs_carry_trace r a b n) = List.range' b n := by
  obtain ⟨m, rfl⟩ : ∃ m, n = m + 1 := ⟨n - 1, by omega⟩
  have h1 := r_writes_carry_steps r a b m 1
  have h2 := reads_a_carry_steps r a b m 1
  have h3 := reads_b_carry_steps r a b m 1
  unfold r_writes at h1 ⊢
  unfold reads_of at h2 h3 ⊢
  unfold limbs_carry_trace
  simp only [Nat.add_sub_cancel, List.filterMap_append, h1, h2, h3, List.range'_succ]
  simp [List.filterMap_cons]

/-! ## Assertions -/

theorem limb_adc_checked_eq (bk : Backend) (W a b c : Nat) (hW : 0 < W)
    (ha : a < 2 ^ W) (hb : b < 2 ^ W) (hc : c ≤ 1) :
    limb_adc_checked bk W a b c = some (limb_adc bk W a b c) := by
  have h2 := (limb_adc_spec bk W a b c hW ha hb hc).2.1
  have e1 : decide (c = 0 ∨ c = 1) = true := decide_eq_true (by omega)
  have e2 : decide ((limb_adc bk W a b c).2 = 0 ∨ (limb_adc bk W a b c).2 = 1) = true :=
    decide_eq_true (by omega)
  simp only [limb_adc_checked, assert_ok, e1, e2, if_true]

/-- The loop of `limbs_add` passes every assertion when the limbs of `a` and `b`
are words and the incoming carry is a bit; the carry it returns is a bit. -/
theorem limbs_add_loop_checked_eq (bk : Backend) (W r a b n : Nat) (hW : 0 < W)
    (todo i c : Nat) (s : State) (hi : i + todo ≤ n) (hc : c ≤ 1)
    (ha : ∀ k, k < n → s.mem (a + k) < 2 ^ W) (hb : ∀ k, k < n → s.mem (b + k) < 2 ^ W) :
    limbs_add_loop_checked bk W r a b todo i c s = some (limbs_add_loop bk W r a b todo i c s)
    ∧ (limbs_add_loop bk W r a b todo i c s).1 ≤ 1 := by
  induction todo generalizing i c s with
  | zero => exact ⟨rfl, hc⟩
  | succ todo ih =>
    have hx := ha i (by omega)
    have hy := hb i (by omega)
    obtain ⟨o1, o2, _⟩ := limb_adc_spec bk W (s.mem (a + i)) (s.mem (b + i)) c hW hx hy hc
    have hch := limb_adc_checked_eq bk W (s.mem (a + i)) (s.mem (b + i)) c hW hx hy hc
    have hstep := ih (i + 1) (limb_adc bk W (s.mem (a + i)) (s.mem (b + i)) c).2
      ((((s.log (Event.branch true)).load Buf.a (a + i)).2.load Buf.b (b + i)).2.store Buf.r
        (r + i) (limb_adc bk W (s.mem (a + i)) (s.mem (b + i)) c).1)
      (by omega) o2
      (fun k hk => by
        simp only [State.store, State.load, State.log]
        split_ifs
        · exact o1
        · exact ha k hk)
      (fun k hk => by
        simp only [State.store, State.load, State.log]
        split_ifs
        · exact o1
        · exact hb k hk)
    simp only [limbs_add_loop_checked, limbs_add_loop, limb_adc_at_checked, limb_adc_at,
      State.load, State.log, hch] at hstep ⊢
    exact hstep

/-- `limbs_add` passes every assertion when `num_limbs ≥ 1` and the limbs of `a`
and `b` are words; the value it returns is a bit. -/
theorem limbs_add_checked_eq (bk : Backend) (W : Nat) (s : State) (r a b n : Nat) (hW : 0 < W)
    (hn : 1 ≤ n)
    (ha : ∀ k, k < n → s.mem (a + k) < 2 ^ W) (hb : ∀ k, k < n → s.mem (b + k) < 2 ^ W) :
    limbs_add_checked bk W s r a b n = some (limbs_add bk W s r a b n)
    ∧ (limbs_add bk W s r a b n).1 ≤ 1 := by
  have hx := ha 0 (by omega)
  have hy := hb 0 (by omega)
  obtain ⟨o1, o2, _⟩ := limb_adc_spec bk W (s.mem (a + 0)) (s.mem (b + 0)) 0 hW hx hy
    (Nat.zero_le _)
  have hch := limb_adc_checked_eq bk W (s.mem (a + 0)) (s.mem (b + 0)) 0 hW hx hy (Nat.zero_le _)
  have hstep := limbs_add_loop_checked_eq bk W r a b n hW (n - 1) 1
    (limb_adc bk W (s.mem (a + 0)) (s.mem (b + 0)) 0).2
    (((s.load Buf.a (a + 0)).2.load Buf.b (b + 0)).2.store Buf.r (r + 0)
      (limb_adc bk W (s.mem (a + 0)) (s.mem (b + 0)) 0).1)
    (by omega) o2
    (fun k hk => by
      simp only [State.store, State.load, State.log]
      split_ifs
      · exact o1
      · exact ha k hk)
    (fun k hk => by
      simp only [State.store, State.load, State.log]
      split_ifs
      · exact o1
      · exact hb k hk)
  have e1 : decide (n ≥ 1) = true := decide_eq_true hn
  simp only [limbs_add_checked, limbs_add, limb_add_at, limb_adc_at_checked, limb_adc_at,
    assert_ok, e1, if_true, State.load, State.log, hch] at hstep ⊢
  exact hstep

theorem limb_sbb_checked_eq (bk : Backend) (W a b c : Nat) (hW : 0 < W)
    (ha : a < 2 ^ W) (hb : b < 2 ^ W) (hc : c ≤ 1) :
    limb_sbb_checked bk W a b c = some (limb_sbb bk W a b c) := by
  have h2 := (limb_sbb_spec bk W a b c hW ha hb hc).2.1
  have e1 : decide (c = 0 ∨ c = 1) = true := decide_eq_true (by omega)
  have e2 : decide ((limb_sbb bk W a b c).2 = 0 ∨ (limb_sbb bk W a b c).2 = 1) = true :=
    decide_eq_true (by omega)
  simp only [limb_sbb_checked, assert_ok, e1, e2, if_true]

/-- The loop of `limbs_sub` passes every assertion when the limbs of `a` and `b`
are words and the incoming carry is a bit; the carry it returns is a bit. -/
theorem limbs_sub_loop_checked_eq (bk : Backend) (W r a b n : Nat) (hW : 0 < W)
    (todo i c : Nat) (s : State) (hi : i + todo ≤ n) (hc : c ≤ 1)
    (ha : ∀ k, k < n → s.mem (a + k) < 2 ^ W) (hb : ∀ k, k < n → s.mem (b + k) < 2 ^ W) :
    limbs_sub_loop_checked bk W r a b todo i c s = some (limbs_sub_loop bk W r a b todo i c s)
    ∧ (limbs_sub_loop bk W r a b todo i c s).1 ≤ 1 := by
  induction todo generalizing i c s with
  | zero => exact ⟨rfl, hc⟩
  | succ todo ih =>
    have hx := ha i (by omega)
    have hy := hb i (by omega)
    obtain ⟨o1, o2, _⟩ := limb_sbb_spec bk W (s.mem (a + i)) (s.mem (b + i)) c hW hx hy hc
    have hch := limb_sbb_checked_eq bk W (s.mem (a + i)) (s.mem (b + i)) c hW hx hy hc
    have hstep := ih (i + 1) (limb_sbb bk W (s.mem (a + i)) (s.mem (b + i)) c).2
      ((((s.log (Event.branch true)).load Buf.a (a + i)).2.load Buf.b (b + i)).2.store Buf.r
        (r + i) (limb_sbb bk W (s.mem (a + i)) (s.mem (b + i)) c).1)
      (by omega) o2
      (fun k hk => by
        simp only [State.store, State.load, State.log]
        split_ifs
        · exact o1
        · exact ha k hk)
      (fun k hk => by
        simp only [State.store, State.load, State.log]
        split_ifs
        · exact o1
        · exact hb k hk)
    simp only [limbs_sub_loop_checked, limbs_sub_loop, limb_sbb_at_checked, limb_sbb_at,
      State.load, State.log, hch] at hstep ⊢
    exact hstep

/-- `limbs_sub` passes every assertion when `num_limbs ≥ 1` and the limbs of `a`
and `b` are words; the value it returns is a bit. -/
theorem limbs_sub_checked_eq (bk : Backend) (W : Nat) (s : State) (r a b n : Nat) (hW : 0 < W)
    (hn : 1 ≤ n)
    (ha : ∀ k, k < n → s.mem (a + k) < 2 ^ W) (hb : ∀ k, k < n → s.mem (b + k) < 2 ^ W) :
    limbs_sub_checked bk W s r a b n = some (limbs_sub bk W s r a b n)
    ∧ (limbs_sub bk W s r a b n).1 ≤ 1 := by
  have hx := ha 0 (by omega)
  have hy := hb 0 (by omega)
  obtain ⟨o1, o2, _⟩ := limb_sbb_spec bk W (s.mem (a + 0)) (s.mem (b + 0)) 0 hW hx hy
    (Nat.zero_le _)
  have hch := limb_sbb_checked_eq bk W (s.mem (a + 0)) (s.mem (b + 0)) 0 hW hx hy (Nat.zero_le _)
  have hstep := limbs_sub_loop_checked_eq bk W r a b n hW (n - 1) 1
    (limb_sbb bk W (s.mem (a + 0)) (s.mem (b + 0)) 0).2
    (((s.load Buf.a (a + 0)).2.load Buf.b (b + 0)).2.store Buf.r (r + 0)
      (limb_sbb bk W (s.mem (a + 0)) (s.mem (b + 0)) 0).1)
    (by omega) o2
    (fun k hk => by
      simp only [State.store, State.load, State.log]
      split_ifs
      · exact o1
      · exact ha k hk)
    (fun k hk => by
      simp only [State.store, State.load, State.log]
      split_ifs
      · exact o1
      · exact hb k hk)
  have e1 : decide (n ≥ 1) = true := decide_eq_true hn
  simp only [limbs_sub_checked, limbs_sub, limb_sub_at, limb_sbb_at_checked, limb_sbb_at,
    assert_ok, e1, if_true, State.load, State.log, hch] at hstep ⊢
  exact hstep

/-! ## Subtraction after addition -/

/-- Word level: subtracting `b` and the carry-in from the sum gives back `a`,
with the carry of the addition as borrow. -/
theorem limb_sbb_adc_cancel (bk : Backend) (W x y c : Nat) (hW : 0 < W)
    (hx : x < 2 ^ W) (hy : y < 2 ^ W) (hc : c ≤ 1) :
    limb_sbb bk W (limb_adc bk W x y c).1 y c = (x, (limb_adc bk W x y c).2) := by
  obtain ⟨h1, h2, h3⟩ := limb_adc_spec bk W x y c hW hx hy hc
  rw [limb_sbb_eq bk W _ y c hW h1 hy hc]
  generalize (limb_adc bk W x y c).1 = res at h1 h3 ⊢
  generalize (limb_adc bk W x y c).2 = car at h2 h3 ⊢
  simp only [sbb_closed]
  have h01 : car = 0 ∨ car = 1 := by omega
  rcases h01 with h0 | h0
  · subst h0
    simp only [Nat.zero_mul, Nat.add_zero] at h3
    have hA : y + c ≤ res := by omega
    have hB : ¬ res < y + c := by omega
    simp only [hA, hB, if_true, if_false]
    refine Prod.ext ?_ rfl
    show res - y - c = x
    omega
  · subst h0
    simp only [Nat.one_mul] at h3
    have hA : ¬ y + c ≤ res := by omega
    have hB : res < y + c := by omega
    simp only [hA, hB, if_true, if_false]
    refine Prod.ext ?_ rfl
    show res + 2 ^ W - y - c = x
    omega

/-- Chain level: the borrow chain on the sum and `ys` gives back `xs`, with the
carry of the addition as borrow. -/
theorem chain_sbb_adc_cancel (bk : Backend) (W : Nat) (hW : 0 < W) (xs ys : List Nat) (c : Nat)
    (hlen : xs.length = ys.length)
    (hx : ∀ x ∈ xs, x < 2 ^ W) (hy : ∀ y ∈ ys, y < 2 ^ W) (hc : c ≤ 1) :
    carry_chain (limb_sbb bk W) (carry_chain (limb_adc bk W) xs ys c).1 ys c
      = (xs, (carry_chain (limb_adc bk W) xs ys c).2) := by
  induction xs generalizing ys c with
  | nil =>
    cases ys with
    | nil => rfl
    | cons y ys => simp at hlen
  | cons x xs ih =>
    cases ys with
    | nil => simp at hlen
    | cons y ys =>
      have hx0 := hx x (List.mem_cons_self _ _)
      have hy0 := hy y (List.mem_cons_self _ _)
      have hw := limb_sbb_adc_cancel bk W x y c hW hx0 hy0 hc
      have hc' := (limb_adc_spec bk W x y c hW hx0 hy0 hc).2.1
      have hrec := ih ys (limb_adc bk W x y c).2 (by simpa using hlen)
        (fun z hz => hx z (List.mem_cons_of_mem _ hz))
        (fun z hz => hy z (List.mem_cons_of_mem _ hz)) hc'
      simp only [carry_chain, hw, hrec]

/-! ## Frame and bounds -/

theorem table_reads_select (r table n k : Nat) :
    table_reads (limbs_select_trace r table n k) = List.range' table (k * n) := by
  have h1 := table_reads_zero r n
  have h2 := table_reads_outer r table n k 0
  unfold table_reads at h1 h2 ⊢
  unfold limbs_select_trace
  rw [List.filterMap_append, List.filterMap_append, h1, h2]
  simp [List.filterMap_cons]

theorem carry_loop_frame (f : Nat → Nat → Nat → Nat × Nat) (r a b todo i c : Nat) (s : State)
    (x : Nat) (hx : x < r + i ∨ r + i + todo ≤ x) :
    (carry_loop f r a b todo i c s).2.mem x = s.mem x := by
  induction todo generalizing i c s with
  | zero => rfl
  | succ todo ih =>
    simp only [carry_loop]
    rw [ih _ _ _ (by omega)]
    have hne : ¬ x = r + i := by omega
    simp only [State.store, State.load, State.log, hne, if_false]

theorem limbs_add_frame (bk : Backend) (W : Nat) (s : State) (r a b n x : Nat) (hn : 1 ≤ n)
    (hx : x < r ∨ r + n ≤ x) : (limbs_add bk W s r a b n).2.mem x = s.mem x := by
  simp only [limbs_add, limb_add_at, limb_adc_at, limbs_add_loop_eq]
  rw [carry_loop_frame _ _ _ _ _ _ _ _ _ (by omega)]
  have hne : ¬ x = r + 0 := by omega
  simp only [State.store, State.load, State.log, hne, if_false]

theorem limbs_sub_frame (bk : Backend) (W : Nat) (s : State) (r a b n x : Nat) (hn : 1 ≤ n)
    (hx : x < r ∨ r + n ≤ x) : (limbs_sub bk W s r a b n).2.mem x = s.mem x := by
  simp only [limbs_sub, limb_sub_at, limb_sbb_at, limbs_sub_loop_eq]
  rw [carry_loop_frame _ _ _ _ _ _ _ _ _ (by omega)]
  have hne : ¬ x = r + 0 := by omega
  simp only [State.store, State.load, State.log, hne, if_false]

theorem limbs_copy_loop_frame (r a todo i : Nat) (s : State) (x : Nat)
    (hx : x < r + i ∨ r + i + todo ≤ x) : (limbs_copy_loop r a todo i s).mem x = s.mem x := by
  induction todo generalizing i s with
  | zero => rfl
  | succ todo ih =>
    simp only [limbs_copy_loop]
    rw [ih _ _ (by omega)]
    have hne : ¬ x = r + i := by omega
    simp only [State.store, State.load, State.log, hne, if_false]

theorem limbs_zero_loop_frame (r todo i : Nat) (s : State) (x : Nat)
    (hx : x < r + i ∨ r + i + todo ≤ x) : (limbs_zero_loop r todo i s).mem x = s.mem x := by
  have hB : ¬ (r + i ≤ x ∧ x < r + i + todo) := by omega
  rw [limbs_zero_loop_mem]
  simp only [hB, if_false]

theorem select_inner_frame (select_w : Nat → Nat → Nat → Nat) (r table n e equal todo i : Nat)
    (s : State) (x : Nat) (hx : x < r + i ∨ r + i + todo ≤ x) :
    (limbs_select_inner select_w r table n e equal todo i s).mem x = s.mem x := by
  induction todo generalizing i s with
  | zero => rfl
  | succ todo ih =>
    simp only [limbs_select_inner]
    rw [ih _ _ (by omega)]
    have hne : ¬ x = r + i := by omega
    simp only [State.store, State.load, State.log, hne, if_false]

theorem select_outer_frame (eq_w : Nat → Nat → Nat) (select_w : Nat → Nat → Nat → Nat)
    (r table n index todo e : Nat) (s : State) (x : Nat) (hx : x < r ∨ r + n ≤ x) :
    (limbs_select_outer eq_w select_w r table n index todo e s).mem x = s.mem x := by
  induction todo generalizing e s with
  | zero => rfl
  | succ todo ih =>
    simp only [limbs_select_outer]
    rw [ih, select_inner_frame _ _ _ _ _ _ _ _ _ _ (by omega)]
    rfl

theorem limbs_select_frame (eq_w : Nat → Nat → Nat) (select_w : Nat → Nat → Nat → Nat)
    (s : State) (r table n k index x : Nat) (hx : x < r ∨ r + n ≤ x) :
    (limbs_select eq_w select_w s r table n k index).mem x = s.mem x := by
  simp only [limbs_select]
  rw [select_outer_frame _ _ _ _ _ _ _ _ _ _ hx, limbs_zero_loop_frame _ _ _ _ _ (by omega)]

theorem in_bounds_mono (base len len' : Buf → Nat) (h : ∀ buf, len buf ≤ len' buf) (e : Event)
    (he : in_bounds base len e = true) : in_bounds base len' e = true := by
  cases e with
  | read buf x =>
    simp only [in_bounds, decide_eq_true_eq] at he ⊢
    have := h buf
    omega
  | write buf x =>
    simp only [in_bounds, decide_eq_true_eq] at he ⊢
    have := h buf
    omega
  | branch t => rfl
  | eq_w => rfl
  | select_w => rfl

theorem forall_mem_flatMap_range' (P : Event → Prop) (f : Nat → List Event) (i todo : Nat)
    (h : ∀ j, i ≤ j → j < i + todo → ∀ e ∈ f j, P e) :
    ∀ e ∈ (List.range' i todo).flatMap f, P e := by
  intro e he
  rw [List.mem_flatMap] at he
  obtain ⟨j, hj, hej⟩ := he
  rw [List.mem_range'_1] at hj
  exact h j hj.1 hj.2 e hej

theorem carry_trace_in_bounds (r a b table n k : Nat) (hn : 1 ≤ n) :
    ∀ e ∈ limbs_carry_trace r a b n,
      in_bounds (per_buf r a b table) (per_buf n n n (k * n)) e = true := by
  intro e he
  unfold limbs_carry_trace at he
  rw [List.mem_append, List.mem_append] at he
  rcases he with he | he | he
  · simp only [List.mem_cons, List.mem_singleton, List.not_mem_nil, or_false] at he
    rcases he with rfl | rfl | rfl <;>
      simp only [in_bounds, per_buf, decide_eq_true_eq] <;> omega
  · refine forall_mem_flatMap_range'
      (fun e => in_bounds (per_buf r a b table) (per_buf n n n (k * n)) e = true) _ 1 (n - 1) ?_ e he
    intro j hj1 hj2 e' he'
    simp only [carry_step_trace, List.mem_cons, List.mem_singleton, List.not_mem_nil,
      or_false] at he'
    rcases he' with rfl | rfl | rfl | rfl
    · rfl
    · simp only [in_bounds, per_buf, decide_eq_true_eq]; omega
    · simp only [in_bounds, per_buf, decide_eq_true_eq]; omega
    · simp only [in_bounds, per_buf, decide_eq_true_eq]; omega
  · simp only [List.mem_singleton] at he
    subst he
    rfl

theorem copy_trace_in_bounds (r a b table n k : Nat) :
    ∀ e ∈ limbs_copy_trace r a n,
      in_bounds (per_buf r a b table) (per_buf n n n (k * n)) e = true := by
  intro e he
  unfold limbs_copy_trace at he
  rw [List.mem_append] at he
  rcases he with he | he
  · refine forall_mem_flatMap_range'
      (fun e => in_bounds (per_buf r a b table) (per_buf n n n (k * n)) e = true) _ 0 n ?_ e he
    intro j hj1 hj2 e' he'
    simp only [List.mem_cons, List.mem_singleton, List.not_mem_nil, or_false] at he'
    rcases he' with rfl | rfl | rfl
    · rfl
    · simp only [in_bounds, per_buf, decide_eq_true_eq]; omega
    · simp only [in_bounds, per_buf, decide_eq_true_eq]; omega
  · simp only [List.mem_singleton] at he
    subst he
    rfl

theorem zero_trace_in_bounds (r a b table n k : Nat) :
    ∀ e ∈ limbs_zero_trace r n,
      in_bounds (per_buf r a b table) (per_buf n n n (k * n)) e = true := by
  intro e he
  unfold limbs_zero_trace at he
  rw [List.mem_append] at he
  rcases he with he | he
  · refine forall_mem_flatMap_range'
      (fun e => in_bounds (per_buf r a b table) (per_buf n n n (k * n)) e = true) _ 0 n ?_ e he
    intro j hj1 hj2 e' he'
    simp only [List.mem_cons, List.mem_singleton, List.not_mem_nil, or_false] at he'
    rcases he' with rfl | rfl
    · rfl
    · simp only [in_bounds, per_buf, decide_eq_true_eq]; omega
  · simp only [List.mem_singleton] at he
    subst he
    rfl

theorem select_entry_in_bounds (r a b table n k e : Nat) (he : e < k) :
    ∀ ev ∈ select_entry_trace r table n e,
      in_bounds (per_buf r a b table) (per_buf n n n (k * n)) ev = true := by
  intro ev hev
  unfold select_entry_trace at hev
  rw [List.mem_append, List.mem_append] at hev
  rcases hev with hev | hev | hev
  · simp only [List.mem_cons, List.mem_singleton, List.not_mem_nil, or_false] at hev
    rcases hev with rfl | rfl <;> rfl
  · refine forall_mem_flatMap_range'
      (fun e => in_bounds (per_buf r a b table) (per_buf n n n (k * n)) e = true) _ 0 n ?_ ev hev
    intro j hj1 hj2 e' he'
    have hlt := entry_index_lt e k j n he (by omega)
    simp only [select_step_trace, List.mem_cons, List.mem_singleton, List.not_mem_nil,
      or_false] at he'
    rcases he' with rfl | rfl | rfl | rfl | rfl
    · rfl
    · simp only [in_bounds, per_buf, decide_eq_true_eq]; omega
    · simp only [in_bounds, per_buf, decide_eq_true_eq]; omega
    · rfl
    · simp only [in_bounds, per_buf, decide_eq_true_eq]; omega
  · simp only [List.mem_singleton] at hev
    subst hev
    rfl

theorem select_trace_in_bounds (r a b table n k : Nat) :
    ∀ e ∈ limbs_select_trace r table n k,
      in_bounds (per_buf r a b table) (per_buf n n n (k * n)) e = true := by
  intro e he
  unfold limbs_select_trace at he
  rw [List.mem_append, List.mem_append] at he
  rcases he with he | he | he
  · exact zero_trace_in_bounds r a b table n k e he
  · refine forall_mem_flatMap_range'
      (fun e => in_bounds (per_buf r a b table) (per_buf n n n (k * n)) e = true) _ 0 k ?_ e he
    intro j _ hj2 e' he'
    exact select_entry_in_bounds r a b table n k j (by omega) e' he'
  · simp only [List.mem_singleton] at he
    subst he
    rfl

theorem limbs_copy_trace_eq (s : State) (r a n : Nat) :
    (limbs_copy s r a n).trace = s.trace ++ limbs_copy_trace r a n := by
  simp only [limbs_copy, limbs_copy_loop_trace, limbs_copy_trace]

theorem limbs_zero_trace_eq (s : State) (r n : Nat) :
    (limbs_zero s r n).trace = s.trace ++ limbs_zero_trace r n := by
  simp only [limbs_zero, limbs_zero_loop_trace, limbs_zero_trace]

theorem noClobber_mono (r a b m n : Nat) (hmn : m ≤ n) (h : NoClobber r a b 0 n) :
    NoClobber r a b 0 m :=
  fun j k hj hjk hk => h j k hj hjk (by omega)

/-! ## The claims -/

/-- C1: for a limb width `W` of 32 or 64 bits, every `n ≥ 1` and all limb arrays
`a`, `b` of length `n`, `limbs_add(r, a, b, n)` with `r` disjoint from `a` and `b`
returns a carry and leaves `r` such that
`int(r) + carry * 2 ^ (n * W) = int(a) + int(b)` as natural numbers, in every
build variant; and for `W = 64`, `a = [2^64 - 1, 0]`, `b = [1, 0]` it leaves
`r = [0, 1]` and returns 0. -/
theorem limbs_add_value (bk : Backend) (W n : Nat) (s : State) (r a b : Nat)
    (hW : W = 32 ∨ W = 64) (hn : 1 ≤ n)
    (hra : Disjoint r n a n) (hrb : Disjoint r n b n)
    (ha : ∀ k, k < n → s.mem (a + k) < 2 ^ W) (hb : ∀ k, k < n → s.mem (b + k) < 2 ^ W) :
    (limbs_int W (read_limbs (limbs_add bk W s r a b n).2.mem r n)
        + (limbs_add bk W s r a b n).1 * 2 ^ (n * W)
      = limbs_int W (read_limbs s.mem a n) + limbs_int W (read_limbs s.mem b n))
    ∧ (limbs_add bk 64 ex_add_state 4 0 2 2).1 = 0
    ∧ read_limbs (limbs_add bk 64 ex_add_state 4 0 2 2).2.mem 4 2 = [0, 1] := by
  refine ⟨?_, ?_, ?_⟩
  · obtain ⟨h1, h2⟩ := limbs_add_result bk W s r a b n hn (noClobber_of_disjoint r a b n hra hrb)
    rw [h1, h2]
    have hv := chain_add_value (limb_adc bk W) W
      (fun x y c hx hy hc => limb_adc_spec bk W x y c (width_pos W hW) hx hy hc)
      (read_limbs s.mem a n) (read_limbs s.mem b n) 0
      (by rw [read_limbs_length, read_limbs_length])
      (mem_read_limbs s.mem a n (fun x => x < 2 ^ W) ha)
      (mem_read_limbs s.mem b n (fun x => x < 2 ^ W) hb) (Nat.zero_le _)
    rw [read_limbs_length] at hv
    simpa using hv.2.2
  · cases bk <;> decide
  · cases bk <;> decide

/-- Witness of `limbs_add_value` at the example of the claim. -/
theorem limbs_add_value_witness :
    ((64 = 32 ∨ 64 = 64) ∧ 1 ≤ 2 ∧ Disjoint 4 2 0 2 ∧ Disjoint 4 2 2 2
      ∧ (∀ k, k < 2 → ex_add_state.mem (0 + k) < 2 ^ 64)
      ∧ (∀ k, k < 2 → ex_add_state.mem (2 + k) < 2 ^ 64))
    ∧ ((limbs_int 64 (read_limbs (limbs_add Backend.portable 64 ex_add_state 4 0 2 2).2.mem 4 2)
        + (limbs_add Backend.portable 64 ex_add_state 4 0 2 2).1 * 2 ^ (2 * 64)
      = limbs_int 64 (read_limbs ex_add_state.mem 0 2)
        + limbs_int 64 (read_limbs ex_add_state.mem 2 2))
    ∧ (limbs_add Backend.portable 64 ex_add_state 4 0 2 2).1 = 0
    ∧ read_limbs (limbs_add Backend.portable 64 ex_add_state 4 0 2 2).2.mem 4 2 = [0, 1]) :=
  ⟨⟨by decide, by decide, Or.inr (by decide), Or.inr (by decide), by decide, by decide⟩,
    limbs_add_value Backend.portable 64 2 ex_add_state 4 0 2 (by decide) (by decide)
      (Or.inr (by decide)) (Or.inr (by decide)) (by decide) (by decide)⟩

/-- C2: for a limb width `W` of 32 or 64 bits, every `n ≥ 1` and all limb arrays
`a`, `b` of length `n`, `limbs_sub(r, a, b, n)` with `r` disjoint from `a` and `b`
returns a borrow and leaves `r` such that
`int(r) - borrow * 2 ^ (n * W) = int(a) - int(b)` as integers, the borrow is 1
exactly when `int(a) < int(b)` and 0 otherwise, in every build variant; and for
`W = 64`, `a = [0, 0]`, `b = [1, 0]` it leaves `r = [2^64 - 1, 2^64 - 1]` and
returns 1. -/
theorem limbs_sub_value (bk : Backend) (W n : Nat) (s : State) (r a b : Nat)
    (hW : W = 32 ∨ W = 64) (hn : 1 ≤ n)
    (hra : Disjoint r n a n) (hrb : Disjoint r n b n)
    (ha : ∀ k, k < n → s.mem (a + k) < 2 ^ W) (hb : ∀ k, k < n → s.mem (b + k) < 2 ^ W) :
    ((limbs_int W (read_limbs (limbs_sub bk W s r a b n).2.mem r n) : Int)
        - ((limbs_sub bk W s r a b n).1 : Int) * 2 ^ (n * W)
      = (limbs_int W (read_limbs s.mem a n) : Int) - (limbs_int W (read_limbs s.mem b n) : Int))
    ∧ ((limbs_sub bk W s r a b n).1 = 1
        ↔ limbs_int W (read_limbs s.mem a n) < limbs_int W (read_limbs s.mem b n))
    ∧ ((limbs_sub bk W s r a b n).1 = 0
        ↔ ¬ limbs_int W (read_limbs s.mem a n) < limbs_int W (read_limbs s.mem b n))
    ∧ (limbs_sub bk 64 ex_sub_state 4 0 2 2).1 = 1
    ∧ read_limbs (limbs_sub bk 64 ex_sub_state 4 0 2 2).2.mem 4 2 = [2 ^ 64 - 1, 2 ^ 64 - 1] := by
  have hmain : ((limbs_int W (read_limbs (limbs_sub bk W s r a b n).2.mem r n) : Int)
        - ((limbs_sub bk W s r a b n).1 : Int) * 2 ^ (n * W)
      = (limbs_int W (read_limbs s.mem a n) : Int) - (limbs_int W (read_limbs s.mem b n) : Int))
    ∧ ((limbs_sub bk W s r a b n).1 = 1
        ↔ limbs_int W (read_limbs s.mem a n) < limbs_int W (read_limbs s.mem b n))
    ∧ ((limbs_sub bk W s r a b n).1 = 0
        ↔ ¬ limbs_int W (read_limbs s.mem a n) < limbs_int W (read_limbs s.mem b n)) := by
    obtain ⟨h1, h2⟩ := limbs_sub_result bk W s r a b n hn (noClobber_of_disjoint r a b n hra hrb)
    rw [h1, h2]
    have hlen : (read_limbs s.mem a n).length = (read_limbs s.mem b n).length := by
      rw [read_limbs_length, read_limbs_length]
    obtain ⟨v1, v2, v3⟩ := chain_sub_value (limb_sbb bk W) W
      (fun x y c hx hy hc => limb_sbb_spec bk W x y c (width_pos W hW) hx hy hc)
      (read_limbs s.mem a n) (read_limbs s.mem b n) 0 hlen
      (mem_read_limbs s.mem a n (fun x => x < 2 ^ W) ha)
      (mem_read_limbs s.mem b n (fun x => x < 2 ^ W) hb) (Nat.zero_le _)
    have v4 := limbs_int_lt W _ v1
    rw [carry_chain_length _ _ _ _ hlen] at v4
    rw [read_limbs_length] at v3 v4
    generalize carry_chain (limb_sbb bk W) (read_limbs s.mem a n) (read_limbs s.mem b n) 0 = ch
      at v2 v3 v4 ⊢
    generalize limbs_int W (read_limbs s.mem a n) = A at v3 ⊢
    generalize limbs_int W (read_limbs s.mem b n) = B at v3 ⊢
    generalize limbs_int W ch.1 = R at v3 v4 ⊢
    have hP : ((2 : Int) ^ (n * W)) = ((2 ^ (n * W) : Nat) : Int) := by push_cast; rfl
    rw [hP]
    generalize 2 ^ (n * W) = P at v3 v4 ⊢
    have hc : ch.2 = 0 ∨ ch.2 = 1 := by omega
    rcases hc with hc | hc
    · rw [hc] at v3 ⊢
      simp only [Nat.zero_mul, Nat.add_zero] at v3
      refine ⟨?_, ?_, ?_⟩
      · push_cast; omega
      · constructor
        · intro h; omega
        · intro h; omega
      · constructor
        · intro _; omega
        · intro _; rfl
    · rw [hc] at v3 ⊢
      simp only [Nat.one_mul, Nat.add_zero] at v3
      refine ⟨?_, ?_, ?_⟩
      · push_cast; omega
      · constructor
        · intro _; omega
        · intro _; rfl
      · constructor
        · intro h; omega
        · intro h; omega
  refine ⟨hmain.1, hmain.2.1, hmain.2.2, ?_, ?_⟩
  · cases bk <;> decide
  · cases bk <;> decide

/-- Witness of `limbs_sub_value` at the example of the claim. -/
theorem limbs_sub_value_witness :
    ((64 = 32 ∨ 64 = 64) ∧ 1 ≤ 2 ∧ Disjoint 4 2 0 2 ∧ Disjoint 4 2 2 2
      ∧ (∀ k, k < 2 → ex_sub_state.mem (0 + k) < 2 ^ 64)
      ∧ (∀ k, k < 2 → ex_sub_state.mem (2 + k) < 2 ^ 64))
    ∧ (((limbs_int 64 (read_limbs (limbs_sub Backend.portable 64 ex_sub_state 4 0 2 2).2.mem 4 2)
          : Int)
        - ((limbs_sub Backend.portable 64 ex_sub_state 4 0 2 2).1 : Int) * 2 ^ (2 * 64)
      = (limbs_int 64 (read_limbs ex_sub_state.mem 0 2) : Int)
        - (limbs_int 64 (read_limbs ex_sub_state.mem 2 2) : Int))
    ∧ ((limbs_sub Backend.portable 64 ex_sub_state 4 0 2 2).1 = 1
        ↔ limbs_int 64 (read_limbs ex_sub_state.mem 0 2)
          < limbs_int 64 (read_limbs ex_sub_state.mem 2 2))
    ∧ ((limbs_sub Backend.portable 64 ex_sub_state 4 0 2 2).1 = 0
        ↔ ¬ limbs_int 64 (read_limbs ex_sub_state.mem 0 2)
          < limbs_int 64 (read_limbs ex_sub_state.mem 2 2))
    ∧ (limbs_sub Backend.portable 64 ex_sub_state 4 0 2 2).1 = 1
    ∧ read_limbs (limbs_sub Backend.portable 64 ex_sub_state 4 0 2 2).2.mem 4 2
        = [2 ^ 64 - 1, 2 ^ 64 - 1]) :=
  ⟨⟨by decide, by decide, Or.inr (by decide), Or.inr (by decide), by decide, by decide⟩,
    limbs_sub_value Backend.portable 64 2 ex_sub_state 4 0 2 (by decide) (by decide)
      (Or.inr (by decide)) (Or.inr (by decide)) (by decide) (by decide)⟩

/-- C3: for a limb width `W` of 32 or 64 bits, all limbs `a`, `b` below `2 ^ W`
and a carry-in of 0 or 1, `limb_adc(r, a, b, carry_in)`, in every build variant,
stores in `*r` a result and returns a carry with
`result + carry * 2 ^ W = a + b + carry_in` as natural numbers, `result < 2 ^ W`
and the carry 0 or 1; so `result = (a + b + carry_in) mod 2 ^ W`, and the carry is
1 exactly when `a + b + carry_in ≥ 2 ^ W`. -/
theorem limb_adc_contract (bk : Backend) (W a b carry_in : Nat) (s : State) (r : Nat)
    (hW : W = 32 ∨ W = 64) (ha : a < 2 ^ W) (hb : b < 2 ^ W)
    (hc : carry_in = 0 ∨ carry_in = 1) :
    (limb_adc_at bk W s r a b carry_in).2.mem r + (limb_adc_at bk W s r a b carry_in).1 * 2 ^ W
      = a + b + carry_in
    ∧ (limb_adc_at bk W s r a b carry_in).2.mem r < 2 ^ W
    ∧ ((limb_adc_at bk W s r a b carry_in).1 = 0 ∨ (limb_adc_at bk W s r a b carry_in).1 = 1)
    ∧ (limb_adc_at bk W s r a b carry_in).2.mem r = (a + b + carry_in) % 2 ^ W
    ∧ ((limb_adc_at bk W s r a b carry_in).1 = 1 ↔ 2 ^ W ≤ a + b + carry_in) := by
  have hW0 := width_pos W hW
  have hc1 : carry_in ≤ 1 := by omega
  have hB := two_le_two_pow W hW0
  obtain ⟨h1, h2, h3⟩ := limb_adc_spec bk W a b carry_in hW0 ha hb hc1
  have heq := limb_adc_eq bk W a b carry_in hW0 ha hb hc1
  have hmem : (limb_adc_at bk W s r a b carry_in).2.mem r = (limb_adc bk W a b carry_in).1 := by
    simp [limb_adc_at, State.store]
  have hcar : (limb_adc_at bk W s r a b carry_in).1 = (limb_adc bk W a b carry_in).2 := rfl
  rw [hmem, hcar]
  refine ⟨h3, h1, by omega, by rw [heq], ?_⟩
  have h01 : (limb_adc bk W a b carry_in).2 = 0 ∨ (limb_adc bk W a b carry_in).2 = 1 := by omega
  rcases h01 with h0 | h0
  · rw [h0] at h3 ⊢
    simp only [Nat.zero_mul, Nat.add_zero] at h3
    constructor
    · intro h; omega
    · intro h; omega
  · rw [h0] at h3 ⊢
    simp only [Nat.one_mul] at h3
    constructor
    · intro _; omega
    · intro _; rfl

/-- Witness of `limb_adc_contract` at the wraparound boundary. -/
theorem limb_adc_contract_witness :
    ((64 = 32 ∨ 64 = 64) ∧ 2 ^ 64 - 1 < 2 ^ 64 ∧ (1 = 0 ∨ 1 = 1))
    ∧ ((limb_adc_at Backend.portable 64 State.init 0 (2 ^ 64 - 1) (2 ^ 64 - 1) 1).2.mem 0
        + (limb_adc_at Backend.portable 64 State.init 0 (2 ^ 64 - 1) (2 ^ 64 - 1) 1).1 * 2 ^ 64
      = 2 ^ 64 - 1 + (2 ^ 64 - 1) + 1
    ∧ (limb_adc_at Backend.portable 64 State.init 0 (2 ^ 64 - 1) (2 ^ 64 - 1) 1).2.mem 0 < 2 ^ 64
    ∧ ((limb_adc_at Backend.portable 64 State.init 0 (2 ^ 64 - 1) (2 ^ 64 - 1) 1).1 = 0
        ∨ (limb_adc_at Backend.portable 64 State.init 0 (2 ^ 64 - 1) (2 ^ 64 - 1) 1).1 = 1)
    ∧ (limb_adc_at Backend.portable 64 State.init 0 (2 ^ 64 - 1) (2 ^ 64 - 1) 1).2.mem 0
        = (2 ^ 64 - 1 + (2 ^ 64 - 1) + 1) % 2 ^ 64
    ∧ ((limb_adc_at Backend.portable 64 State.init 0 (2 ^ 64 - 1) (2 ^ 64 - 1) 1).1 = 1
        ↔ 2 ^ 64 ≤ 2 ^ 64 - 1 + (2 ^ 64 - 1) + 1)) :=
  ⟨⟨by decide, by decide, by decide⟩,
    limb_adc_contract Backend.portable 64 (2 ^ 64 - 1) (2 ^ 64 - 1) 1 State.init 0
      (by decide) (by decide) (by decide) (by decide)⟩

/-- C4: for a limb width `W` of 32 or 64 bits, all limbs `a`, `b` below `2 ^ W`
and a borrow-in of 0 or 1, `limb_sbb(r, a, b, borrow_in)`, in every build variant,
stores in `*r` a result and returns a borrow with
`result - borrow * 2 ^ W = a - b - borrow_in` as integers, `0 ≤ result < 2 ^ W`
and the borrow 0 or 1; so `result = (a - b - borrow_in) mod 2 ^ W`, and the borrow
is 1 exactly when `a - b - borrow_in < 0`. -/
theorem limb_sbb_contract (bk : Backend) (W a b borrow_in : Nat) (s : State) (r : Nat)
    (hW : W = 32 ∨ W = 64) (ha : a < 2 ^ W) (hb : b < 2 ^ W)
    (hc : borrow_in = 0 ∨ borrow_in = 1) :
    (((limb_sbb_at bk W s r a b borrow_in).2.mem r : Int)
        - ((limb_sbb_at bk W s r a b borrow_in).1 : Int) * 2 ^ W
      = (a : Int) - (b : Int) - (borrow_in : Int))
    ∧ (0 : Int) ≤ ((limb_sbb_at bk W s r a b borrow_in).2.mem r : Int)
    ∧ (limb_sbb_at bk W s r a b borrow_in).2.mem r < 2 ^ W
    ∧ ((limb_sbb_at bk W s r a b borrow_in).1 = 0 ∨ (limb_sbb_at bk W s r a b borrow_in).1 = 1)
    ∧ ((limb_sbb_at bk W s r a b borrow_in).2.mem r : Int)
        = ((a : Int) - (b : Int) - (borrow_in : Int)) % 2 ^ W
    ∧ ((limb_sbb_at bk W s r a b borrow_in).1 = 1
        ↔ (a : Int) - (b : Int) - (borrow_in : Int) < 0) := by
  have hW0 := width_pos W hW
  have hc1 : borrow_in ≤ 1 := by omega
  obtain ⟨h1, h2, h3⟩ := limb_sbb_spec bk W a b borrow_in hW0 ha hb hc1
  have hmem : (limb_sbb_at bk W s r a b borrow_in).2.mem r = (limb_sbb bk W a b borrow_in).1 := by
    simp [limb_sbb_at, State.store]
  have hcar : (limb_sbb_at bk W s r a b borrow_in).1 = (limb_sbb bk W a b borrow_in).2 := rfl
  rw [hmem, hcar]
  generalize (limb_sbb bk W a b borrow_in).1 = res at h1 h3 ⊢
  generalize (limb_sbb bk W a b borrow_in).2 = bo at h2 h3 ⊢
  have hP : ((2 : Int) ^ W) = ((2 ^ W : Nat) : Int) := by push_cast; rfl
  rw [hP]
  generalize 2 ^ W = B at ha hb h1 h3 ⊢
  have h01 : bo = 0 ∨ bo = 1 := by omega
  rcases h01 with h0 | h0
  · subst h0
    simp only [Nat.zero_mul, Nat.add_zero] at h3
    have e : (a : Int) - (b : Int) - (borrow_in : Int) = (res : Int) := by omega
    refine ⟨by push_cast; omega, by omega, h1, Or.inl rfl, ?_, ?_⟩
    · rw [e]
      exact (Int.emod_eq_of_lt (by omega) (by omega)).symm
    · constructor
      · intro h; omega
      · intro h; omega
  · subst h0
    simp only [Nat.one_mul] at h3
    have e : (a : Int) - (b : Int) - (borrow_in : Int) = (res : Int) + (-1) * (B : Int) := by
      omega
    refine ⟨by push_cast; omega, by omega, h1, Or.inr rfl, ?_, ?_⟩
    · rw [e, Int.add_mul_emod_self]
      exact (Int.emod_eq_of_lt (by omega) (by omega)).symm
    · constructor
      · intro _; omega
      · intro _; rfl

/-- Witness of `limb_sbb_contract` at a borrowing input. -/
theorem limb_sbb_contract_witness :
    ((64 = 32 ∨ 64 = 64) ∧ 0 < 2 ^ 64 ∧ 2 ^ 64 - 1 < 2 ^ 64 ∧ (1 = 0 ∨ 1 = 1))
    ∧ ((((limb_sbb_at Backend.portable 64 State.init 0 0 (2 ^ 64 - 1) 1).2.mem 0 : Int)
        - ((limb_sbb_at Backend.portable 64 State.init 0 0 (2 ^ 64 - 1) 1).1 : Int) * 2 ^ 64
      = ((0 : Nat) : Int) - ((2 ^ 64 - 1 : Nat) : Int) - ((1 : Nat) : Int))
    ∧ (0 : Int) ≤ ((limb_sbb_at Backend.portable 64 State.init 0 0 (2 ^ 64 - 1) 1).2.mem 0 : Int)
    ∧ (limb_sbb_at Backend.portable 64 State.init 0 0 (2 ^ 64 - 1) 1).2.mem 0 < 2 ^ 64
    ∧ ((limb_sbb_at Backend.portable 64 State.init 0 0 (2 ^ 64 - 1) 1).1 = 0
        ∨ (limb_sbb_at Backend.portable 64 State.init 0 0 (2 ^ 64 - 1) 1).1 = 1)
    ∧ ((limb_sbb_at Backend.portable 64 State.init 0 0 (2 ^ 64 - 1) 1).2.mem 0 : Int)
        = (((0 : Nat) : Int) - ((2 ^ 64 - 1 : Nat) : Int) - ((1 : Nat) : Int)) % 2 ^ 64
    ∧ ((limb_sbb_at Backend.portable 64 State.init 0 0 (2 ^ 64 - 1) 1).1 = 1
        ↔ ((0 : Nat) : Int) - ((2 ^ 64 - 1 : Nat) : Int) - ((1 : Nat) : Int) < 0)) :=
  ⟨⟨by decide, by decide, by decide, by decide⟩,
    limb_sbb_contract Backend.portable 64 0 (2 ^ 64 - 1) 1 State.init 0
      (by decide) (by decide) (by decide) (by decide)⟩

/-- C5: assume that `constant_time_eq_w(x, y)` is the all-ones word when `x = y`
and 0 otherwise, and that `constant_time_select_w(mask, x, y)` is `x` for the
all-ones mask and `y` for the zero mask (on words). Then for every `num_limbs = n`,
`num_entries = k` (a word), table of `k * n` limbs, initial contents of a
destination `r` apart from the table, and every index `i < k`,
`limbs_select(r, table, n, k, i)` leaves `r[j] = table[i * n + j]` for all
`j < n`; and for the table `[10, 20, 30, 40]`, `n = 1`, `k = 4`, index 2 it leaves
`r = [30]`. -/
theorem limbs_select_correct (eq_w : Nat → Nat → Nat) (select_w : Nat → Nat → Nat → Nat)
    (W n k : Nat) (s : State) (r table index : Nat)
    (heq : ∀ x y, x < 2 ^ W → y < 2 ^ W → eq_w x y = if x = y then 2 ^ W - 1 else 0)
    (hsel1 : ∀ x y, x < 2 ^ W → y < 2 ^ W → select_w (2 ^ W - 1) x y = x)
    (hsel0 : ∀ x y, x < 2 ^ W → y < 2 ^ W → select_w 0 x y = y)
    (hk : k ≤ 2 ^ W)
    (htab : ∀ t, t < k * n → s.mem (table + t) < 2 ^ W)
    (hdis : Disjoint r n table (k * n))
    (hi : index < k) :
    (∀ j, j < n → (limbs_select eq_w select_w s r table n k index).mem (r + j)
        = s.mem (table + (index * n + j)))
    ∧ read_limbs (limbs_select (ct_eq_w 64) (ct_select_w 64) ex_select_state 4 0 1 4 2).mem 4 1
        = [30] := by
  refine ⟨?_, by decide⟩
  intro j hj
  have h := (limbs_select_mem eq_w select_w W n k s r table index heq hsel1 hsel0
    (by omega) hk htab hdis).1 j hj
  rw [h, if_pos hi]

/-- Witness of `limbs_select_correct` at the example of the claim, with the
reference helpers on 64-bit words. -/
theorem limbs_select_correct_witness :
    ((∀ x y, x < 2 ^ 64 → y < 2 ^ 64 → ct_eq_w 64 x y = if x = y then 2 ^ 64 - 1 else 0)
      ∧ (∀ x y, x < 2 ^ 64 → y < 2 ^ 64 → ct_select_w 64 (2 ^ 64 - 1) x y = x)
      ∧ (∀ x y, x < 2 ^ 64 → y < 2 ^ 64 → ct_select_w 64 0 x y = y)
      ∧ 4 ≤ 2 ^ 64
      ∧ (∀ t, t < 4 * 1 → ex_select_state.mem (0 + t) < 2 ^ 64)
      ∧ Disjoint 4 1 0 (4 * 1) ∧ 2 < 4)
    ∧ ((∀ j, j < 1 →
        (limbs_select (ct_eq_w 64) (ct_select_w 64) ex_select_state 4 0 1 4 2).mem (4 + j)
          = ex_select_state.mem (0 + (2 * 1 + j)))
    ∧ read_limbs (limbs_select (ct_eq_w 64) (ct_select_w 64) ex_select_state 4 0 1 4 2).mem 4 1
        = [30]) :=
  ⟨⟨fun _ _ _ _ => rfl, fun x y hx _ => ct_select_w_ones 64 x y hx,
      fun x y _ hy => ct_select_w_zero 64 x y hy, by decide, by decide, Or.inr (by decide),
      by decide⟩,
    limbs_select_correct (ct_eq_w 64) (ct_select_w 64) 64 1 4 ex_select_state 4 0 2
      (fun _ _ _ _ => rfl) (fun x y hx _ => ct_select_w_ones 64 x y hx)
      (fun x y _ hy => ct_select_w_zero 64 x y hy) (by decide) (by decide)
      (Or.inr (by decide)) (by decide)⟩

/-- C6: in-place use of `limbs_add` over one memory: for every `n ≥ 1` and arrays
`a`, `b` of length `n` (one and the same array, or two disjoint arrays),
`limbs_add(a, a, b, n)` and `limbs_add(b, a, b, n)` return the same carry and
leave the same `n` result limbs as `limbs_add(r, a, b, n)` with `r` disjoint from
`a` and `b`. -/
theorem limbs_add_in_place (bk : Backend) (W n : Nat) (s : State) (r a b : Nat)
    (hn : 1 ≤ n) (hab : a = b ∨ Disjoint a n b n)
    (hra : Disjoint r n a n) (hrb : Disjoint r n b n) :
    (limbs_add bk W s a a b n).1 = (limbs_add bk W s r a b n).1
    ∧ read_limbs (limbs_add bk W s a a b n).2.mem a n
        = read_limbs (limbs_add bk W s r a b n).2.mem r n
    ∧ (limbs_add bk W s b a b n).1 = (limbs_add bk W s r a b n).1
    ∧ read_limbs (limbs_add bk W s b a b n).2.mem b n
        = read_limbs (limbs_add bk W s r a b n).2.mem r n := by
  obtain ⟨d1, d2⟩ := limbs_add_result bk W s r a b n hn (noClobber_of_disjoint r a b n hra hrb)
  have hca : NoClobber a a b 0 n := by
    apply noClobber_of_le
    · exact Or.inl (le_refl _)
    · rcases hab with h | h
      · exact Or.inl (le_of_eq h)
      · exact Or.inr h
  have hcb : NoClobber b a b 0 n := by
    apply noClobber_of_le
    · rcases hab with h | h
      · exact Or.inl (le_of_eq h.symm)
      · right
        rcases h with h | h
        · exact Or.inr h
        · exact Or.inl h
    · exact Or.inl (le_refl _)
  obtain ⟨a1, a2⟩ := limbs_add_result bk W s a a b n hn hca
  obtain ⟨b1, b2⟩ := limbs_add_result bk W s b a b n hn hcb
  rw [d1, d2, a1, a2, b1, b2]
  exact ⟨rfl, rfl, rfl, rfl⟩

/-- Witness of `limbs_add_in_place` on the example memory, with `a` at 0, `b` at
2 and the disjoint destination at 4. -/
theorem limbs_add_in_place_witness :
    (1 ≤ 2 ∧ (0 = 2 ∨ Disjoint 0 2 2 2) ∧ Disjoint 4 2 0 2 ∧ Disjoint 4 2 2 2)
    ∧ ((limbs_add Backend.portable 64 ex_add_state 0 0 2 2).1
        = (limbs_add Backend.portable 64 ex_add_state 4 0 2 2).1
    ∧ read_limbs (limbs_add Backend.portable 64 ex_add_state 0 0 2 2).2.mem 0 2
        = read_limbs (limbs_add Backend.portable 64 ex_add_state 4 0 2 2).2.mem 4 2
    ∧ (limbs_add Backend.portable 64 ex_add_state 2 0 2 2).1
        = (limbs_add Backend.portable 64 ex_add_state 4 0 2 2).1
    ∧ read_limbs (limbs_add Backend.portable 64 ex_add_state 2 0 2 2).2.mem 2 2
        = read_limbs (limbs_add Backend.portable 64 ex_add_state 4 0 2 2).2.mem 4 2) :=
  ⟨⟨by decide, Or.inr (Or.inl (by decide)), Or.inr (by decide), Or.inr (by decide)⟩,
    limbs_add_in_place Backend.portable 64 2 ex_add_state 4 0 2 (by decide)
      (Or.inr (Or.inl (by decide))) (Or.inr (by decide)) (Or.inr (by decide))⟩

/-- C7, as stated, fails: with `a = [1, 2]` at address 0, `b = [0, 0]` at address
10 and `n = 2`, the destination `r` at address 1 overlaps `a` shifted up by one
limb; the write of `r[0]` lands on `a[1]` before it is read, and `limbs_add` and
`limbs_sub` both leave `[1, 1]` in `r`, where a disjoint destination (address 20)
receives `[1, 2]`. -/
theorem limbs_overlap_counterexample :
    read_limbs (limbs_add Backend.portable 64 ex_overlap_state 1 0 10 2).2.mem 1 2 = [1, 1]
    ∧ read_limbs (limbs_add Backend.portable 64 ex_overlap_state 20 0 10 2).2.mem 20 2 = [1, 2]
    ∧ read_limbs (limbs_sub Backend.portable 64 ex_overlap_state 1 0 10 2).2.mem 1 2 = [1, 1]
    ∧ read_limbs (limbs_sub Backend.portable 64 ex_overlap_state 20 0 10 2).2.mem 20 2 = [1, 2]
    ∧ read_limbs (limbs_add Backend.portable 64 ex_overlap_state 1 0 10 2).2.mem 1 2
        ≠ read_limbs (limbs_add Backend.portable 64 ex_overlap_state 20 0 10 2).2.mem 20 2
    ∧ read_limbs (limbs_sub Backend.portable 64 ex_overlap_state 1 0 10 2).2.mem 1 2
        ≠ read_limbs (limbs_sub Backend.portable 64 ex_overlap_state 20 0 10 2).2.mem 20 2 := by
  decide

/-- C7, amended: over one memory, for every `n ≥ 1` and every placement of the
`n`-limb destination `r` that, against each of the inputs `a` and `b`, starts at
the same address, starts at a lower address (overlapping or not), or is disjoint
from it, `limbs_add` and `limbs_sub` return the same carry/borrow and leave the
same `n` limbs in `r` as with a destination `r'` disjoint from `a` and `b`. -/
theorem limbs_overlap_safe (bk : Backend) (W n : Nat) (s : State) (r r' a b : Nat)
    (hn : 1 ≤ n) (ha : r ≤ a ∨ Disjoint r n a n) (hb : r ≤ b ∨ Disjoint r n b n)
    (hra : Disjoint r' n a n) (hrb : Disjoint r' n b n) :
    ((limbs_add bk W s r a b n).1 = (limbs_add bk W s r' a b n).1
      ∧ read_limbs (limbs_add bk W s r a b n).2.mem r n
          = read_limbs (limbs_add bk W s r' a b n).2.mem r' n)
    ∧ ((limbs_sub bk W s r a b n).1 = (limbs_sub bk W s r' a b n).1
      ∧ read_limbs (limbs_sub bk W s r a b n).2.mem r n
          = read_limbs (limbs_sub bk W s r' a b n).2.mem r' n) := by
  have hd := noClobber_of_disjoint r' a b n hra hrb
  have ho := noClobber_of_le r a b n ha hb
  obtain ⟨d1, d2⟩ := limbs_add_result bk W s r' a b n hn hd
  obtain ⟨o1, o2⟩ := limbs_add_result bk W s r a b n hn ho
  obtain ⟨e1, e2⟩ := limbs_sub_result bk W s r' a b n hn hd
  obtain ⟨p1, p2⟩ := limbs_sub_result bk W s r a b n hn ho
  rw [d1, d2, o1, o2, e1, e2, p1, p2]
  exact ⟨⟨rfl, rfl⟩, ⟨rfl, rfl⟩⟩

/-- Witness of `limbs_overlap_safe`: the destination one limb below `a`
(`a` at address 1, `r` at address 0, `b` at 10, the disjoint `r'` at 20). -/
theorem limbs_overlap_safe_witness :
    (1 ≤ 2 ∧ (0 ≤ 1 ∨ Disjoint 0 2 1 2) ∧ (0 ≤ 10 ∨ Disjoint 0 2 10 2)
      ∧ Disjoint 20 2 1 2 ∧ Disjoint 20 2 10 2)
    ∧ (((limbs_add Backend.portable 64 ex_overlap_state 0 1 10 2).1
          = (limbs_add Backend.portable 64 ex_overlap_state 20 1 10 2).1
      ∧ read_limbs (limbs_add Backend.portable 64 ex_overlap_state 0 1 10 2).2.mem 0 2
          = read_limbs (limbs_add Backend.portable 64 ex_overlap_state 20 1 10 2).2.mem 20 2)
    ∧ ((limbs_sub Backend.portable 64 ex_overlap_state 0 1 10 2).1
          = (limbs_sub Backend.portable 64 ex_overlap_state 20 1 10 2).1
      ∧ read_limbs (limbs_sub Backend.portable 64 ex_overlap_state 0 1 10 2).2.mem 0 2
          = read_limbs (limbs_sub Backend.portable 64 ex_overlap_state 20 1 10 2).2.mem 20 2)) :=
  ⟨⟨by decide, Or.inl (by decide), Or.inl (by decide), Or.inr (by decide), Or.inr (by decide)⟩,
    limbs_overlap_safe Backend.portable 64 2 ex_overlap_state 0 20 1 10 (by decide)
      (Or.inl (by decide)) (Or.inl (by decide)) (Or.inr (by decide)) (Or.inr (by decide))⟩

/-- C8: for a limb width `W` of 32 or 64 bits, all limbs `a`, `b` below `2 ^ W` and
a carry/borrow-in of 0 or 1, the three build variants of `limb_adc` (compiler
builtin, x86 intrinsic, portable double-width fallback) yield the same pair of
result and carry, and the three variants of `limb_sbb` yield the same pair of
result and borrow. -/
theorem backends_agree (W a b c : Nat) (hW : W = 32 ∨ W = 64) (ha : a < 2 ^ W)
    (hb : b < 2 ^ W) (hc : c = 0 ∨ c = 1) :
    limb_adc Backend.builtins W a b c = limb_adc Backend.portable W a b c
    ∧ limb_adc Backend.x86_intrinsics W a b c = limb_adc Backend.portable W a b c
    ∧ limb_sbb Backend.builtins W a b c = limb_sbb Backend.portable W a b c
    ∧ limb_sbb Backend.x86_intrinsics W a b c = limb_sbb Backend.portable W a b c := by
  have hW0 := width_pos W hW
  have hc1 : c ≤ 1 := by omega
  rw [limb_adc_eq Backend.builtins W a b c hW0 ha hb hc1,
    limb_adc_eq Backend.x86_intrinsics W a b c hW0 ha hb hc1,
    limb_adc_eq Backend.portable W a b c hW0 ha hb hc1,
    limb_sbb_eq Backend.builtins W a b c hW0 ha hb hc1,
    limb_sbb_eq Backend.x86_intrinsics W a b c hW0 ha hb hc1,
    limb_sbb_eq Backend.portable W a b c hW0 ha hb hc1]
  exact ⟨rfl, rfl, rfl, rfl⟩

/-- Witness of `backends_agree` at the wraparound boundary of 32-bit limbs. -/
theorem backends_agree_witness :
    ((32 = 32 ∨ 32 = 64) ∧ 2 ^ 32 - 1 < 2 ^ 32 ∧ (1 = 0 ∨ 1 = 1))
    ∧ (limb_adc Backend.builtins 32 (2 ^ 32 - 1) (2 ^ 32 - 1) 1
        = limb_adc Backend.portable 32 (2 ^ 32 - 1) (2 ^ 32 - 1) 1
    ∧ limb_adc Backend.x86_intrinsics 32 (2 ^ 32 - 1) (2 ^ 32 - 1) 1
        = limb_adc Backend.portable 32 (2 ^ 32 - 1) (2 ^ 32 - 1) 1
    ∧ limb_sbb Backend.builtins 32 (2 ^ 32 - 1) (2 ^ 32 - 1) 1
        = limb_sbb Backend.portable 32 (2 ^ 32 - 1) (2 ^ 32 - 1) 1
    ∧ limb_sbb Backend.x86_intrinsics 32 (2 ^ 32 - 1) (2 ^ 32 - 1) 1
        = limb_sbb Backend.portable 32 (2 ^ 32 - 1) (2 ^ 32 - 1) 1) :=
  ⟨⟨by decide, by decide, by decide⟩,
    backends_agree 32 (2 ^ 32 - 1) (2 ^ 32 - 1) 1 (by decide) (by decide) (by decide)
      (by decide)⟩

/-- C9: the work done by `limbs_select` does not depend on the index. For a fixed
table, `num_limbs = n`, `num_entries = k` and any two index values (in range or
not) the instrumented run appends the same sequence of events, namely
`limbs_select_trace`: the `n` zeroing writes `r[0], ..., r[n-1]`, then for each
entry `e = 0, ..., k - 1` in order one call of `constant_time_eq_w` and, for each
`j = 0, ..., n - 1` in order, one read of `table[e * n + j]` and one
`constant_time_select_w` (reading `r[j]`) written to `r[j]`. The run makes `k`
equality tests and `k * n` selects, and reads the table limbs
`table[0], ..., table[k * n - 1]` each exactly once, in this order. -/
theorem limbs_select_index_free (eq_w : Nat → Nat → Nat) (select_w : Nat → Nat → Nat → Nat)
    (s : State) (r table n k i1 i2 : Nat) :
    (limbs_select eq_w select_w s r table n k i1).trace
      = (limbs_select eq_w select_w s r table n k i2).trace
    ∧ (limbs_select eq_w select_w s r table n k i1).trace
      = s.trace ++ limbs_select_trace r table n k
    ∧ r_writes (limbs_zero_trace r n) = List.range' r n
    ∧ List.count Event.eq_w (limbs_select_trace r table n k) = k
    ∧ List.count Event.select_w (limbs_select_trace r table n k) = k * n
    ∧ table_reads (limbs_select_trace r table n k) = List.range' table (k * n)
    ∧ (∀ t, t < k * n → List.count (table + t) (table_reads (limbs_select_trace r table n k)) = 1)
    := by
  have htr : table_reads (limbs_select_trace r table n k) = List.range' table (k * n) := by
    have h1 := table_reads_zero r n
    have h2 := table_reads_outer r table n k 0
    unfold table_reads at h1 h2 ⊢
    unfold limbs_select_trace
    rw [List.filterMap_append, List.filterMap_append, h1, h2]
    simp [List.filterMap_cons]
  refine ⟨?_, limbs_select_trace_eq eq_w select_w s r table n k i1, ?_, ?_, ?_, htr, ?_⟩
  · rw [limbs_select_trace_eq, limbs_select_trace_eq]
  · have h := r_writes_zero r n 0
    simpa [limbs_zero_trace] using h
  · unfold limbs_select_trace
    rw [List.count_append, List.count_append, count_zero_trace _ r n (Or.inl rfl),
      count_flatMap_range' Event.eq_w _ 1 (count_eq_w_entry r table n)]
    simp [List.count_cons]
  · unfold limbs_select_trace
    rw [List.count_append, List.count_append, count_zero_trace _ r n (Or.inr rfl),
      count_flatMap_range' Event.select_w _ n (count_select_w_entry r table n)]
    simp [List.count_cons]
  · intro t ht
    rw [htr]
    apply List.count_eq_one_of_mem (List.nodup_range' _ _)
    rw [List.mem_range'_1]
    omega

/-- C11: for every `n`, every array `a` of length `n` and every initial content
of a destination `r` disjoint from `a`, `limbs_zero(r, n)` followed by
`limbs_copy(r, a, n)` leaves `r[i] = a[i]` for all `i < n` and leaves `a`
unchanged; `limbs_copy` alone leaves `r[i] = a[i]` as well, and the same memory. -/
theorem limbs_zero_then_copy (s : State) (r a n : Nat) (h : Disjoint r n a n) :
    (∀ i, i < n → (limbs_copy (limbs_zero s r n) r a n).mem (r + i) = s.mem (a + i))
    ∧ (∀ i, i < n → (limbs_copy (limbs_zero s r n) r a n).mem (a + i) = s.mem (a + i))
    ∧ (∀ i, i < n → (limbs_copy s r a n).mem (r + i) = s.mem (a + i))
    ∧ (limbs_copy (limbs_zero s r n) r a n).mem = (limbs_copy s r a n).mem := by
  have hc := limbs_copy_mem (limbs_zero s r n) r a n h
  have hc' := limbs_copy_mem s r a n h
  have hz := limbs_zero_mem s r n
  have hza : ∀ i, i < n → (limbs_zero s r n).mem (a + i) = s.mem (a + i) := by
    intro i hi
    have hB : ¬ (r ≤ a + i ∧ a + i < r + n) := by rcases h with h | h <;> omega
    rw [hz]
    simp only [hB, if_false]
  refine ⟨?_, ?_, ?_, ?_⟩
  · intro i hi
    have hB : r ≤ r + i ∧ r + i < r + n := by omega
    rw [hc]
    simp only [hB, and_self, if_true, Nat.add_sub_cancel_left]
    exact hza i hi
  · intro i hi
    have hB : ¬ (r ≤ a + i ∧ a + i < r + n) := by rcases h with h | h <;> omega
    rw [hc]
    simp only [hB, if_false]
    exact hza i hi
  · intro i hi
    have hB : r ≤ r + i ∧ r + i < r + n := by omega
    rw [hc']
    simp only [hB, and_self, if_true, Nat.add_sub_cancel_left]
  · rw [hc, hc']
    funext x
    by_cases hx : r ≤ x ∧ x < r + n
    · simp only [hx, and_self, if_true]
      have := hza (x - r) (by omega)
      exact this
    · simp only [hx, if_false]
      rw [hz]
      simp only [hx, if_false]

/-- Witness of `limbs_zero_then_copy`: `a = [5, 6, 7]` at address 0, `r` at 4. -/
theorem limbs_zero_then_copy_witness :
    Disjoint 4 3 0 3
    ∧ ((∀ i, i < 3 →
        (limbs_copy (limbs_zero ex_copy_state 4 3) 4 0 3).mem (4 + i) = ex_copy_state.mem (0 + i))
    ∧ (∀ i, i < 3 →
        (limbs_copy (limbs_zero ex_copy_state 4 3) 4 0 3).mem (0 + i) = ex_copy_state.mem (0 + i))
    ∧ (∀ i, i < 3 → (limbs_copy ex_copy_state 4 0 3).mem (4 + i) = ex_copy_state.mem (0 + i))
    ∧ (limbs_copy (limbs_zero ex_copy_state 4 3) 4 0 3).mem
        = (limbs_copy ex_copy_state 4 0 3).mem) :=
  ⟨Or.inr (by decide), limbs_zero_then_copy ex_copy_state 4 0 3 (Or.inr (by decide))⟩

/-- C12: `limbs_copy` is idempotent: for every `n`, every `a` of length `n` and
every initial `r` disjoint from `a`, `limbs_copy(r, a, n)` performed twice in
succession leaves the same memory (`r`, `a` and everything else) as performed
once. -/
theorem limbs_copy_idempotent (s : State) (r a n : Nat) (h : Disjoint r n a n) :
    (limbs_copy (limbs_copy s r a n) r a n).mem = (limbs_copy s r a n).mem := by
  have h1 := limbs_copy_mem s r a n h
  have h2 := limbs_copy_mem (limbs_copy s r a n) r a n h
  rw [h2, h1]
  funext x
  by_cases hx : r ≤ x ∧ x < r + n
  · have hB : ¬ (r ≤ a + (x - r) ∧ a + (x - r) < r + n) := by rcases h with h | h <;> omega
    simp only [hx, hB, and_self, if_true, if_false]
  · simp only [hx, if_false]

/-- Witness of `limbs_copy_idempotent`: `a = [5, 6, 7]` at address 0, `r` at 4. -/
theorem limbs_copy_idempotent_witness :
    Disjoint 4 3 0 3
    ∧ (limbs_copy (limbs_copy ex_copy_state 4 0 3) 4 0 3).mem
        = (limbs_copy ex_copy_state 4 0 3).mem :=
  ⟨Or.inr (by decide), limbs_copy_idempotent ex_copy_state 4 0 3 (Or.inr (by decide))⟩

/-- C13: for every `num_limbs = n` (0 included) and every initial content of
`r`, `limbs_zero(r, n)` leaves `r[i] = 0` for all `i < n`. -/
theorem limbs_zero_correct (s : State) (r n i : Nat) (hi : i < n) :
    (limbs_zero s r n).mem (r + i) = 0 := by
  have hB : r ≤ r + i ∧ r + i < r + n := by omega
  rw [limbs_zero_mem]
  simp only [hB, and_self, if_true]

/-- Witness of `limbs_zero_correct`: limb 2 of three limbs at address 0, which
holds 7 before. -/
theorem limbs_zero_correct_witness :
    2 < 3 ∧ ex_copy_state.mem (0 + 2) = 7 ∧ (limbs_zero ex_copy_state 0 3).mem (0 + 2) = 0 :=
  ⟨by decide, by decide, limbs_zero_correct ex_copy_state 0 3 2 (by decide)⟩

/-- C14, as stated, fails: `limb_add(r, 3, 5)` on 64-bit limbs stores 8 in `*r`
and returns 0, where `(3 - 5) mod 2 ^ 64` is `2 ^ 64 - 2` and the borrow of
`3 - 5` is 1. -/
theorem limb_add_counterexample :
    (limb_add_at Backend.portable 64 State.init 0 3 5).2.mem 0 = 8
    ∧ (limb_add_at Backend.portable 64 State.init 0 3 5).1 = 0
    ∧ ((3 : Int) - 5) % 2 ^ 64 = 18446744073709551614
    ∧ (limb_add_at Backend.portable 64 State.init 0 3 5).2.mem 0 ≠ 18446744073709551614
    ∧ (limb_add_at Backend.portable 64 State.init 0 3 5).1 ≠ 1 := by
  decide

/-- C14, amended: for a limb width `W` of 32 or 64 bits and all limbs `a`, `b`
below `2 ^ W`, `limb_add(r, a, b)`, in every build variant, stores
`(a + b) mod 2 ^ W` in `*r` and returns the carry bit: 1 if `a + b ≥ 2 ^ W` and 0
otherwise. -/
theorem limb_add_contract (bk : Backend) (W a b : Nat) (s : State) (r : Nat)
    (hW : W = 32 ∨ W = 64) (ha : a < 2 ^ W) (hb : b < 2 ^ W) :
    (limb_add_at bk W s r a b).2.mem r = (a + b) % 2 ^ W
    ∧ (limb_add_at bk W s r a b).1 = (if 2 ^ W ≤ a + b then 1 else 0) := by
  have hW0 := width_pos W hW
  have heq := limb_adc_eq bk W a b 0 hW0 ha hb (Nat.zero_le _)
  have hd := (div_mod_lt_two_mul (2 ^ W) (a + b) (by omega)).1
  have hmem : (limb_add_at bk W s r a b).2.mem r = (limb_adc bk W a b 0).1 := by
    simp [limb_add_at, limb_adc_at, State.store]
  have hcar : (limb_add_at bk W s r a b).1 = (limb_adc bk W a b 0).2 := rfl
  rw [hmem, hcar, heq]
  refine ⟨rfl, ?_⟩
  show (a + b + 0) / 2 ^ W = _
  rw [Nat.add_zero, hd]
  by_cases h : a + b < 2 ^ W
  · have h' : ¬ 2 ^ W ≤ a + b := by omega
    simp only [h, h', if_true, if_false]
  · have h' : 2 ^ W ≤ a + b := by omega
    simp only [h, h', if_true, if_false]

/-- Witness of `limb_add_contract` at the input of the counterexample. -/
theorem limb_add_contract_witness :
    ((64 = 32 ∨ 64 = 64) ∧ 3 < 2 ^ 64 ∧ 5 < 2 ^ 64)
    ∧ ((limb_add_at Backend.portable 64 State.init 0 3 5).2.mem 0 = (3 + 5) % 2 ^ 64
    ∧ (limb_add_at Backend.portable 64 State.init 0 3 5).1
        = (if 2 ^ 64 ≤ 3 + 5 then 1 else 0)) :=
  ⟨⟨by decide, by decide, by decide⟩,
    limb_add_contract Backend.portable 64 3 5 State.init 0 (by decide) (by decide) (by decide)⟩

/-- C15: sequential carry/borrow propagation. For a limb width `W` of 32 or 64
bits, every `n ≥ 1` and arrays `a`, `b` of `n` limbs (with `r` at or below, or
disjoint from, each of them), `limbs_add` leaves
`r[i] = (a[i] + b[i] + c_i) mod 2 ^ W` for each `i < n`, where `c_0 = 0` and
`c_(i+1)` is the carry out of `limb_adc(a[i], b[i], c_i)`, and returns `c_n`;
`limbs_sub` leaves `r[i] = (a[i] - b[i] - d_i) mod 2 ^ W`, where `d_0 = 0` and
`d_(i+1)` is the borrow out of `limb_sbb(a[i], b[i], d_i)`, and returns `d_n`; the
limbs are read and written at the indices `0, ..., n - 1`, once each, in
increasing order. -/
theorem limbs_carry_propagation (bk : Backend) (W n : Nat) (s : State) (r a b : Nat)
    (hW : W = 32 ∨ W = 64) (hn : 1 ≤ n)
    (hra : r ≤ a ∨ Disjoint r n a n) (hrb : r ≤ b ∨ Disjoint r n b n)
    (ha : ∀ k, k < n → s.mem (a + k) < 2 ^ W) (hb : ∀ k, k < n → s.mem (b + k) < 2 ^ W) :
    (carry_seq (limb_adc bk W) s.mem a b 0 0 = 0
      ∧ ∀ i, carry_seq (limb_adc bk W) s.mem a b 0 (i + 1)
          = (limb_adc bk W (s.mem (a + i)) (s.mem (b + i))
              (carry_seq (limb_adc bk W) s.mem a b 0 i)).2)
    ∧ (∀ i, i < n → (limbs_add bk W s r a b n).2.mem (r + i)
        = (s.mem (a + i) + s.mem (b + i) + carry_seq (limb_adc bk W) s.mem a b 0 i) % 2 ^ W)
    ∧ (limbs_add bk W s r a b n).1 = carry_seq (limb_adc bk W) s.mem a b 0 n
    ∧ (carry_seq (limb_sbb bk W) s.mem a b 0 0 = 0
      ∧ ∀ i, carry_seq (limb_sbb bk W) s.mem a b 0 (i + 1)
          = (limb_sbb bk W (s.mem (a + i)) (s.mem (b + i))
              (carry_seq (limb_sbb bk W) s.mem a b 0 i)).2)
    ∧ (∀ i, i < n → ((limbs_sub bk W s r a b n).2.mem (r + i) : Int)
        = ((s.mem (a + i) : Int) - (s.mem (b + i) : Int)
            - (carry_seq (limb_sbb bk W) s.mem a b 0 i : Int)) % 2 ^ W)
    ∧ (limbs_sub bk W s r a b n).1 = carry_seq (limb_sbb bk W) s.mem a b 0 n
    ∧ (limbs_add bk W s r a b n).2.trace = s.trace ++ limbs_carry_trace r a b n
    ∧ (limbs_sub bk W s r a b n).2.trace = s.trace ++ limbs_carry_trace r a b n
    ∧ r_writes (limbs_carry_trace r a b n) = List.range' r n
    ∧ reads_of Buf.a (limbs_carry_trace r a b n) = List.range' a n
    ∧ reads_of Buf.b (limbs_carry_trace r a b n) = List.range' b n := by
  have hW0 := width_pos W hW
  have hnc := noClobber_of_le r a b n hra hrb
  obtain ⟨a1, a2⟩ := limbs_add_seq bk W s r a b n hn hnc
  obtain ⟨s1, s2⟩ := limbs_sub_seq bk W s r a b n hn hnc
  have hca := carry_seq_le_one (limb_adc bk W) W s.mem a b n
    (fun x y c hx hy hc => (limb_adc_spec bk W x y c hW0 hx hy hc).2.1) ha hb
  have hcs := carry_seq_le_one (limb_sbb bk W) W s.mem a b n
    (fun x y c hx hy hc => (limb_sbb_spec bk W x y c hW0 hx hy hc).2.1) ha hb
  obtain ⟨o1, o2, o3⟩ := limbs_carry_trace_order r a b n hn
  refine ⟨⟨rfl, fun _ => rfl⟩, ?_, a1, ⟨rfl, fun _ => rfl⟩, ?_, s1,
    limbs_add_trace_eq bk W s r a b n, limbs_sub_trace_eq bk W s r a b n, o1, o2, o3⟩
  · intro i hi
    rw [a2 i hi, limb_adc_eq bk W _ _ _ hW0 (ha i hi) (hb i hi) (hca i (by omega))]
  · intro i hi
    rw [s2 i hi]
    exact limb_sbb_fst_int bk W _ _ _ hW0 (ha i hi) (hb i hi) (hcs i (by omega))

/-- Witness of `limbs_carry_propagation` on the example memory
(`a = [2^64 - 1, 0]` at 0, `b = [1, 0]` at 2), in place with `r = a`. -/
theorem limbs_carry_propagation_witness :
    ((64 = 32 ∨ 64 = 64) ∧ 1 ≤ 2 ∧ (0 ≤ 0 ∨ Disjoint 0 2 0 2) ∧ (0 ≤ 2 ∨ Disjoint 0 2 2 2)
      ∧ (∀ k, k < 2 → ex_add_state.mem (0 + k) < 2 ^ 64)
      ∧ (∀ k, k < 2 → ex_add_state.mem (2 + k) < 2 ^ 64))
    ∧ ((carry_seq (limb_adc Backend.portable 64) ex_add_state.mem 0 2 0 0 = 0
      ∧ ∀ i, carry_seq (limb_adc Backend.portable 64) ex_add_state.mem 0 2 0 (i + 1)
          = (limb_adc Backend.portable 64 (ex_add_state.mem (0 + i)) (ex_add_state.mem (2 + i))
              (carry_seq (limb_adc Backend.portable 64) ex_add_state.mem 0 2 0 i)).2)
    ∧ (∀ i, i < 2 → (limbs_add Backend.portable 64 ex_add_state 0 0 2 2).2.mem (0 + i)
        = (ex_add_state.mem (0 + i) + ex_add_state.mem (2 + i)
            + carry_seq (limb_adc Backend.portable 64) ex_add_state.mem 0 2 0 i) % 2 ^ 64)
    ∧ (limbs_add Backend.portable 64 ex_add_state 0 0 2 2).1
        = carry_seq (limb_adc Backend.portable 64) ex_add_state.mem 0 2 0 2
    ∧ (carry_seq (limb_sbb Backend.portable 64) ex_add_state.mem 0 2 0 0 = 0
      ∧ ∀ i, carry_seq (limb_sbb Backend.portable 64) ex_add_state.mem 0 2 0 (i + 1)
          = (limb_sbb Backend.portable 64 (ex_add_state.mem (0 + i)) (ex_add_state.mem (2 + i))
              (carry_seq (limb_sbb Backend.portable 64) ex_add_state.mem 0 2 0 i)).2)
    ∧ (∀ i, i < 2 → ((limbs_sub Backend.portable 64 ex_add_state 0 0 2 2).2.mem (0 + i) : Int)
        = ((ex_add_state.mem (0 + i) : Int) - (ex_add_state.mem (2 + i) : Int)
            - (carry_seq (limb_sbb Backend.portable 64) ex_add_state.mem 0 2 0 i : Int))
          % 2 ^ 64)
    ∧ (limbs_sub Backend.portable 64 ex_add_state 0 0 2 2).1
        = carry_seq (limb_sbb Backend.portable 64) ex_add_state.mem 0 2 0 2
    ∧ (limbs_add Backend.portable 64 ex_add_state 0 0 2 2).2.trace
        = ex_add_state.trace ++ limbs_carry_trace 0 0 2 2
    ∧ (limbs_sub Backend.portable 64 ex_add_state 0 0 2 2).2.trace
        = ex_add_state.trace ++ limbs_carry_trace 0 0 2 2
    ∧ r_writes (limbs_carry_trace 0 0 2 2) = List.range' 0 2
    ∧ reads_of Buf.a (limbs_carry_trace 0 0 2 2) = List.range' 0 2
    ∧ reads_of Buf.b (limbs_carry_trace 0 0 2 2) = List.range' 2 2) :=
  ⟨⟨by decide, by decide, Or.inl (by decide), Or.inl (by decide), by decide, by decide⟩,
    limbs_carry_propagation Backend.portable 64 2 ex_add_state 0 0 2 (by decide) (by decide)
      (Or.inl (by decide)) (Or.inl (by decide)) (by decide) (by decide)⟩

/-- C16: carry-bit invariant and validity of the assertions. For a limb width
`W` of 32 or 64 bits, every `n ≥ 1` and all arrays `a`, `b` of `n` limbs (and any
placement of `r`), the run of `limbs_add` with the assertions of every call of
`limb_adc`, and the run of `limbs_sub` with the assertions of every call of
`limb_sbb`, pass all of them (carry/borrow-in 0 or 1 at entry, returned
carry/borrow 0 or 1 at exit) and give the result of the run without assertions;
the value returned by `limbs_add` / `limbs_sub` is 0 or 1. -/
theorem limbs_assertions_hold (bk : Backend) (W n : Nat) (s : State) (r a b : Nat)
    (hW : W = 32 ∨ W = 64) (hn : 1 ≤ n)
    (ha : ∀ k, k < n → s.mem (a + k) < 2 ^ W) (hb : ∀ k, k < n → s.mem (b + k) < 2 ^ W) :
    limbs_add_checked bk W s r a b n = some (limbs_add bk W s r a b n)
    ∧ ((limbs_add bk W s r a b n).1 = 0 ∨ (limbs_add bk W s r a b n).1 = 1)
    ∧ limbs_sub_checked bk W s r a b n = some (limbs_sub bk W s r a b n)
    ∧ ((limbs_sub bk W s r a b n).1 = 0 ∨ (limbs_sub bk W s r a b n).1 = 1)
    ∧ (∀ x y c, x < 2 ^ W → y < 2 ^ W → c = 0 ∨ c = 1 →
        limb_adc_checked bk W x y c = some (limb_adc bk W x y c)
        ∧ ((limb_adc bk W x y c).2 = 0 ∨ (limb_adc bk W x y c).2 = 1))
    ∧ (∀ x y c, x < 2 ^ W → y < 2 ^ W → c = 0 ∨ c = 1 →
        limb_sbb_checked bk W x y c = some (limb_sbb bk W x y c)
        ∧ ((limb_sbb bk W x y c).2 = 0 ∨ (limb_sbb bk W x y c).2 = 1)) := by
  have hW0 := width_pos W hW
  obtain ⟨a1, a2⟩ := limbs_add_checked_eq bk W s r a b n hW0 hn ha hb
  obtain ⟨s1, s2⟩ := limbs_sub_checked_eq bk W s r a b n hW0 hn ha hb
  refine ⟨a1, by omega, s1, by omega, ?_, ?_⟩
  · intro x y c hx hy hc
    have h := (limb_adc_spec bk W x y c hW0 hx hy (by omega)).2.1
    exact ⟨limb_adc_checked_eq bk W x y c hW0 hx hy (by omega), by omega⟩
  · intro x y c hx hy hc
    have h := (limb_sbb_spec bk W x y c hW0 hx hy (by omega)).2.1
    exact ⟨limb_sbb_checked_eq bk W x y c hW0 hx hy (by omega), by omega⟩

/-- Witness of `limbs_assertions_hold` on a memory where the addition carries
out (`a = [2^64 - 1, 2^64 - 1]` at 0, `b = [1, 0]` at 2, `r` at 4). -/
theorem limbs_assertions_hold_witness :
    ((64 = 32 ∨ 64 = 64) ∧ 1 ≤ 2
      ∧ (∀ k, k < 2 → ex_carry_state.mem (0 + k) < 2 ^ 64)
      ∧ (∀ k, k < 2 → ex_carry_state.mem (2 + k) < 2 ^ 64))
    ∧ (limbs_add_checked Backend.portable 64 ex_carry_state 4 0 2 2
        = some (limbs_add Backend.portable 64 ex_carry_state 4 0 2 2)
    ∧ ((limbs_add Backend.portable 64 ex_carry_state 4 0 2 2).1 = 0
        ∨ (limbs_add Backend.portable 64 ex_carry_state 4 0 2 2).1 = 1)
    ∧ limbs_sub_checked Backend.portable 64 ex_carry_state 4 0 2 2
        = some (limbs_sub Backend.portable 64 ex_carry_state 4 0 2 2)
    ∧ ((limbs_sub Backend.portable 64 ex_carry_state 4 0 2 2).1 = 0
        ∨ (limbs_sub Backend.portable 64 ex_carry_state 4 0 2 2).1 = 1)
    ∧ (∀ x y c, x < 2 ^ 64 → y < 2 ^ 64 → c = 0 ∨ c = 1 →
        limb_adc_checked Backend.portable 64 x y c = some (limb_adc Backend.portable 64 x y c)
        ∧ ((limb_adc Backend.portable 64 x y c).2 = 0
          ∨ (limb_adc Backend.portable 64 x y c).2 = 1))
    ∧ (∀ x y c, x < 2 ^ 64 → y < 2 ^ 64 → c = 0 ∨ c = 1 →
        limb_sbb_checked Backend.portable 64 x y c = some (limb_sbb Backend.portable 64 x y c)
        ∧ ((limb_sbb Backend.portable 64 x y c).2 = 0
          ∨ (limb_sbb Backend.portable 64 x y c).2 = 1))) :=
  ⟨⟨by decide, by decide, by decide, by decide⟩,
    limbs_assertions_hold Backend.portable 64 2 ex_carry_state 4 0 2 (by decide) (by decide)
      (by decide) (by decide)⟩

/-- C17: subtraction undoes addition. For a limb width `W` of 32 or 64 bits,
every `n ≥ 1` and all arrays `a`, `b` of `n` limbs: if `limbs_add(sum, a, b, n)`
returns the carry `c` (with `sum` at or below `a` or disjoint from it, and
disjoint from `b`), then `limbs_sub(t, sum, b, n)` (with `t` at or below, or
disjoint from, each of `sum` and `b`) leaves `t[i] = a[i]` for all `i < n` and
returns a borrow equal to `c`. -/
theorem limbs_sub_undoes_add (bk : Backend) (W n : Nat) (s : State) (sum t a b : Nat)
    (hW : W = 32 ∨ W = 64) (hn : 1 ≤ n)
    (hsa : sum ≤ a ∨ Disjoint sum n a n) (hsb : Disjoint sum n b n)
    (hts : t ≤ sum ∨ Disjoint t n sum n) (htb : t ≤ b ∨ Disjoint t n b n)
    (ha : ∀ k, k < n → s.mem (a + k) < 2 ^ W) (hb : ∀ k, k < n → s.mem (b + k) < 2 ^ W) :
    (∀ i, i < n →
        (limbs_sub bk W (limbs_add bk W s sum a b n).2 t sum b n).2.mem (t + i) = s.mem (a + i))
    ∧ (limbs_sub bk W (limbs_add bk W s sum a b n).2 t sum b n).1
        = (limbs_add bk W s sum a b n).1 := by
  have hW0 := width_pos W hW
  obtain ⟨a1, a2⟩ := limbs_add_result bk W s sum a b n hn
    (noClobber_of_le sum a b n hsa (Or.inr hsb))
  have amem := (limbs_add_mem bk W s sum a b n hn
    (noClobber_of_le sum a b n hsa (Or.inr hsb))).2
  obtain ⟨s1, s2⟩ := limbs_sub_result bk W (limbs_add bk W s sum a b n).2 t sum b n hn
    (noClobber_of_le t sum b n hts htb)
  have hlen : (read_limbs s.mem a n).length = (read_limbs s.mem b n).length := by
    rw [read_limbs_length, read_limbs_length]
  have hb' : read_limbs (limbs_add bk W s sum a b n).2.mem b n = read_limbs s.mem b n := by
    rw [amem]
    apply read_limbs_poke_disjoint
    rw [carry_chain_length _ _ _ _ hlen, read_limbs_length]
    exact hsb
  have hcancel := chain_sbb_adc_cancel bk W hW0 (read_limbs s.mem a n) (read_limbs s.mem b n) 0
    hlen (mem_read_limbs s.mem a n (fun x => x < 2 ^ W) ha)
    (mem_read_limbs s.mem b n (fun x => x < 2 ^ W) hb) (Nat.zero_le _)
  rw [a2, hb', hcancel] at s1 s2
  refine ⟨?_, by rw [s1, a1]⟩
  intro i hi
  rw [← read_limbs_getD (limbs_sub bk W (limbs_add bk W s sum a b n).2 t sum b n).2.mem n t i hi,
    s2]
  exact read_limbs_getD s.mem n a i hi

/-- Witness of `limbs_sub_undoes_add` on a memory where the addition carries out
(`a = [2^64 - 1, 2^64 - 1]` at 0, `b = [1, 0]` at 2, `sum` at 4, `t` at 6). -/
theorem limbs_sub_undoes_add_witness :
    ((64 = 32 ∨ 64 = 64) ∧ 1 ≤ 2 ∧ (4 ≤ 0 ∨ Disjoint 4 2 0 2) ∧ Disjoint 4 2 2 2
      ∧ (6 ≤ 4 ∨ Disjoint 6 2 4 2) ∧ (6 ≤ 2 ∨ Disjoint 6 2 2 2)
      ∧ (∀ k, k < 2 → ex_carry_state.mem (0 + k) < 2 ^ 64)
      ∧ (∀ k, k < 2 → ex_carry_state.mem (2 + k) < 2 ^ 64))
    ∧ ((∀ i, i < 2 →
        (limbs_sub Backend.portable 64
          (limbs_add Backend.portable 64 ex_carry_state 4 0 2 2).2 6 4 2 2).2.mem (6 + i)
          = ex_carry_state.mem (0 + i))
    ∧ (limbs_sub Backend.portable 64
          (limbs_add Backend.portable 64 ex_carry_state 4 0 2 2).2 6 4 2 2).1
        = (limbs_add Backend.portable 64 ex_carry_state 4 0 2 2).1) :=
  ⟨⟨by decide, by decide, Or.inr (Or.inr (by decide)), Or.inr (by decide),
      Or.inr (Or.inr (by decide)), Or.inr (Or.inr (by decide)), by decide, by decide⟩,
    limbs_sub_undoes_add Backend.portable 64 2 ex_carry_state 4 6 0 2 (by decide) (by decide)
      (Or.inr (Or.inr (by decide))) (Or.inr (by decide)) (Or.inr (Or.inr (by decide)))
      (Or.inr (Or.inr (by decide))) (by decide) (by decide)⟩

/-- C18: out-of-range index in `limbs_select`. Under the assumptions of C5 on
`constant_time_eq_w` and `constant_time_select_w`, for every table, `num_limbs = n`,
`num_entries = k` (0 included), every initial content of `r` and every index word
with `index ≥ k`, `limbs_select(r, table, n, k, index)` returns and leaves
`r[j] = 0` for all `j < n`, and the limbs it reads through `table` are exactly
`table[0], ..., table[k * n - 1]`, none outside. -/
theorem limbs_select_out_of_range (eq_w : Nat → Nat → Nat) (select_w : Nat → Nat → Nat → Nat)
    (W n k : Nat) (s : State) (r table index : Nat)
    (heq : ∀ x y, x < 2 ^ W → y < 2 ^ W → eq_w x y = if x = y then 2 ^ W - 1 else 0)
    (hsel1 : ∀ x y, x < 2 ^ W → y < 2 ^ W → select_w (2 ^ W - 1) x y = x)
    (hsel0 : ∀ x y, x < 2 ^ W → y < 2 ^ W → select_w 0 x y = y)
    (hidx : index < 2 ^ W) (hk : k ≤ 2 ^ W)
    (htab : ∀ t, t < k * n → s.mem (table + t) < 2 ^ W)
    (hdis : Disjoint r n table (k * n))
    (hi : k ≤ index) :
    (∀ j, j < n → (limbs_select eq_w select_w s r table n k index).mem (r + j) = 0)
    ∧ (limbs_select eq_w select_w s r table n k index).trace
        = s.trace ++ limbs_select_trace r table n k
    ∧ table_reads (limbs_select_trace r table n k) = List.range' table (k * n)
    ∧ (∀ addr ∈ table_reads (limbs_select_trace r table n k),
        table ≤ addr ∧ addr < table + k * n) := by
  refine ⟨?_, limbs_select_trace_eq eq_w select_w s r table n k index,
    table_reads_select r table n k, ?_⟩
  · intro j hj
    have h := (limbs_select_mem eq_w select_w W n k s r table index heq hsel1 hsel0
      hidx hk htab hdis).1 j hj
    rw [h, if_neg (by omega)]
  · intro addr haddr
    rw [table_reads_select, List.mem_range'_1] at haddr
    exact haddr

/-- Witness of `limbs_select_out_of_range`: the table `[10, 20, 30, 40]` at
address 0, `n = 1`, `k = 4`, `r` at address 4 (holding 7), index 7. -/
theorem limbs_select_out_of_range_witness :
    ((∀ x y, x < 2 ^ 64 → y < 2 ^ 64 → ct_eq_w 64 x y = if x = y then 2 ^ 64 - 1 else 0)
      ∧ (∀ x y, x < 2 ^ 64 → y < 2 ^ 64 → ct_select_w 64 (2 ^ 64 - 1) x y = x)
      ∧ (∀ x y, x < 2 ^ 64 → y < 2 ^ 64 → ct_select_w 64 0 x y = y)
      ∧ 7 < 2 ^ 64 ∧ 4 ≤ 2 ^ 64
      ∧ (∀ t, t < 4 * 1 → ex_select_state.mem (0 + t) < 2 ^ 64)
      ∧ Disjoint 4 1 0 (4 * 1) ∧ 4 ≤ 7)
    ∧ ((∀ j, j < 1 →
        (limbs_select (ct_eq_w 64) (ct_select_w 64) ex_select_state 4 0 1 4 7).mem (4 + j) = 0)
    ∧ (limbs_select (ct_eq_w 64) (ct_select_w 64) ex_select_state 4 0 1 4 7).trace
        = ex_select_state.trace ++ limbs_select_trace 4 0 1 4
    ∧ table_reads (limbs_select_trace 4 0 1 4) = List.range' 0 (4 * 1)
    ∧ (∀ addr ∈ table_reads (limbs_select_trace 4 0 1 4), 0 ≤ addr ∧ addr < 0 + 4 * 1)) :=
  ⟨⟨fun _ _ _ _ => rfl, fun x y hx _ => ct_select_w_ones 64 x y hx,
      fun x y _ hy => ct_select_w_zero 64 x y hy, by decide, by decide, by decide,
      Or.inr (by decide), by decide⟩,
    limbs_select_out_of_range (ct_eq_w 64) (ct_select_w 64) 64 1 4 ex_select_state 4 0 7
      (fun _ _ _ _ => rfl) (fun x y hx _ => ct_select_w_ones 64 x y hx)
      (fun x y _ hy => ct_select_w_zero 64 x y hy) (by decide) (by decide) (by decide)
      (Or.inr (by decide)) (by decide)⟩

/-- C19: frame and bounds. When the arrays of `r`, `a`, `b` hold at least
`num_limbs = n` limbs and the table at least `num_entries * num_limbs = k * n`,
each of `limbs_add`, `limbs_sub` (for `n ≥ 1`), `limbs_copy`, `limbs_zero` and
`limbs_select` appends a trace all of whose accesses are at indices below `n` of
`r`, `a`, `b` and below `k * n` of the table, hence inside the arrays; and it
leaves every address outside `r[0 .. n)` as it was: the limbs `r[i]` with `i ≥ n`,
and the arrays `a`, `b` and the table where they are disjoint from `r`. -/
theorem limbs_frame_and_bounds (bk : Backend) (W : Nat) (eq_w : Nat → Nat → Nat)
    (select_w : Nat → Nat → Nat → Nat) (s : State) (r a b table n k index : Nat)
    (len_r len_a len_b len_t : Nat)
    (hlr : n ≤ len_r) (hla : n ≤ len_a) (hlb : n ≤ len_b) (hlt : k * n ≤ len_t) :
    (1 ≤ n →
      (limbs_add bk W s r a b n).2.trace = s.trace ++ limbs_carry_trace r a b n
      ∧ (limbs_sub bk W s r a b n).2.trace = s.trace ++ limbs_carry_trace r a b n
      ∧ (∀ e ∈ limbs_carry_trace r a b n,
          in_bounds (per_buf r a b table) (per_buf n n n (k * n)) e = true)
      ∧ (∀ e ∈ limbs_carry_trace r a b n,
          in_bounds (per_buf r a b table) (per_buf len_r len_a len_b len_t) e = true)
      ∧ (∀ x, x < r ∨ r + n ≤ x → (limbs_add bk W s r a b n).2.mem x = s.mem x)
      ∧ (∀ x, x < r ∨ r + n ≤ x → (limbs_sub bk W s r a b n).2.mem x = s.mem x))
    ∧ ((limbs_copy s r a n).trace = s.trace ++ limbs_copy_trace r a n
      ∧ (∀ e ∈ limbs_copy_trace r a n,
          in_bounds (per_buf r a b table) (per_buf n n n (k * n)) e = true)
      ∧ (∀ e ∈ limbs_copy_trace r a n,
          in_bounds (per_buf r a b table) (per_buf len_r len_a len_b len_t) e = true)
      ∧ (∀ x, x < r ∨ r + n ≤ x → (limbs_copy s r a n).mem x = s.mem x))
    ∧ ((limbs_zero s r n).trace = s.trace ++ limbs_zero_trace r n
      ∧ (∀ e ∈ limbs_zero_trace r n,
          in_bounds (per_buf r a b table) (per_buf n n n (k * n)) e = true)
      ∧ (∀ e ∈ limbs_zero_trace r n,
          in_bounds (per_buf r a b table) (per_buf len_r len_a len_b len_t) e = true)
      ∧ (∀ x, x < r ∨ r + n ≤ x → (limbs_zero s r n).mem x = s.mem x))
    ∧ ((limbs_select eq_w select_w s r table n k index).trace = s.trace ++ limbs_select_trace r table n k
      ∧ (∀ e ∈ limbs_select_trace r table n k,
          in_bounds (per_buf r a b table) (per_buf n n n (k * n)) e = true)
      ∧ (∀ e ∈ limbs_select_trace r table n k,
          in_bounds (per_buf r a b table) (per_buf len_r len_a len_b len_t) e = true)
      ∧ (∀ x, x < r ∨ r + n ≤ x → (limbs_select eq_w select_w s r table n k index).mem x = s.mem x)) := by
  have hmono : ∀ e, in_bounds (per_buf r a b table) (per_buf n n n (k * n)) e = true →
      in_bounds (per_buf r a b table) (per_buf len_r len_a len_b len_t) e = true := by
    intro e he
    refine in_bounds_mono _ _ _ ?_ e he
    intro buf
    cases buf <;> simp only [per_buf] <;> assumption
  refine ⟨?_, ⟨?_, ?_, ?_, ?_⟩, ⟨?_, ?_, ?_, ?_⟩, ⟨?_, ?_, ?_, ?_⟩⟩
  · intro hn
    exact ⟨limbs_add_trace_eq bk W s r a b n, limbs_sub_trace_eq bk W s r a b n,
      carry_trace_in_bounds r a b table n k hn,
      fun e he => hmono e (carry_trace_in_bounds r a b table n k hn e he),
      fun x hx => limbs_add_frame bk W s r a b n x hn hx,
      fun x hx => limbs_sub_frame bk W s r a b n x hn hx⟩
  · exact limbs_copy_trace_eq s r a n
  · exact copy_trace_in_bounds r a b table n k
  · exact fun e he => hmono e (copy_trace_in_bounds r a b table n k e he)
  · intro x hx
    simp only [limbs_copy]
    exact limbs_copy_loop_frame r a n 0 s x (by omega)
  · exact limbs_zero_trace_eq s r n
  · exact zero_trace_in_bounds r a b table n k
  · exact fun e he => hmono e (zero_trace_in_bounds r a b table n k e he)
  · intro x hx
    simp only [limbs_zero]
    exact limbs_zero_loop_frame r n 0 s x (by omega)
  · exact limbs_select_trace_eq eq_w select_w s r table n k index
  · exact select_trace_in_bounds r a b table n k
  · exact fun e he => hmono e (select_trace_in_bounds r a b table n k e he)
  · exact fun x hx => limbs_select_frame eq_w select_w s r table n k index x hx

/-- Witness of `limbs_frame_and_bounds`: `a` at 0, `b` at 2, `r` at 4 in an array
of 3 limbs, a table of 5 limbs at 8, `n = 2`, `k = 2`. -/
theorem limbs_frame_and_bounds_witness :
    (2 ≤ 3 ∧ 2 ≤ 2 ∧ 2 ≤ 2 ∧ 2 * 2 ≤ 5)
    ∧ ((1 ≤ 2 →
      (limbs_add Backend.portable 64 ex_add_state 4 0 2 2).2.trace = ex_add_state.trace ++ limbs_carry_trace 4 0 2 2
      ∧ (limbs_sub Backend.portable 64 ex_add_state 4 0 2 2).2.trace = ex_add_state.trace ++ limbs_carry_trace 4 0 2 2
      ∧ (∀ e ∈ limbs_carry_trace 4 0 2 2,
          in_bounds (per_buf 4 0 2 8) (per_buf 2 2 2 (2 * 2)) e = true)
      ∧ (∀ e ∈ limbs_carry_trace 4 0 2 2,
          in_bounds (per_buf 4 0 2 8) (per_buf 3 2 2 5) e = true)
      ∧ (∀ x, x < 4 ∨ 4 + 2 ≤ x → (limbs_add Backend.portable 64 ex_add_state 4 0 2 2).2.mem x = ex_add_state.mem x)
      ∧ (∀ x, x < 4 ∨ 4 + 2 ≤ x → (limbs_sub Backend.portable 64 ex_add_state 4 0 2 2).2.mem x = ex_add_state.mem x))
    ∧ ((limbs_copy ex_add_state 4 0 2).trace = ex_add_state.trace ++ limbs_copy_trace 4 0 2
      ∧ (∀ e ∈ limbs_copy_trace 4 0 2,
          in_bounds (per_buf 4 0 2 8) (per_buf 2 2 2 (2 * 2)) e = true)
      ∧ (∀ e ∈ limbs_copy_trace 4 0 2,
          in_bounds (per_buf 4 0 2 8) (per_buf 3 2 2 5) e = true)
      ∧ (∀ x, x < 4 ∨ 4 + 2 ≤ x → (limbs_copy ex_add_state 4 0 2).mem x = ex_add_state.mem x))
    ∧ ((limbs_zero ex_add_state 4 2).trace = ex_add_state.trace ++ limbs_zero_trace 4 2
      ∧ (∀ e ∈ limbs_zero_trace 4 2,
          in_bounds (per_buf 4 0 2 8) (per_buf 2 2 2 (2 * 2)) e = true)
      ∧ (∀ e ∈ limbs_zero_trace 4 2,
          in_bounds (per_buf 4 0 2 8) (per_buf 3 2 2 5) e = true)
      ∧ (∀ x, x < 4 ∨ 4 + 2 ≤ x → (limbs_zero ex_add_state 4 2).mem x = ex_add_state.mem x))
    ∧ ((limbs_select (ct_eq_w 64) (ct_select_w 64) ex_add_state 4 8 2 2 0).trace = ex_add_state.trace ++ limbs_select_trace 4 8 2 2
      ∧ (∀ e ∈ limbs_select_trace 4 8 2 2,
          in_bounds (per_buf 4 0 2 8) (per_buf 2 2 2 (2 * 2)) e = true)
      ∧ (∀ e ∈ limbs_select_trace 4 8 2 2,
          in_bounds (per_buf 4 0 2 8) (per_buf 3 2 2 5) e = true)
      ∧ (∀ x, x < 4 ∨ 4 + 2 ≤ x → (limbs_select (ct_eq_w 64) (ct_select_w 64) ex_add_state 4 8 2 2 0).mem x = ex_add_state.mem x))) :=
  ⟨⟨by decide, by decide, by decide, by decide⟩,
    limbs_frame_and_bounds Backend.portable 64 (ct_eq_w 64) (ct_select_w 64) ex_add_state
      4 0 2 8 2 2 0 3 2 2 5 (by decide) (by decide) (by decide) (by decide)⟩

/-- C20: prefix locality. For all `1 ≤ m ≤ n` and arrays `a`, `b` of `n` limbs
(with `r` at or below, or disjoint from, each of them), the low `m` result limbs
of `limbs_add(r, a, b, n)` are the result limbs of `limbs_add(r, a, b, m)`, which
reads the first `m` limbs of `a` and `b` only; the carry into limb `m` of the
`n`-limb run is the carry returned by the `m`-limb run: it is `c_m` of the carry
sequence, limb `m` of the `n`-limb run (when `m < n`) is the result of `limb_adc`
on `a[m]`, `b[m]` and that carry, and at `m = n` the two runs return the same
carry. The same holds for `limbs_sub` with borrows. -/
theorem limbs_carry_prefix (bk : Backend) (W : Nat) (s : State) (r a b m n : Nat)
    (hm : 1 ≤ m) (hmn : m ≤ n)
    (hra : r ≤ a ∨ Disjoint r n a n) (hrb : r ≤ b ∨ Disjoint r n b n) :
    ((∀ i, i < m →
        (limbs_add bk W s r a b n).2.mem (r + i) = (limbs_add bk W s r a b m).2.mem (r + i))
      ∧ (limbs_add bk W s r a b m).1 = carry_seq (limb_adc bk W) s.mem a b 0 m
      ∧ (m < n → (limbs_add bk W s r a b n).2.mem (r + m)
          = (limb_adc bk W (s.mem (a + m)) (s.mem (b + m)) (limbs_add bk W s r a b m).1).1)
      ∧ (m = n → (limbs_add bk W s r a b n).1 = (limbs_add bk W s r a b m).1)
      ∧ (limbs_add bk W s r a b m).2.trace = s.trace ++ limbs_carry_trace r a b m
      ∧ reads_of Buf.a (limbs_carry_trace r a b m) = List.range' a m
      ∧ reads_of Buf.b (limbs_carry_trace r a b m) = List.range' b m)
    ∧ ((∀ i, i < m →
        (limbs_sub bk W s r a b n).2.mem (r + i) = (limbs_sub bk W s r a b m).2.mem (r + i))
      ∧ (limbs_sub bk W s r a b m).1 = carry_seq (limb_sbb bk W) s.mem a b 0 m
      ∧ (m < n → (limbs_sub bk W s r a b n).2.mem (r + m)
          = (limb_sbb bk W (s.mem (a + m)) (s.mem (b + m)) (limbs_sub bk W s r a b m).1).1)
      ∧ (m = n → (limbs_sub bk W s r a b n).1 = (limbs_sub bk W s r a b m).1)
      ∧ (limbs_sub bk W s r a b m).2.trace = s.trace ++ limbs_carry_trace r a b m) := by
  have hn : 1 ≤ n := by omega
  have hcn := noClobber_of_le r a b n hra hrb
  have hcm := noClobber_mono r a b m n hmn hcn
  obtain ⟨an1, an2⟩ := limbs_add_seq bk W s r a b n hn hcn
  obtain ⟨am1, am2⟩ := limbs_add_seq bk W s r a b m hm hcm
  obtain ⟨sn1, sn2⟩ := limbs_sub_seq bk W s r a b n hn hcn
  obtain ⟨sm1, sm2⟩ := limbs_sub_seq bk W s r a b m hm hcm
  obtain ⟨_, o2, o3⟩ := limbs_carry_trace_order r a b m hm
  refine ⟨⟨?_, am1, ?_, ?_, limbs_add_trace_eq bk W s r a b m, o2, o3⟩,
    ⟨?_, sm1, ?_, ?_, limbs_sub_trace_eq bk W s r a b m⟩⟩
  · intro i hi
    rw [an2 i (by omega), am2 i hi]
  · intro hlt
    rw [an2 m hlt, am1]
  · intro he
    subst he
    rfl
  · intro i hi
    rw [sn2 i (by omega), sm2 i hi]
  · intro hlt
    rw [sn2 m hlt, sm1]
  · intro he
    subst he
    rfl

/-- Witness of `limbs_carry_prefix`: the first limb of a two-limb run on a memory
where limb 0 carries into limb 1 (`a = [2^64 - 1, 2^64 - 1]` at 0, `b = [1, 0]`
at 2, `r` at 4). -/
theorem limbs_carry_prefix_witness :
    (1 ≤ 1 ∧ 1 ≤ 2 ∧ (4 ≤ 0 ∨ Disjoint 4 2 0 2) ∧ (4 ≤ 2 ∨ Disjoint 4 2 2 2))
    ∧ (((∀ i, i < 1 →
        (limbs_add Backend.portable 64 ex_carry_state 4 0 2 2).2.mem (4 + i)
          = (limbs_add Backend.portable 64 ex_carry_state 4 0 2 1).2.mem (4 + i))
      ∧ (limbs_add Backend.portable 64 ex_carry_state 4 0 2 1).1
          = carry_seq (limb_adc Backend.portable 64) ex_carry_state.mem 0 2 0 1
      ∧ (1 < 2 → (limbs_add Backend.portable 64 ex_carry_state 4 0 2 2).2.mem (4 + 1)
          = (limb_adc Backend.portable 64 (ex_carry_state.mem (0 + 1))
              (ex_carry_state.mem (2 + 1))
              (limbs_add Backend.portable 64 ex_carry_state 4 0 2 1).1).1)
      ∧ (1 = 2 → (limbs_add Backend.portable 64 ex_carry_state 4 0 2 2).1
          = (limbs_add Backend.portable 64 ex_carry_state 4 0 2 1).1)
      ∧ (limbs_add Backend.portable 64 ex_carry_state 4 0 2 1).2.trace
          = ex_carry_state.trace ++ limbs_carry_trace 4 0 2 1
      ∧ reads_of Buf.a (limbs_carry_trace 4 0 2 1) = List.range' 0 1
      ∧ reads_of Buf.b (limbs_carry_trace 4 0 2 1) = List.range' 2 1)
    ∧ ((∀ i, i < 1 →
        (limbs_sub Backend.portable 64 ex_carry_state 4 0 2 2).2.mem (4 + i)
          = (limbs_sub Backend.portable 64 ex_carry_state 4 0 2 1).2.mem (4 + i))
      ∧ (limbs_sub Backend.portable 64 ex_carry_state 4 0 2 1).1
          = carry_seq (limb_sbb Backend.portable 64) ex_carry_state.mem 0 2 0 1
      ∧ (1 < 2 → (limbs_sub Backend.portable 64 ex_carry_state 4 0 2 2).2.mem (4 + 1)
          = (limb_sbb Backend.portable 64 (ex_carry_state.mem (0 + 1))
              (ex_carry_state.mem (2 + 1))
              (limbs_sub Backend.portable 64 ex_carry_state 4 0 2 1).1).1)
      ∧ (1 = 2 → (limbs_sub Backend.portable 64 ex_carry_state 4 0 2 2).1
          = (limbs_sub Backend.portable 64 ex_carry_state 4 0 2 1).1)
      ∧ (limbs_sub Backend.portable 64 ex_carry_state 4 0 2 1).2.trace
          = ex_carry_state.trace ++ limbs_carry_trace 4 0 2 1)) :=
  ⟨⟨by decide, by decide, Or.inr (Or.inr (by decide)), Or.inr (Or.inr (by decide))⟩,
    limbs_carry_prefix Backend.portable 64 ex_carry_state 4 0 2 1 2 (by decide) (by decide)
      (Or.inr (Or.inr (by decide))) (Or.inr (Or.inr (by decide)))⟩

end Limbs
